import Mathlib

/-!
GreenLake client (`pkg/greenlake/client.go`)

A shallow embedding of the GreenLake API client: the two constructors, the
request construction of `GetToken` and `GetUsers`, and the shared executor
`doRequest`, together with the parts of the Go standard library whose
behaviour the client depends on (`fmt.Sprintf` without operands,
`net/http` request construction, `encoding/json`).

Conventions.
* Go `string` values are Lean `String`s, that is, valid UTF-8 text.
* Go `[]byte` values are `List UInt8`; a nil slice is `none`.
* A Go `error` is `Option GoError`, `none` being the nil error.
* The network is a parameter (`Net`): what `url.Parse` accepts and what
  `http.Client.Do` answers are supplied by the environment.
-/

namespace greenlake

/-! ## `fmt.Sprintf` with a format string and no operands -/

/-- The flag characters skipped by `doPrintf` right after a percent sign. -/
def isFlag (c : Char) : Bool :=
  c == '#' || c == '0' || c == '+' || c == '-' || c == ' '

/-- The flag loop of `doPrintf`. With no operand left the fast path for simple
verbs is never taken, so the loop only skips flags. -/
def skipFlags : List Char → List Char
  | [] => []
  | c :: cs => if isFlag c then skipFlags cs else c :: cs

/-- The guard `fmt.tooLarge`: a width, precision or index beyond a million. -/
def tooLarge (x : Nat) : Bool := decide (x > 1000000)

/-- The loop of `fmt.parsenum` over the segment `s[start:end]`: the number
read, whether a digit was seen, and the text left. On overflow `parsenum`
answers `(0, false, end)`, that is, nothing is left of the segment. -/
def parsenumLoop : Nat → Bool → List Char → Nat × Bool × List Char
  | num, isnum, [] => (num, isnum, [])
  | num, isnum, c :: cs =>
    if c.isDigit then
      if tooLarge num then (0, false, [])
      else parsenumLoop (num * 10 + (c.toNat - 48)) true cs
    else (num, isnum, c :: cs)

/-- The function `fmt.parsenum` on a segment. -/
def parsenum (seg : List Char) : Nat × Bool × List Char :=
  parsenumLoop 0 false seg

/-- The function `fmt.parseArgNumber` on text that starts with an opening
square bracket: the width of the bracketed index and whether it is a number.
Without a closing bracket, or with fewer than three characters, only the
opening bracket is skipped. -/
def parseArgNumber (cs : List Char) : Nat × Bool :=
  if cs.length < 3 then (1, false)
  else
    match cs.tail.span (fun c => c != ']') with
    | (_, []) => (1, false)
    | (seg, _ :: _) =>
      match parsenum seg with
      | (_, isnum, []) => (seg.length + 2, isnum)
      | (_, _, _ :: _) => (seg.length + 2, false)

/-- The method `pp.argNumber` when the call has no operands: an explicit index
`[n]` can never be in range, so finding a bracket always clears `goodArgNum`.
Answers the text left, `found`, and the new `goodArgNum`. -/
def argNumber (cs : List Char) (good : Bool) : List Char × Bool × Bool :=
  match cs with
  | '[' :: _ =>
    match parseArgNumber cs with
    | (wid, ok) => (cs.drop wid, ok, false)
  | _ => (cs, false, good)

/-- The text `%!(BADWIDTH)`. -/
def badWidthString : List Char := "%!(BADWIDTH)".data

/-- The text `%!(BADPREC)`. -/
def badPrecString : List Char := "%!(BADPREC)".data

/-- The text `%!(NOVERB)`. -/
def noVerbString : List Char := "%!(NOVERB)".data

/-- The method `pp.badArgNum`. -/
def badArgNum (verb : Char) : List Char := "%!".data ++ verb :: "(BADINDEX)".data

/-- The method `pp.missingArg`. -/
def missingArg (verb : Char) : List Char := "%!".data ++ verb :: "(MISSING)".data

/-- The width step of `doPrintf` without operands: a star has no operand to
read (`%!(BADWIDTH)` is written), otherwise a number is parsed. Answers the
text left, the output, `afterIndex` and `goodArgNum`. -/
def widthStep (cs : List Char) (afterIndex good : Bool) :
    List Char × List Char × Bool × Bool :=
  match cs with
  | '*' :: r => (r, badWidthString, false, good)
  | _ =>
    match parsenum cs with
    | (_, present, r) => (r, [], afterIndex, good && !(afterIndex && present))

/-- The precision step of `doPrintf` without operands. -/
def precStep (cs : List Char) (afterIndex good : Bool) :
    List Char × List Char × Bool × Bool :=
  match cs with
  | '.' :: r =>
    match argNumber r (good && !afterIndex) with
    | ('*' :: r2, _, good2) => (r2, badPrecString, false, good2)
    | (r1, afterIndex2, good2) =>
      match parsenum r1 with
      | (_, _, r2) => (r2, [], afterIndex2, good2)
  | _ => (cs, [], afterIndex, good)

/-- One verb of `doPrintf`, on the text that follows the percent sign, when
the call has no operands: the output written and the text left. -/
def doVerb (cs : List Char) : List Char × List Char :=
  match argNumber (skipFlags cs) true with
  | (cs1, afterIndex1, good1) =>
    match widthStep cs1 afterIndex1 good1 with
    | (cs2, out2, afterIndex2, good2) =>
      match precStep cs2 afterIndex2 good2 with
      | (cs3, out3, afterIndex3, good3) =>
        match (if afterIndex3 then (cs3, afterIndex3, good3) else argNumber cs3 good3) with
        | ([], _, _) => (out2 ++ out3 ++ noVerbString, [])
        | (verb :: rest, _, good4) =>
          if verb == '%' then (out2 ++ out3 ++ ['%'], rest)
          else if !good4 then (out2 ++ out3 ++ badArgNum verb, rest)
          else (out2 ++ out3 ++ missingArg verb, rest)

/-- The format loop of `fmt.(*pp).doPrintf` with an empty operand list. Each
round consumes at least one character, so the length of the format is enough
fuel (`doPrintf_fuel`). -/
def doPrintf : Nat → List Char → List Char
  | 0, _ => []
  | _ + 1, [] => []
  | fuel + 1, c :: cs =>
    if c != '%' then c :: doPrintf fuel cs
    else
      match doVerb cs with
      | (out, rest) => out ++ doPrintf fuel rest

/-- The call `fmt.Sprintf(format)`: a format string and no operands. -/
def Sprintf (format : String) : String :=
  String.mk (doPrintf format.data.length format.data)

/-! ## Errors, `net/http` requests and responses -/

/-- A Go `error` value. -/
inductive GoError where
  /-- An error known by its text: `errors.New`, `fmt.Errorf`, and the errors
  handed up by `net/url`, `net/http` and `io`, whose texts are inputs here. -/
  | text (msg : String)
  /-- A `*json.SyntaxError`: the input is not a JSON text. -/
  | invalidJSON
  /-- A `*json.UnmarshalTypeError`: the JSON value described by `value` does not
  fit the Go field reached by the key `field` (empty at the top level). -/
  | unmarshalType (value : String) (field : String)
  deriving DecidableEq, Repr

/-- The call `fmt.Errorf(pre + "%s", arg)` for a constant `pre` without a
percent sign and a string operand: the verb `%s` writes the operand as it is. -/
def Errorf_s (pre arg : String) : GoError := .text (pre ++ arg)

/-- A Go `[]byte`. -/
abbrev Bytes := List UInt8

/-- An `http.Header` restricted to single-valued keys. -/
abbrev Header := List (String × String)

/-- The method `Header.Set` for a key already in canonical MIME form (as are
`Content-Type`, `Accept` and `Authorization`): the value replaces any other. -/
def Header.Set (h : Header) (key value : String) : Header :=
  (key, value) :: h.filter (fun p => p.1 != key)

/-- The method `Header.Get`: the value under the key, or the empty string. -/
def Header.Get (h : Header) (key : String) : String :=
  (h.lookup key).getD ""

/-- An `*http.Request` as far as the client fills it in. `URL` is the text
given to `http.NewRequest`; `Body` is `none` for a nil body. -/
structure Request where
  Method : String
  URL : String
  Header : Header
  Body : Option Bytes
  deriving DecidableEq, Repr

/-- A response body stream (`io.ReadCloser`): the bytes it delivers, the error
that ends the reading if there is one, and whether `Close` was called. -/
structure ReadCloser where
  data : Bytes
  failure : Option GoError
  closed : Bool
  deriving DecidableEq, Repr

/-- The function `ioutil.ReadAll`: the bytes read and the error, nil at a
clean end of the stream. -/
def ReadAll (r : ReadCloser) : Bytes × Option GoError := (r.data, r.failure)

/-- The method `Close` of a response body. -/
def ReadCloser.Close (r : ReadCloser) : ReadCloser := { r with closed := true }

/-- An `*http.Response`. -/
structure Response where
  Status : String
  StatusCode : Int
  Body : ReadCloser
  deriving DecidableEq, Repr

/-- The environment of a call: `urlError` is the error `url.Parse` reports for
a URL text (`none` when the text parses), `Do` is the round trip of
`http.Client.Do` over the transport that skips certificate verification. -/
structure Net where
  urlError : String → Option GoError
  Do : Request → Except GoError Response

/-- The function `http.NewRequest` for the method literals `GET` and `POST`
(both valid method tokens): it fails exactly when the URL does not parse. -/
def NewRequest (net : Net) (method url : String) (body : Option Bytes) :
    Except GoError Request :=
  match net.urlError url with
  | some err => .error err
  | none => .ok { Method := method, URL := url, Header := [], Body := body }

/-- What a call leaves behind: the value returned, the error returned, and the
response body stream as it stands when the call returns (`none` when no
response was received). -/
structure Outcome (α : Type) where
  val : α
  err : Option GoError
  stream : Option ReadCloser

/-! ## `unicode/utf8`: decoding bytes to runes -/

/-- The rune `utf8.RuneError` (U+FFFD). -/
def RuneError : Char := Char.ofNat 0xFFFD

/-- The entry of the table `first` for the lead byte of a multi-byte
encoding: the width, and the range `acceptRanges` allows for the second byte.
`none` stands for the entries `xx` (no lead byte). -/
def firstInfo (x : Nat) : Option (Nat × Nat × Nat) :=
  if x < 0xC2 then none
  else if x < 0xE0 then some (2, 0x80, 0xBF)
  else if x = 0xE0 then some (3, 0xA0, 0xBF)
  else if x = 0xED then some (3, 0x80, 0x9F)
  else if x < 0xF0 then some (3, 0x80, 0xBF)
  else if x = 0xF0 then some (4, 0x90, 0xBF)
  else if x < 0xF4 then some (4, 0x80, 0xBF)
  else if x = 0xF4 then some (4, 0x80, 0x8F)
  else none

/-- The function `utf8.DecodeRune`: the first rune of the bytes and its width.
An invalid or short encoding gives `RuneError` with width 1. -/
def DecodeRune (p : Bytes) : Char × Nat :=
  match p with
  | [] => (RuneError, 0)
  | p0 :: rest =>
    if p0.toNat < 0x80 then (Char.ofNat p0.toNat, 1)
    else
      match firstInfo p0.toNat with
      | none => (RuneError, 1)
      | some (sz, lo, hi) =>
        if p.length < sz then (RuneError, 1)
        else
          match rest with
          | [] => (RuneError, 1)
          | q1 :: rest1 =>
            if q1.toNat < lo ∨ hi < q1.toNat then (RuneError, 1)
            else if sz ≤ 2 then (Char.ofNat (p0.toNat % 32 * 64 + q1.toNat % 64), 2)
            else
              match rest1 with
              | [] => (RuneError, 1)
              | q2 :: rest2 =>
                if q2.toNat < 0x80 ∨ 0xBF < q2.toNat then (RuneError, 1)
                else if sz ≤ 3 then
                  (Char.ofNat (p0.toNat % 16 * 4096 + q1.toNat % 64 * 64 + q2.toNat % 64), 3)
                else
                  match rest2 with
                  | [] => (RuneError, 1)
                  | q3 :: _ =>
                    if q3.toNat < 0x80 ∨ 0xBF < q3.toNat then (RuneError, 1)
                    else
                      (Char.ofNat (p0.toNat % 8 * 262144 + q1.toNat % 64 * 4096
                        + q2.toNat % 64 * 64 + q3.toNat % 64), 4)

/-- Decoding rune after rune; `skip` counts the bytes of the current rune
still to pass over. -/
def decodeRunesFrom : Nat → Bytes → List Char
  | _, [] => []
  | skip + 1, _ :: bs => decodeRunesFrom skip bs
  | 0, b :: bs =>
    match DecodeRune (b :: bs) with
    | (r, size) => r :: decodeRunesFrom (size - 1) bs

/-- The runes of a byte slice, each invalid byte read as `RuneError`. -/
def decodeRunes (p : Bytes) : List Char := decodeRunesFrom 0 p

/-- The function `utf8.EncodeRune` for a valid rune: one to four bytes. -/
def EncodeRune (c : Char) : Bytes :=
  let v := c.toNat
  if v < 0x80 then [UInt8.ofNat v]
  else if v < 0x800 then [UInt8.ofNat (0xC0 + v / 64), UInt8.ofNat (0x80 + v % 64)]
  else if v < 0x10000 then
    [UInt8.ofNat (0xE0 + v / 4096), UInt8.ofNat (0x80 + v / 64 % 64), UInt8.ofNat (0x80 + v % 64)]
  else
    [UInt8.ofNat (0xF0 + v / 262144), UInt8.ofNat (0x80 + v / 4096 % 64),
      UInt8.ofNat (0x80 + v / 64 % 64), UInt8.ofNat (0x80 + v % 64)]

/-- The bytes of a text (`[]byte(s)`). -/
def encodeRunes (cs : List Char) : Bytes := cs.flatMap EncodeRune

/-! ## `encoding/json`: values, scanner and parser -/

/-- A JSON value. A number keeps its literal, as the decoder hands it to
`strconv`. -/
inductive Json where
  | null
  | bool (b : Bool)
  | num (lit : String)
  | str (s : String)
  | arr (elems : List Json)
  | obj (members : List (String × Json))

/-- The tokens of a JSON text. -/
inductive Tok where
  | lbrace | rbrace | lbrack | rbrack | colon | comma
  | str (s : String)
  | num (lit : String)
  | tru | fls | nul
  deriving DecidableEq, Repr

/-- The scanner states inside a number (`stateNeg`, `state0`, `state1`,
`stateDot`, `stateDot0`, `stateE`, `stateESign`, `stateE0`). -/
inductive NumState where
  | neg | zero | int | dot | dot0 | e | esign | e0
  deriving DecidableEq, Repr

/-- The states in which a number may end. -/
def NumState.final : NumState → Bool
  | .zero | .int | .dot0 | .e0 => true
  | _ => false

/-- The state of the scanner between and inside tokens. Inside a string `acc`
holds the decoded runes, last first, and `hi` a high surrogate read from a
`\u` escape that waits for its low surrogate. -/
inductive Lex where
  | start
  | inString (acc : List Char) (hi : Option Nat)
  | inStringEsc (acc : List Char) (hi : Option Nat)
  | inStringEscU (acc : List Char) (hi : Option Nat) (n : Nat) (v : Nat)
  | number (st : NumState) (acc : List Char)
  | word (rest : List Char) (tok : Tok)
  deriving DecidableEq, Repr

/-- The white space of JSON (`isSpace`). -/
def isSpace (c : Char) : Bool :=
  c == ' ' || c == '\t' || c == '\r' || c == '\n'

/-- The value of a hexadecimal digit (`getu4`). -/
def hexValue (c : Char) : Option Nat :=
  if '0' ≤ c ∧ c ≤ '9' then some (c.toNat - 48)
  else if 'a' ≤ c ∧ c ≤ 'f' then some (c.toNat - 87)
  else if 'A' ≤ c ∧ c ≤ 'F' then some (c.toNat - 55)
  else none

/-- A pending high surrogate that found no partner becomes U+FFFD. -/
def flushHi (acc : List Char) (hi : Option Nat) : List Char :=
  match hi with
  | none => acc
  | some _ => RuneError :: acc

/-- The rune of a finished `\uXXXX` escape, as `unquote` decodes it: a high
surrogate waits for the next escape, a pair gives one rune, a surrogate
without partner gives U+FFFD. -/
def endEscU (acc : List Char) (hi : Option Nat) (v : Nat) : Lex :=
  let isHigh := decide (0xD800 ≤ v) && decide (v < 0xDC00)
  let isLow := decide (0xDC00 ≤ v) && decide (v < 0xE000)
  match hi with
  | some h =>
    if isLow then
      .inString (Char.ofNat ((h - 0xD800) * 1024 + (v - 0xDC00) + 0x10000) :: acc) none
    else if isHigh then .inString (RuneError :: acc) (some v)
    else .inString (Char.ofNat v :: RuneError :: acc) none
  | none =>
    if isHigh then .inString acc (some v)
    else if isLow then .inString (RuneError :: acc) none
    else .inString (Char.ofNat v :: acc) none

/-- The scanner at the beginning of a token (`stateBeginValue` and the
punctuation of `stateEndValue`). -/
def lexStart (c : Char) : Option (Lex × List Tok) :=
  if isSpace c then some (.start, [])
  else if c == '{' then some (.start, [.lbrace])
  else if c == '}' then some (.start, [.rbrace])
  else if c == '[' then some (.start, [.lbrack])
  else if c == ']' then some (.start, [.rbrack])
  else if c == ':' then some (.start, [.colon])
  else if c == ',' then some (.start, [.comma])
  else if c == '"' then some (.inString [] none, [])
  else if c == '-' then some (.number .neg [c], [])
  else if c == '0' then some (.number .zero [c], [])
  else if '1' ≤ c ∧ c ≤ '9' then some (.number .int [c], [])
  else if c == 't' then some (.word "rue".data .tru, [])
  else if c == 'f' then some (.word "alse".data .fls, [])
  else if c == 'n' then some (.word "ull".data .nul, [])
  else none

/-- The next state inside a number, `none` when the character does not
continue the number. -/
def numNext (st : NumState) (c : Char) : Option NumState :=
  match st with
  | .neg => if c == '0' then some .zero else if '1' ≤ c ∧ c ≤ '9' then some .int else none
  | .int =>
    if c.isDigit then some .int
    else if c == '.' then some .dot
    else if c == 'e' || c == 'E' then some .e
    else none
  | .zero =>
    if c == '.' then some .dot
    else if c == 'e' || c == 'E' then some .e
    else none
  | .dot => if c.isDigit then some .dot0 else none
  | .dot0 =>
    if c.isDigit then some .dot0
    else if c == 'e' || c == 'E' then some .e
    else none
  | .e => if c == '+' || c == '-' then some .esign else if c.isDigit then some .e0 else none
  | .esign => if c.isDigit then some .e0 else none
  | .e0 => if c.isDigit then some .e0 else none

/-- One character through the scanner: the new state and the tokens that
ended, `none` for an invalid character. -/
def lexStep (st : Lex) (c : Char) : Option (Lex × List Tok) :=
  match st with
  | .start => lexStart c
  | .inString acc hi =>
    if c == '"' then some (.start, [.str (String.mk (flushHi acc hi).reverse)])
    else if c == '\\' then some (.inStringEsc acc hi, [])
    else if c.toNat < 0x20 then none
    else some (.inString (c :: flushHi acc hi) none, [])
  | .inStringEsc acc hi =>
    if c == 'u' then some (.inStringEscU acc hi 0 0, [])
    else
      let put := fun (r : Char) => some (Lex.inString (r :: flushHi acc hi) none, [])
      if c == '"' || c == '\\' || c == '/' then put c
      else if c == 'b' then put (Char.ofNat 8)
      else if c == 'f' then put (Char.ofNat 12)
      else if c == 'n' then put '\n'
      else if c == 'r' then put '\r'
      else if c == 't' then put '\t'
      else none
  | .inStringEscU acc hi n v =>
    match hexValue c with
    | none => none
    | some d =>
      if n < 3 then some (.inStringEscU acc hi (n + 1) (v * 16 + d), [])
      else some (endEscU acc hi (v * 16 + d), [])
  | .number ns acc =>
    match numNext ns c with
    | some ns2 => some (.number ns2 (c :: acc), [])
    | none =>
      if ns.final then
        match lexStart c with
        | none => none
        | some (st2, toks) => some (st2, .num (String.mk acc.reverse) :: toks)
      else none
  | .word rest tok =>
    match rest with
    | [] => none
    | [r] => if c == r then some (.start, [tok]) else none
    | r :: rs => if c == r then some (.word rs tok, []) else none

/-- The scanner over a whole text: the tokens read, last first. -/
def lexLoop : Lex → List Tok → List Char → Option (Lex × List Tok)
  | st, toks, [] => some (st, toks)
  | st, toks, c :: cs =>
    match lexStep st c with
    | none => none
    | some (st2, out) => lexLoop st2 (out.reverse ++ toks) cs

/-- The tokens of a text; the text must not end inside a token. -/
def lex (cs : List Char) : Option (List Tok) :=
  match lexLoop .start [] cs with
  | none => none
  | some (.start, toks) => some toks.reverse
  | some (.number ns acc, toks) =>
    if ns.final then some (Tok.num (String.mk acc.reverse) :: toks).reverse else none
  | some _ => none

/-- An array or object being read: the items so far (last first) and, in an
object, the key that waits for its value. -/
inductive Frame where
  | arr (acc : List Json)
  | obj (acc : List (String × Json)) (key : Option String)

/-- What the parser expects next. `close` says that the closing bracket may
come at once (right after the opening one). -/
inductive Mode where
  | value (close : Bool)
  | key (close : Bool)
  | colon
  | after
  | done (v : Json)

/-- The nesting limit of the scanner (`maxNestingDepth`). -/
def maxNestingDepth : Nat := 10000

/-- A finished value goes to the container on top of the stack, or ends the
text. -/
def complete (v : Json) : List Frame → Option (List Frame × Mode)
  | [] => some ([], .done v)
  | .arr acc :: s => some (.arr (v :: acc) :: s, .after)
  | .obj acc (some k) :: s => some (.obj ((k, v) :: acc) none :: s, .after)
  | .obj _ none :: _ => none

/-- One token through the parser. -/
def parseStep (stack : List Frame) (mode : Mode) (t : Tok) : Option (List Frame × Mode) :=
  match mode, t with
  | .value _, .str s => complete (.str s) stack
  | .value _, .num lit => complete (.num lit) stack
  | .value _, .tru => complete (.bool true) stack
  | .value _, .fls => complete (.bool false) stack
  | .value _, .nul => complete .null stack
  | .value _, .lbrack =>
    if stack.length + 1 ≤ maxNestingDepth then some (.arr [] :: stack, .value true) else none
  | .value _, .lbrace =>
    if stack.length + 1 ≤ maxNestingDepth then some (.obj [] none :: stack, .key true) else none
  | .value true, .rbrack =>
    match stack with
    | .arr [] :: s => complete (.arr []) s
    | _ => none
  | .key _, .str k =>
    match stack with
    | .obj acc none :: s => some (.obj acc (some k) :: s, .colon)
    | _ => none
  | .key true, .rbrace =>
    match stack with
    | .obj [] none :: s => complete (.obj []) s
    | _ => none
  | .colon, .colon => some (stack, .value false)
  | .after, .comma =>
    match stack with
    | .arr _ :: _ => some (stack, .value false)
    | .obj _ none :: _ => some (stack, .key false)
    | _ => none
  | .after, .rbrack =>
    match stack with
    | .arr acc :: s => complete (.arr acc.reverse) s
    | _ => none
  | .after, .rbrace =>
    match stack with
    | .obj acc none :: s => complete (.obj acc.reverse) s
    | _ => none
  | _, _ => none

/-- The parser over the tokens of a text. -/
def parseLoop : List Frame → Mode → List Tok → Option Json
  | _, .done v, [] => some v
  | _, _, [] => none
  | stack, mode, t :: ts =>
    match parseStep stack mode t with
    | none => none
    | some (stack2, mode2) => parseLoop stack2 mode2 ts

/-- The JSON value of a byte slice, `none` when `checkValid` rejects it. Bytes
that are not UTF-8 are legal only inside strings, where they decode to
U+FFFD. -/
def parseJSON (data : Bytes) : Option Json :=
  match lex (decodeRunes data) with
  | none => none
  | some toks => parseLoop [] (.value false) toks

/-! ## `encoding/json`: `Marshal` of a `map[string]string` -/

/-- The digits of `\u00XX` escapes. -/
def hexDigit (n : Nat) : Char := "0123456789abcdef".data.getD n '0'

/-- One rune of a string as `appendString` writes it with HTML escaping on:
quote and backslash get a backslash, control characters their short escape or
`\u00XX`, the characters `<`, `>`, `&` and U+2028, U+2029 a `\u` escape. -/
def escapeRune (c : Char) : List Char :=
  if c == '"' || c == '\\' then ['\\', c]
  else if c == Char.ofNat 8 then ['\\', 'b']
  else if c == Char.ofNat 12 then ['\\', 'f']
  else if c == '\n' then ['\\', 'n']
  else if c == '\r' then ['\\', 'r']
  else if c == '\t' then ['\\', 't']
  else if c.toNat < 0x20 || c == '<' || c == '>' || c == '&' then
    ['\\', 'u', '0', '0', hexDigit (c.toNat / 16), hexDigit (c.toNat % 16)]
  else if c == Char.ofNat 0x2028 then "\\u2028".data
  else if c == Char.ofNat 0x2029 then "\\u2029".data
  else [c]

/-- A string as a JSON string literal (`appendString`). -/
def quoteJSON (s : String) : List Char :=
  '"' :: s.data.flatMap escapeRune ++ ['"']

/-- Insertion of a map entry by key order (the order of Go strings, rune by
rune). -/
def insertEntry (e : String × String) : List (String × String) → List (String × String)
  | [] => [e]
  | x :: xs => if e.1.data < x.1.data then e :: x :: xs else x :: insertEntry e xs

/-- The entries of a map in the order `Marshal` writes them: sorted by key. -/
def sortEntries : List (String × String) → List (String × String)
  | [] => []
  | e :: es => insertEntry e (sortEntries es)

/-- The members of an object, comma separated. -/
def renderMembers : List (String × String) → List Char
  | [] => []
  | [e] => quoteJSON e.1 ++ ':' :: quoteJSON e.2
  | e :: es => quoteJSON e.1 ++ ':' :: quoteJSON e.2 ++ ',' :: renderMembers es

/-- The call `json.Marshal(m)` for a `map[string]string` given by its entries
(distinct keys): it cannot fail, and writes an object with the keys sorted. -/
def Marshal (m : List (String × String)) : Bytes :=
  encodeRunes ('{' :: renderMembers (sortEntries m) ++ ['}'])

/-! ## `encoding/json`: `Unmarshal` into a `Token` -/

/-- The token structure (`Token`); `ExpiresIn` is a Go `int`. -/
structure Token where
  AccessToken : String
  Scope : String
  TokenType : String
  Expiry : String
  ExpiresIn : Int
  AccessTokenOnly : Bool
  deriving DecidableEq, Repr

/-- The zero value of `Token` (`var result Token`). -/
def Token.zero : Token :=
  { AccessToken := "", Scope := "", TokenType := "", Expiry := "",
    ExpiresIn := 0, AccessTokenOnly := false }

/-- The fields of `Token`. -/
inductive Field where
  | AccessToken | Scope | TokenType | Expiry | ExpiresIn | AccessTokenOnly
  deriving DecidableEq, Repr

/-- The JSON name in the tag of a field. -/
def Field.name : Field → String
  | .AccessToken => "access_token"
  | .Scope => "scope"
  | .TokenType => "token_type"
  | .Expiry => "expiry"
  | .ExpiresIn => "expires_in"
  | .AccessTokenOnly => "accessTokenOnly"

/-- The fields in declaration order. -/
def Field.all : List Field :=
  [.AccessToken, .Scope, .TokenType, .Expiry, .ExpiresIn, .AccessTokenOnly]

/-- Case folding of a rune as far as it can meet the ASCII field names: a
lower case letter folds to upper case, and so do the two runes outside ASCII
whose simple fold orbit holds a letter, U+017F (long s) and U+212A (Kelvin). -/
def foldRune (c : Char) : Char :=
  if 'a' ≤ c ∧ c ≤ 'z' then Char.ofNat (c.toNat - 32)
  else if c == Char.ofNat 0x17F then 'S'
  else if c == Char.ofNat 0x212A then 'K'
  else c

/-- The folded form of a name (`foldName`). -/
def foldName (s : String) : List Char := s.data.map foldRune

/-- The field a key of the object selects: the field with exactly this name,
otherwise the field whose name is the same under case folding. -/
def findField (key : String) : Option Field :=
  match Field.all.find? (fun f => f.name == key) with
  | some f => some f
  | none => Field.all.find? (fun f => foldName f.name == foldName key)

/-- The value of a run of decimal digits, `none` if a character is no digit. -/
def digitsValue : Nat → List Char → Option Nat
  | n, [] => some n
  | n, c :: cs => if c.isDigit then digitsValue (n * 10 + (c.toNat - 48)) cs else none

/-- The digits of `strconv.ParseInt` after the sign: at least one, all
decimal. -/
def unsignedValue (ds : List Char) : Option Nat :=
  match ds with
  | [] => none
  | _ :: _ => digitsValue 0 ds

/-- The call `strconv.ParseInt(s, 10, 64)`: an optional sign and decimal
digits, the value within the range of `int64`. -/
def ParseInt (s : String) : Option Int :=
  match s.data with
  | [] => none
  | c :: ds =>
    if c == '-' then
      match unsignedValue ds with
      | none => none
      | some n => if n ≤ 2 ^ 63 then some (-(n : Int)) else none
    else
      match unsignedValue (if c == '+' then ds else c :: ds) with
      | none => none
      | some n => if n < 2 ^ 63 then some (n : Int) else none

/-- How `UnmarshalTypeError.Value` describes a JSON value that is no number
for an `int` field and no null. -/
def Json.kindName : Json → String
  | .null => "null"
  | .bool _ => "bool"
  | .num _ => "number"
  | .str _ => "string"
  | .arr _ => "array"
  | .obj _ => "object"

/-- Storing a JSON value into a field (`literalStore`, and `array`, `object`
for a field that is neither slice nor struct). A null changes nothing; a value
of another kind than the field leaves the field as it is and reports an
`UnmarshalTypeError`. `ExpiresIn` is a 64-bit `int`. -/
def storeField (f : Field) (v : Json) (t : Token) : Token × Option GoError :=
  match f, v with
  | _, .null => (t, none)
  | .AccessToken, .str s => ({ t with AccessToken := s }, none)
  | .Scope, .str s => ({ t with Scope := s }, none)
  | .TokenType, .str s => ({ t with TokenType := s }, none)
  | .Expiry, .str s => ({ t with Expiry := s }, none)
  | .ExpiresIn, .num lit =>
    match ParseInt lit with
    | some n => ({ t with ExpiresIn := n }, none)
    | none => (t, some (.unmarshalType ("number " ++ lit) f.name))
  | .AccessTokenOnly, .bool b => ({ t with AccessTokenOnly := b }, none)
  | _, _ => (t, some (.unmarshalType v.kindName f.name))

/-- The method `saveError`: the earliest error is kept. -/
def saveError (saved new : Option GoError) : Option GoError :=
  match saved with
  | some e => some e
  | none => new

/-- The member loop of `decodeState.object` for a `Token`: keys that select no
field are skipped, a later member overrides an earlier one. -/
def decodeMembers : List (String × Json) → Token → Option GoError → Token × Option GoError
  | [], t, saved => (t, saved)
  | (k, v) :: rest, t, saved =>
    match findField k with
    | none => decodeMembers rest t saved
    | some f =>
      match storeField f v t with
      | (t2, e) => decodeMembers rest t2 (saveError saved e)

/-- The method `decodeState.value` with a `Token` as target. -/
def decodeValue (v : Json) (t : Token) : Token × Option GoError :=
  match v with
  | .obj members => decodeMembers members t none
  | .null => (t, none)
  | other => (t, some (.unmarshalType other.kindName ""))

/-- The call `json.Unmarshal(data, &result)` for a `Token`: the input is
checked first and `result` is not touched when it is no JSON text. -/
def Unmarshal (data : Bytes) (result : Token) : Token × Option GoError :=
  match parseJSON data with
  | none => (result, some .invalidJSON)
  | some v => decodeValue v result

/-! ## The client -/

/-- The wrapper class for the GreenLake API (`Client`). -/
structure Client where
  GrantType : String
  ClientID : String
  ClientSecret : String
  TenantID : String
  Host : String
  APIKey : String
  deriving DecidableEq, Repr

/-- The constructor `NewGreenLakeClient`. -/
def NewGreenLakeClient (grantType clientID secretKey tenantID host : String) : Client :=
  { GrantType := grantType,
    ClientID := clientID,
    ClientSecret := secretKey,
    TenantID := tenantID,
    Host := host,
    APIKey := "" }

/-- The constructor `NewGLClientFromAPIKey`. -/
def NewGLClientFromAPIKey (host tenantID apikey : String) : Client :=
  { GrantType := "client_credentials",
    ClientID := "",
    ClientSecret := "LOCAL",
    APIKey := apikey,
    TenantID := tenantID,
    Host := host }

/-- The method `doRequest`. The deferred `Close` is registered only after the
status check, so it runs on the two paths that follow it and not on the
return taken for a status other than 200. -/
def doRequest (net : Net) (req : Request) : Outcome (Option Bytes) :=
  match net.Do req with
  | .error err => { val := none, err := some err, stream := none }
  | .ok response =>
    if response.StatusCode != 200 then
      { val := none,
        err := some (Errorf_s "error in response and response status: " response.Status),
        stream := some response.Body }
    else
      match ReadAll response.Body with
      | (_, some err) =>
        { val := none, err := some err, stream := some response.Body.Close }
      | (body, none) =>
        { val := some body, err := none, stream := some response.Body.Close }

/-- The URL text of `GetUsers` (line 104): the concatenation is handed to
`fmt.Sprintf` as its format string. -/
def Client.usersURL (c : Client) (path : String) : String :=
  Sprintf (c.Host ++ "/scim/v1/tenant/" ++ c.TenantID ++ "/" ++ path)

/-- The request `GetUsers` builds (lines 104 to 112). -/
def Client.usersRequest (c : Client) (net : Net) (path : String) :
    Except GoError Request :=
  let url := c.usersURL path
  match NewRequest net "GET" url none with
  | .error err => .error err
  | .ok request =>
    let request := { request with Header := request.Header.Set "Accept" "application/scim+json" }
    .ok { request with Header := request.Header.Set "Authorization" ("Bearer " ++ c.APIKey) }

/-- The method `GetUsers`. -/
def Client.GetUsers (c : Client) (net : Net) (path : String) : Outcome (Option Bytes) :=
  match c.usersRequest net path with
  | .error err => { val := none, err := some err, stream := none }
  | .ok request => doRequest net request

/-- The URL text of `GetToken` (line 76): the concatenation is handed to
`fmt.Sprintf` as its format string. -/
def Client.tokenURL (c : Client) : String :=
  Sprintf (c.Host ++ "/identity/v1/token")

/-- The request `GetToken` builds (lines 76 to 88); the error of
`json.Marshal` is dropped. -/
def Client.tokenRequest (c : Client) (net : Net) : Except GoError Request :=
  let url := c.tokenURL
  let jsonData := [("grant_type", c.GrantType),
    ("client_id", c.ClientID),
    ("client_secret", c.ClientSecret),
    ("tenant_id", c.TenantID)]
  let jsonValue := Marshal jsonData
  match NewRequest net "POST" url (some jsonValue) with
  | .error err => .error err
  | .ok request =>
    .ok { request with Header := request.Header.Set "Content-Type" "application/json" }

/-- The method `GetToken`. -/
def Client.GetToken (c : Client) (net : Net) : Outcome Token :=
  let result := Token.zero
  match c.tokenRequest net with
  | .error err => { val := result, err := some err, stream := none }
  | .ok request =>
    match doRequest net request with
    | { val := _, err := some err, stream := stream } =>
      { val := result, err := some err, stream := stream }
    | { val := body, err := none, stream := stream } =>
      match Unmarshal (body.getD []) result with
      | (result, err) => { val := result, err := err, stream := stream }

/-! ## Notions used to state the properties -/

/-- An environment in which every URL text parses and the server answers every
request with `resp`. -/
def netAnswering (resp : Response) : Net :=
  { urlError := fun _ => none, Do := fun _ => .ok resp }

/-- An environment in which every URL text parses and the server answers a
`GET` request with `get` and every other request with `other`. -/
def netByMethod (get other : Response) : Net :=
  { urlError := fun _ => none,
    Do := fun req => if req.Method = "GET" then .ok get else .ok other }

/-- A response with a body that is still open and reads without error. -/
def respWith (status : String) (code : Int) (body : String) : Response :=
  { Status := status, StatusCode := code,
    Body := { data := encodeRunes body.data, failure := none, closed := false } }

/-- The decimal digit for a number below ten. -/
def digitChar (d : Nat) : Char := Char.ofNat (48 + d)

/-- The decimal digits of a number in front of `acc`. -/
def formatNatAux : Nat → Nat → List Char → List Char
  | 0, _, acc => acc
  | fuel + 1, n, acc =>
    if n < 10 then digitChar n :: acc
    else formatNatAux fuel (n / 10) (digitChar (n % 10) :: acc)

/-- The decimal literal of an integer, as a JSON encoder writes a Go `int`. -/
def formatInt (n : Int) : String :=
  String.mk (if n < 0 then '-' :: formatNatAux (n.natAbs + 1) n.natAbs []
    else formatNatAux (n.natAbs + 1) n.natAbs [])

/-- The JSON value that carries a field of a token. -/
def Field.valueOf (t : Token) : Field → Json
  | .AccessToken => .str t.AccessToken
  | .Scope => .str t.Scope
  | .TokenType => .str t.TokenType
  | .Expiry => .str t.Expiry
  | .ExpiresIn => .num (formatInt t.ExpiresIn)
  | .AccessTokenOnly => .bool t.AccessTokenOnly

/-- The token `tok` with the field `f` taken from `t`. -/
def setField (t : Token) (tok : Token) (f : Field) : Token :=
  match f with
  | .AccessToken => { tok with AccessToken := t.AccessToken }
  | .Scope => { tok with Scope := t.Scope }
  | .TokenType => { tok with TokenType := t.TokenType }
  | .Expiry => { tok with Expiry := t.Expiry }
  | .ExpiresIn => { tok with ExpiresIn := t.ExpiresIn }
  | .AccessTokenOnly => { tok with AccessTokenOnly := t.AccessTokenOnly }

/-- The tokens of the members `Marshal` writes for a `map[string]string`. -/
def memberToks : List (String × String) → List Tok
  | [] => []
  | [e] => [.str e.1, .colon, .str e.2]
  | e :: es => .str e.1 :: .colon :: .str e.2 :: .comma :: memberToks es

/-- The JSON object with the given keys, each mapped to a string. -/
def stringObject (es : List (String × String)) : Json :=
  .obj (es.map (fun e => (e.1, Json.str e.2)))

/-! ## JSON texts: the tokens of a value

The definitions from here on are not taken from the source. They say what the
JSON texts of a value are (RFC 8259), without the scanner and the parser, and
how `encoding/json` documents the reading of an object into a struct, so that
the properties of `GetToken` are stated about the text of the response body. -/

mutual
/-- The tokens of a JSON value, in the order of the text: an array is its
elements between square brackets, an object its members (key, colon, value)
between braces, both separated by commas. -/
def Json.toks : Json → List Tok
  | .null => [.nul]
  | .bool true => [.tru]
  | .bool false => [.fls]
  | .num lit => [.num lit]
  | .str s => [.str s]
  | .arr [] => [.lbrack, .rbrack]
  | .arr (x :: xs) => .lbrack :: x.toks ++ moreElems xs ++ [.rbrack]
  | .obj [] => [.lbrace, .rbrace]
  | .obj ((k, v) :: ms) => .lbrace :: .str k :: .colon :: v.toks ++ moreMembers ms ++ [.rbrace]
/-- The tokens of the elements after the first: each after a comma. -/
def moreElems : List Json → List Tok
  | [] => []
  | x :: xs => .comma :: x.toks ++ moreElems xs
/-- The tokens of the members after the first: each after a comma. -/
def moreMembers : List (String × Json) → List Tok
  | [] => []
  | (k, v) :: ms => .comma :: .str k :: .colon :: v.toks ++ moreMembers ms
end

mutual
/-- How deep the arrays and objects of a value nest. -/
def Json.depth : Json → Nat
  | .arr xs => elemsDepth xs + 1
  | .obj ms => membersDepth ms + 1
  | _ => 0
/-- The deepest of the elements. -/
def elemsDepth : List Json → Nat
  | [] => 0
  | x :: xs => max x.depth (elemsDepth xs)
/-- The deepest of the member values. -/
def membersDepth : List (String × Json) → Nat
  | [] => 0
  | (_, v) :: ms => max v.depth (membersDepth ms)
end

/-! ## JSON texts: the text of a token (RFC 8259) -/

/-- The white space of a JSON text: space, tab, line feed, carriage return. -/
def JsonSpace (c : Char) : Prop := c = ' ' ∨ c = '\t' ∨ c = '\n' ∨ c = '\r'

/-- The hexadecimal digits and their values. -/
def hexTable : List (Char × Nat) :=
  [('0', 0), ('1', 1), ('2', 2), ('3', 3), ('4', 4), ('5', 5), ('6', 6), ('7', 7),
   ('8', 8), ('9', 9), ('a', 10), ('b', 11), ('c', 12), ('d', 13), ('e', 14), ('f', 15),
   ('A', 10), ('B', 11), ('C', 12), ('D', 13), ('E', 14), ('F', 15)]

/-- The two-character escapes of a JSON string and the characters they stand
for. -/
def escapeTable : List (Char × Char) :=
  [('"', '"'), ('\\', '\\'), ('/', '/'), ('b', Char.ofNat 8), ('f', Char.ofNat 12),
   ('n', '\n'), ('r', '\r'), ('t', '\t')]

/-- An item of a string literal: a character written as it is, a
two-character escape, or `\u` with four hexadecimal digits. -/
inductive StrItem where
  | plain (c : Char)
  | escape (e : Char)
  | unicode (a b c d : Char)

/-- How an item is written. -/
def StrItem.text : StrItem → List Char
  | .plain c => [c]
  | .escape e => ['\\', e]
  | .unicode a b c d => ['\\', 'u', a, b, c, d]

/-- The items a string literal may hold: no control character, quote or
backslash written as it is; only the eight escapes; four hexadecimal digits. -/
def StrItem.Valid : StrItem → Prop
  | .plain c => 0x20 ≤ c.toNat ∧ c ≠ '"' ∧ c ≠ '\\'
  | .escape e => (escapeTable.lookup e).isSome = true
  | .unicode a b c d =>
    (hexTable.lookup a).isSome = true ∧ (hexTable.lookup b).isSome = true ∧
    (hexTable.lookup c).isSome = true ∧ (hexTable.lookup d).isSome = true

/-- What an item stands for: a character, or the UTF-16 code unit of a `\u`
escape. -/
def StrItem.unit : StrItem → Char ⊕ Nat
  | .plain c => .inl c
  | .escape e => .inl ((escapeTable.lookup e).getD e)
  | .unicode a b c d =>
    .inr ((((hexTable.lookup a).getD 0 * 16 + (hexTable.lookup b).getD 0) * 16
      + (hexTable.lookup c).getD 0) * 16 + (hexTable.lookup d).getD 0)

/-- The rune of a single code unit: itself, or U+FFFD for a surrogate. -/
def unitRune (v : Nat) : Char :=
  if 0xD800 ≤ v ∧ v < 0xE000 then Char.ofNat 0xFFFD else Char.ofNat v

/-- The text a sequence of units stands for, as `encoding/json` decodes it: a
high surrogate followed by a low surrogate is one rune, every other surrogate
is U+FFFD. -/
def unitsValue : List (Char ⊕ Nat) → List Char
  | [] => []
  | .inl c :: rest => c :: unitsValue rest
  | [.inr h] => [unitRune h]
  | .inr h :: tl@(.inl _ :: _) => unitRune h :: unitsValue tl
  | .inr h :: tl@(.inr l :: rest) =>
    if (0xD800 ≤ h ∧ h < 0xDC00) ∧ (0xDC00 ≤ l ∧ l < 0xE000) then
      Char.ofNat ((h - 0xD800) * 1024 + (l - 0xDC00) + 0x10000) :: unitsValue rest
    else unitRune h :: unitsValue tl

/-- A nonempty run of decimal digits. -/
def IsDigits (ds : List Char) : Prop := ds ≠ [] ∧ ∀ c ∈ ds, c.isDigit = true

/-- The sign of a number literal: none, or a minus sign. -/
def SignPart (s : List Char) : Prop := s = [] ∨ s = ['-']

/-- The integer part of a number literal: a single zero, or digits that do
not start with zero. -/
def IntPart (i : List Char) : Prop :=
  i = ['0'] ∨ ∃ d ds, i = d :: ds ∧ d.isDigit = true ∧ d ≠ '0' ∧ ∀ c ∈ ds, c.isDigit = true

/-- The fraction of a number literal: none, or a point and digits. -/
def FracPart (f : List Char) : Prop := f = [] ∨ ∃ ds, f = '.' :: ds ∧ IsDigits ds

/-- An exponent: `e` or `E`, an optional sign, digits. -/
def IsExponent (x : List Char) : Prop :=
  ∃ e sg ds, x = e :: sg ++ ds ∧ (e = 'e' ∨ e = 'E') ∧ (sg = [] ∨ sg = ['+'] ∨ sg = ['-']) ∧
    IsDigits ds

/-- The exponent of a number literal: none, or an exponent. -/
def ExpPart (x : List Char) : Prop := x = [] ∨ IsExponent x

/-- The number literals of JSON: an optional minus sign, an integer part
without leading zero, an optional fraction, an optional exponent. -/
def IsNumber (text : List Char) : Prop :=
  ∃ s i f x, text = s ++ i ++ f ++ x ∧ SignPart s ∧ IntPart i ∧ FracPart f ∧ ExpPart x

/-- The texts of a token: the structural characters, the three literal names,
a number literal, and for a string any literal whose items stand for it. -/
def TokText : Tok → List Char → Prop
  | .lbrace, text => text = ['\x7b']
  | .rbrace, text => text = ['\x7d']
  | .lbrack, text => text = ['[']
  | .rbrack, text => text = [']']
  | .colon, text => text = [':']
  | .comma, text => text = [',']
  | .tru, text => text = ['t', 'r', 'u', 'e']
  | .fls, text => text = ['f', 'a', 'l', 's', 'e']
  | .nul, text => text = ['n', 'u', 'l', 'l']
  | .num lit, text => text = lit.data ∧ IsNumber text
  | .str s, text =>
    ∃ items : List StrItem, (∀ i ∈ items, i.Valid) ∧
      text = '"' :: items.flatMap StrItem.text ++ ['"'] ∧
      s = String.mk (unitsValue (items.map StrItem.unit))

/-- The texts of a token sequence: the texts of the tokens in order, with any
white space before, between and after them. -/
inductive Spaced : List Tok → List Char → Prop where
  | nil : Spaced [] []
  | space (c : Char) (cs : List Char) (ts : List Tok) :
      JsonSpace c → Spaced ts cs → Spaced ts (c :: cs)
  | tok (t : Tok) (text : List Char) (ts : List Tok) (cs : List Char) :
      TokText t text → Spaced ts cs → Spaced (t :: ts) (text ++ cs)

/-- The JSON texts of a value (RFC 8259): the tokens of the value with any
white space around them. -/
def JsonText (cs : List Char) (v : Json) : Prop := Spaced v.toks cs

/-! ## The members of a token object -/

/-- The lower-case form of a character under simple case folding, as far as
it can meet the ASCII names of the fields: an upper-case letter gives its
lower-case letter, and so do U+017F (long s) and U+212A (Kelvin sign). -/
def caseKey (c : Char) : Char :=
  if 'A' ≤ c ∧ c ≤ 'Z' then Char.ofNat (c.toNat + 32)
  else if c = Char.ofNat 0x17F then 's'
  else if c = Char.ofNat 0x212A then 'k'
  else c

/-- The JSON names of the fields of `Token`, from its struct tags. -/
def fieldNames : List (String × Field) :=
  [("access_token", .AccessToken), ("scope", .Scope), ("token_type", .TokenType),
   ("expiry", .Expiry), ("expires_in", .ExpiresIn), ("accessTokenOnly", .AccessTokenOnly)]

/-- The field a key names, as `encoding/json` documents it: the field with
exactly this JSON name, otherwise the field whose name is the key without
regard to case. -/
def keyField (k : String) : Option Field :=
  match fieldNames.lookup k with
  | some f => some f
  | none =>
    (fieldNames.find? (fun p => p.1.data.map caseKey == k.data.map caseKey)).map Prod.snd

/-- The six members that carry the token `t`: `access_token`, `scope`,
`token_type`, `expiry` as strings, `expires_in` as the decimal literal of the
integer, `accessTokenOnly` as a boolean. -/
def tokenObject (t : Token) : List (String × Json) :=
  [("access_token", .str t.AccessToken), ("scope", .str t.Scope),
   ("token_type", .str t.TokenType), ("expiry", .str t.Expiry),
   ("expires_in", .num (formatInt t.ExpiresIn)),
   ("accessTokenOnly", .bool t.AccessTokenOnly)]

/-- A value that is no null and has not the JSON type of the field: for a
string field anything but a string, for `accessTokenOnly` anything but a
boolean, for `expires_in` anything but a number, and a number with a fraction
or an exponent, or the decimal literal of an integer outside 64 bits. -/
def WrongFor (f : Field) (v : Json) : Prop :=
  match f, v with
  | _, .null => False
  | .ExpiresIn, .num lit =>
    (∃ c ∈ lit.data, c = '.' ∨ c = 'e' ∨ c = 'E') ∨
    ∃ n : Int, lit = formatInt n ∧ (n < -2 ^ 63 ∨ 2 ^ 63 ≤ n)
  | .ExpiresIn, _ => True
  | .AccessTokenOnly, .bool _ => False
  | .AccessTokenOnly, _ => True
  | _, .str _ => False
  | _, _ => True

/-- How `UnmarshalTypeError.Value` describes a value of the wrong type: the
JSON type, and for a number that is no 64-bit integer `number` followed by
the literal. -/
def wrongValue (f : Field) (v : Json) : String :=
  match f, v with
  | .ExpiresIn, .num lit => "number " ++ lit
  | _, .null => "null"
  | _, .bool _ => "bool"
  | _, .num _ => "number"
  | _, .str _ => "string"
  | _, .arr _ => "array"
  | _, .obj _ => "object"

/-- How a member of the object is read for a `Token`. -/
inductive Reading where
  /-- The key names no field. -/
  | skip (k : String) (v : Json)
  /-- The key names the field `f` and the value is a null. -/
  | null (k : String) (f : Field)
  /-- The key names the field `f` and the value is the value of `f` in the
  token `t`, written in JSON. -/
  | set (k : String) (f : Field) (t : Token)
  /-- The key names the field `f` and the value `v` has the wrong type. -/
  | wrong (k : String) (f : Field) (v : Json)

/-- The member a reading stands for. -/
def Reading.member : Reading → String × Json
  | .skip k v => (k, v)
  | .null k _ => (k, .null)
  | .set k f t => (k, f.valueOf t)
  | .wrong k _ v => (k, v)

/-- A reading is right for its member. -/
def Reading.Valid : Reading → Prop
  | .skip k _ => keyField k = none
  | .null k f => keyField k = some f
  | .set k f t => keyField k = some f ∧ -2 ^ 63 ≤ t.ExpiresIn ∧ t.ExpiresIn < 2 ^ 63
  | .wrong k f v => keyField k = some f ∧ WrongFor f v

/-- Whether the member has a value of the wrong type. -/
def Reading.isWrong : Reading → Bool
  | .wrong _ _ _ => true
  | _ => false

/-- What a member does to the token: a value of the type of its field is
stored in the field, every other member leaves the token as it is. -/
def Reading.apply (tok : Token) : Reading → Token
  | .set _ f t => setField t tok f
  | _ => tok

/-- The error a member raises: an `UnmarshalTypeError` for a value of the
wrong type, with the JSON name of the field. -/
def Reading.error : Reading → Option GoError
  | .wrong _ f v => some (.unmarshalType (wrongValue f v) f.name)
  | _ => none

/-! ## Notions of the proofs: the parser and the tokens read so far -/

/-- The tokens of elements, a comma after each. -/
def sepElems : List Json → List Tok
  | [] => []
  | x :: xs => x.toks ++ .comma :: sepElems xs

/-- The tokens of members, a comma after each. -/
def sepMembers : List (String × Json) → List Tok
  | [] => []
  | (k, v) :: ms => .str k :: .colon :: v.toks ++ .comma :: sepMembers ms

/-- The tokens read for a frame that waits for its next item. -/
def frameOpen : Frame → List Tok
  | .arr acc => .lbrack :: sepElems acc.reverse
  | .obj acc (some k) => .lbrace :: sepMembers acc.reverse ++ [.str k, .colon]
  | .obj acc none => .lbrace :: sepMembers acc.reverse

/-- The tokens read for a stack of frames that wait for a value, outermost
frame first. -/
def awaiting : List Frame → List Tok
  | [] => []
  | f :: s => awaiting s ++ frameOpen f

/-- Every frame waits for a value: an object frame holds its key. -/
def FramesOK : List Frame → Prop
  | [] => True
  | .arr _ :: s => FramesOK s
  | .obj _ (some _) :: s => FramesOK s
  | .obj _ none :: _ => False

/-- The tokens `pre` are what the parser has read when it stands in the state
`(stack, mode)`. -/
def Consumed (stack : List Frame) (mode : Mode) (pre : List Tok) : Prop :=
  match mode, stack with
  | .value _, s => FramesOK s ∧ pre = awaiting s
  | .key _, .obj acc none :: s => FramesOK s ∧ pre = awaiting s ++ frameOpen (.obj acc none)
  | .colon, .obj acc (some k) :: s =>
    FramesOK s ∧ pre = awaiting s ++ (.lbrace :: sepMembers acc.reverse ++ [.str k])
  | .after, .arr (v :: acc) :: s =>
    FramesOK s ∧ pre = awaiting s ++ (.lbrack :: sepElems acc.reverse ++ v.toks)
  | .after, .obj ((k, v) :: acc) none :: s =>
    FramesOK s ∧ pre = awaiting s ++ (.lbrace :: sepMembers acc.reverse ++ .str k :: .colon :: v.toks)
  | .done v, [] => pre = v.toks
  | _, _ => False

/-- The parser after a value has ended. -/
def afterValue (r : Option (List Frame × Mode)) (rest : List Tok) : Option Json :=
  match r with
  | none => none
  | some (s, m) => parseLoop s m rest

/-! ## Notions of the proofs: the scanner and the text read so far -/

/-- A high surrogate that waits for its partner, as a unit. -/
def pendUnits : Option Nat → List (Char ⊕ Nat)
  | none => []
  | some h => [.inr h]

/-- Inside a string literal the scanner holds the runes of the items read: a
waiting high surrogate apart, `acc` is what the items stand for. -/
def StrState (items : List StrItem) (acc : List Char) (hi : Option Nat) : Prop :=
  (∀ h, hi = some h → 0xD800 ≤ h ∧ h < 0xDC00) ∧
  ∀ more : List (Char ⊕ Nat),
    unitsValue (items.map StrItem.unit ++ more) = acc.reverse ++ unitsValue (pendUnits hi ++ more)

/-- The value of a run of hexadecimal digits read after the value `v`. -/
def hexRunFrom : Nat → List Char → Option Nat
  | v, [] => some v
  | v, c :: cs =>
    match hexTable.lookup c with
    | none => none
    | some d => hexRunFrom (v * 16 + d) cs

/-- The text of a literal name. -/
def wordText : Tok → List Char
  | .tru => ['t', 'r', 'u', 'e']
  | .fls => ['f', 'a', 'l', 's', 'e']
  | .nul => ['n', 'u', 'l', 'l']
  | _ => []

/-- The part of a number literal the scanner has read in a number state. -/
def NumPrefix : NumState → List Char → Prop
  | .neg, pre => pre = ['-']
  | .zero, pre => ∃ s, SignPart s ∧ pre = s ++ ['0']
  | .int, pre => ∃ s d ds, SignPart s ∧ pre = s ++ d :: ds ∧ d.isDigit = true ∧ d ≠ '0' ∧
      ∀ c ∈ ds, c.isDigit = true
  | .dot, pre => ∃ s i, SignPart s ∧ IntPart i ∧ pre = s ++ i ++ ['.']
  | .dot0, pre => ∃ s i ds, SignPart s ∧ IntPart i ∧ IsDigits ds ∧ pre = s ++ i ++ '.' :: ds
  | .e, pre => ∃ s i f e, SignPart s ∧ IntPart i ∧ FracPart f ∧ (e = 'e' ∨ e = 'E') ∧
      pre = s ++ i ++ f ++ [e]
  | .esign, pre => ∃ s i f e sg, SignPart s ∧ IntPart i ∧ FracPart f ∧ (e = 'e' ∨ e = 'E') ∧
      (sg = '+' ∨ sg = '-') ∧ pre = s ++ i ++ f ++ [e, sg]
  | .e0, pre => ∃ s i f x, SignPart s ∧ IntPart i ∧ FracPart f ∧ IsExponent x ∧
      pre = s ++ i ++ f ++ x

/-- The part of a token the scanner has read in a state. -/
def Pending : Lex → List Char → Prop
  | .start, pre => pre = []
  | .inString acc hi, pre =>
    ∃ items : List StrItem, (∀ i ∈ items, i.Valid) ∧
      pre = '"' :: items.flatMap StrItem.text ∧ StrState items acc hi
  | .inStringEsc acc hi, pre =>
    ∃ items : List StrItem, (∀ i ∈ items, i.Valid) ∧
      pre = '"' :: items.flatMap StrItem.text ++ ['\\'] ∧ StrState items acc hi
  | .inStringEscU acc hi n v, pre =>
    ∃ (items : List StrItem) (hs : List Char), (∀ i ∈ items, i.Valid) ∧
      pre = '"' :: items.flatMap StrItem.text ++ '\\' :: 'u' :: hs ∧
      hs.length = n ∧ n ≤ 3 ∧ hexRunFrom 0 hs = some v ∧ StrState items acc hi
  | .number ns acc, pre => pre = acc.reverse ∧ NumPrefix ns pre
  | .word rest tok, pre =>
    (tok = .tru ∨ tok = .fls ∨ tok = .nul) ∧ pre ++ rest = wordText tok ∧ rest ≠ [] ∧ pre ≠ []

/-- The text `consumed` is what the scanner has read when it stands in the
state `st` with the tokens `toks` (last first): the tokens with white space,
then the part of the next token. -/
def LexInv (st : Lex) (toks : List Tok) (consumed : List Char) : Prop :=
  ∃ spaced pre, consumed = spaced ++ pre ∧ Spaced toks.reverse spaced ∧ Pending st pre

/-- The run of the number states over a text. -/
def numRun : NumState → List Char → Option NumState
  | ns, [] => some ns
  | ns, c :: cs =>
    match numNext ns c with
    | none => none
    | some ns2 => numRun ns2 cs

/-- Whether a token is a number. -/
def Tok.isNum : Tok → Bool
  | .num _ => true
  | _ => false

/-- Whether a token sequence begins with a number. -/
def startsNum : List Tok → Bool
  | [] => false
  | t :: _ => t.isNum

/-- No number token is directly followed by another. -/
def NumsApart : List Tok → Prop
  | [] => True
  | t :: ts => (t.isNum = true → startsNum ts = false) ∧ NumsApart ts

/-- The tokens at the end of the text, as `lex` gives them from the last
state of the scanner. -/
def lexEnd : Option (Lex × List Tok) → Option (List Tok)
  | none => none
  | some (.start, toks) => some toks.reverse
  | some (.number ns acc, toks) =>
    if ns.final then some (Tok.num (String.mk acc.reverse) :: toks).reverse else none
  | some _ => none

/-! ## `fmt.Sprintf`: enough fuel, and formats without a percent sign -/

theorem skipFlags_length (cs : List Char) : (skipFlags cs).length ≤ cs.length := by
  induction cs with
  | nil => simp [skipFlags]
  | cons c cs ih =>
    unfold skipFlags
    split
    · exact Nat.le_succ_of_le ih
    · exact Nat.le_refl _

theorem parsenumLoop_length (num : Nat) (isnum : Bool) (cs : List Char) :
    (parsenumLoop num isnum cs).2.2.length ≤ cs.length := by
  induction cs generalizing num isnum with
  | nil => simp [parsenumLoop]
  | cons c cs ih =>
    unfold parsenumLoop
    split
    · split
      · simp
      · exact Nat.le_succ_of_le (ih _ _)
    · exact Nat.le_refl _

theorem argNumber_length (cs : List Char) (good : Bool) :
    (argNumber cs good).1.length ≤ cs.length := by
  unfold argNumber
  split
  · simp
  · exact Nat.le_refl _

theorem widthStep_length (cs : List Char) (a g : Bool) :
    (widthStep cs a g).1.length ≤ cs.length := by
  unfold widthStep
  split
  · simp
  · rename_i hne
    have h2 : (parsenum cs).2.2.length ≤ cs.length := parsenumLoop_length 0 false cs
    generalize parsenum cs = pr at *
    obtain ⟨n0, b0, r2⟩ := pr
    exact h2

theorem precStep_length (cs : List Char) (a g : Bool) :
    (precStep cs a g).1.length ≤ cs.length := by
  unfold precStep
  split
  · rename_i r
    have h1 := argNumber_length r (g && !a)
    split
    · rename_i r2 _ _ heq
      rw [heq] at h1
      simp at h1 ⊢
      omega
    · rename_i r1 _ _ _ heq
      rw [heq] at h1
      have h2 : (parsenum r1).2.2.length ≤ r1.length := parsenumLoop_length 0 false r1
      generalize parsenum r1 = pr at *
      obtain ⟨n0, b0, r2⟩ := pr
      simp only [List.length_cons] at h1 h2 ⊢
      omega
  · exact Nat.le_refl _

theorem doVerb_length (cs : List Char) : (doVerb cs).2.length ≤ cs.length := by
  have h0 := skipFlags_length cs
  have h1 := argNumber_length (skipFlags cs) true
  have h2 := widthStep_length (argNumber (skipFlags cs) true).1
    (argNumber (skipFlags cs) true).2.1 (argNumber (skipFlags cs) true).2.2
  unfold doVerb
  generalize argNumber (skipFlags cs) true = r1 at *
  obtain ⟨cs1, a1, g1⟩ := r1
  simp only at h1 h2 ⊢
  have h3 := precStep_length (widthStep cs1 a1 g1).1 (widthStep cs1 a1 g1).2.2.1
    (widthStep cs1 a1 g1).2.2.2
  generalize widthStep cs1 a1 g1 = r2 at *
  obtain ⟨cs2, o2, a2, g2⟩ := r2
  simp only at h2 h3 ⊢
  generalize precStep cs2 a2 g2 = r3 at *
  obtain ⟨cs3, o3, a3, g3⟩ := r3
  simp only at h3 ⊢
  have h4 : (if a3 then (cs3, a3, g3) else argNumber cs3 g3).1.length ≤ cs3.length := by
    split
    · exact Nat.le_refl _
    · exact argNumber_length _ _
  generalize (if a3 then (cs3, a3, g3) else argNumber cs3 g3) = r4 at *
  obtain ⟨cs4, a4, g4⟩ := r4
  simp only at h4
  cases cs4 with
  | nil => simp
  | cons v rest =>
    simp only [List.length_cons] at h4
    simp only
    split
    · simp only; omega
    · split <;> (simp only; omega)

/-- Any fuel that covers the length of the format gives the same output: the
format loop always runs to the end of the format. -/
theorem doPrintf_fuel (f1 f2 : Nat) (cs : List Char)
    (h1 : cs.length ≤ f1) (h2 : cs.length ≤ f2) : doPrintf f1 cs = doPrintf f2 cs := by
  induction f1 generalizing f2 cs with
  | zero =>
    have : cs = [] := List.length_eq_zero.mp (Nat.le_zero.mp h1)
    subst this
    cases f2 <;> simp [doPrintf]
  | succ n ih =>
    cases cs with
    | nil => cases f2 <;> simp [doPrintf]
    | cons c cs =>
      cases f2 with
      | zero => simp at h2
      | succ m =>
        simp only [List.length_cons, Nat.add_le_add_iff_right] at h1 h2
        unfold doPrintf
        split
        · rw [ih m cs h1 h2]
        · have hl := doVerb_length cs
          generalize doVerb cs = r at *
          obtain ⟨out, rest⟩ := r
          simp only at hl ⊢
          rw [ih m rest (by omega) (by omega)]

/-- A format without a percent sign is written out unchanged. -/
theorem doPrintf_no_percent (fuel : Nat) (cs : List Char)
    (hfuel : cs.length ≤ fuel) (h : '%' ∉ cs) : doPrintf fuel cs = cs := by
  induction cs generalizing fuel with
  | nil => cases fuel <;> simp [doPrintf]
  | cons c cs ih =>
    cases fuel with
    | zero => simp at hfuel
    | succ n =>
      simp only [List.length_cons, Nat.add_le_add_iff_right] at hfuel
      simp only [List.mem_cons, not_or] at h
      unfold doPrintf
      have hc : (c != '%') = true := by
        simp only [bne_iff_ne, ne_eq]
        exact fun e => h.1 e.symm
      simp only [hc, if_true]
      rw [ih n hfuel h.2]

/-- For a text without a percent sign `fmt.Sprintf(text)` is the text. -/
theorem Sprintf_no_percent (s : String) (h : '%' ∉ s.data) : Sprintf s = s := by
  unfold Sprintf
  rw [doPrintf_no_percent _ _ (Nat.le_refl _) h]

/-! ## Request construction -/

/-- The request `GetUsers` builds, when `http.NewRequest` accepts the URL. -/
theorem usersRequest_ok (c : Client) (net : Net) (path : String) (req : Request)
    (h : c.usersRequest net path = .ok req) :
    req = { Method := "GET", URL := c.usersURL path,
            Header := [("Authorization", "Bearer " ++ c.APIKey),
                       ("Accept", "application/scim+json")],
            Body := none } := by
  unfold Client.usersRequest NewRequest at h
  cases hu : net.urlError (c.usersURL path) with
  | some e => simp [hu] at h
  | none =>
    simp only [hu] at h
    injection h with h
    rw [← h]
    simp [Header.Set]

/-- The request `GetToken` builds, when `http.NewRequest` accepts the URL. -/
theorem tokenRequest_ok (c : Client) (net : Net) (req : Request)
    (h : c.tokenRequest net = .ok req) :
    req = { Method := "POST", URL := c.tokenURL,
            Header := [("Content-Type", "application/json")],
            Body := some (Marshal [("grant_type", c.GrantType), ("client_id", c.ClientID),
              ("client_secret", c.ClientSecret), ("tenant_id", c.TenantID)]) } := by
  unfold Client.tokenRequest NewRequest at h
  cases hu : net.urlError c.tokenURL with
  | some e => simp [hu] at h
  | none =>
    simp only [hu] at h
    injection h with h
    rw [← h]
    simp [Header.Set]

/-- The body `GetToken` sends is the object with the four keys in sorted
order, each mapped to the field of the client. -/
theorem tokenRequest_body (c : Client) :
    Marshal [("grant_type", c.GrantType), ("client_id", c.ClientID),
      ("client_secret", c.ClientSecret), ("tenant_id", c.TenantID)]
      = encodeRunes ('\x7b' :: renderMembers [("client_id", c.ClientID),
          ("client_secret", c.ClientSecret), ("grant_type", c.GrantType),
          ("tenant_id", c.TenantID)] ++ ['\x7d']) :=
  rfl

/-- For a URL text without a percent sign, `GetUsers` asks for the
concatenation of host, tenant and path. -/
theorem usersURL_no_percent (c : Client) (path : String)
    (h : '%' ∉ (c.Host ++ "/scim/v1/tenant/" ++ c.TenantID ++ "/" ++ path).data) :
    c.usersURL path = c.Host ++ "/scim/v1/tenant/" ++ c.TenantID ++ "/" ++ path :=
  Sprintf_no_percent _ h

/-- For a host without a percent sign, `GetToken` posts to the host followed
by the token path. -/
theorem tokenURL_no_percent (c : Client) (h : '%' ∉ c.Host.data) :
    c.tokenURL = c.Host ++ "/identity/v1/token" := by
  apply Sprintf_no_percent
  simp only [String.data_append, List.mem_append, not_or]
  exact ⟨h, by decide⟩

/-! ## The shared executor -/

/-- A status other than 200: the error carries the status text, no body is
returned, and the response body is left as it came. -/
theorem doRequest_status (net : Net) (req : Request) (resp : Response)
    (hdo : net.Do req = .ok resp) (hs : resp.StatusCode ≠ 200) :
    doRequest net req =
      { val := none,
        err := some (.text ("error in response and response status: " ++ resp.Status)),
        stream := some resp.Body } := by
  unfold doRequest
  simp [hdo, hs, Errorf_s]

/-- Status 200 and a body that reads to its end: the bytes are returned and
the body is closed. -/
theorem doRequest_ok (net : Net) (req : Request) (resp : Response)
    (hdo : net.Do req = .ok resp) (hs : resp.StatusCode = 200)
    (hread : resp.Body.failure = none) :
    doRequest net req =
      { val := some resp.Body.data, err := none, stream := some resp.Body.Close } := by
  unfold doRequest
  simp [hdo, hs, ReadAll, hread]

/-- Status 200 and a body whose reading fails: the read error is returned and
the body is closed. -/
theorem doRequest_read_error (net : Net) (req : Request) (resp : Response) (e : GoError)
    (hdo : net.Do req = .ok resp) (hs : resp.StatusCode = 200)
    (hread : resp.Body.failure = some e) :
    doRequest net req =
      { val := none, err := some e, stream := some resp.Body.Close } := by
  unfold doRequest
  simp [hdo, hs, ReadAll, hread]

/-! ## The claims about constructors, headers, bodies and status errors -/

/-- C8: `NewGLClientFromAPIKey` always yields grant type `client_credentials`,
secret `LOCAL`, an empty client ID, and the API key, tenant ID and host it
was given. -/
theorem C8_api_key_constructor (host tenantID apikey : String) :
    (NewGLClientFromAPIKey host tenantID apikey).GrantType = "client_credentials" ∧
    (NewGLClientFromAPIKey host tenantID apikey).ClientSecret = "LOCAL" ∧
    (NewGLClientFromAPIKey host tenantID apikey).ClientID = "" ∧
    (NewGLClientFromAPIKey host tenantID apikey).APIKey = apikey ∧
    (NewGLClientFromAPIKey host tenantID apikey).TenantID = tenantID ∧
    (NewGLClientFromAPIKey host tenantID apikey).Host = host :=
  ⟨rfl, rfl, rfl, rfl, rfl, rfl⟩

/-- C10: `NewGreenLakeClient` yields a client with an empty API key whose
other fields are the arguments. -/
theorem C10_credentials_constructor (grantType clientID secretKey tenantID host : String) :
    NewGreenLakeClient grantType clientID secretKey tenantID host =
      { GrantType := grantType, ClientID := clientID, ClientSecret := secretKey,
        TenantID := tenantID, Host := host, APIKey := "" } :=
  rfl

/-- C7: the `Authorization` header of the request `GetUsers` builds is
`Bearer ` followed by the API key, unchanged, for every key. -/
theorem C7_authorization_header (c : Client) (net : Net) (path : String) (req : Request)
    (h : c.usersRequest net path = .ok req) :
    req.Header.Get "Authorization" = "Bearer " ++ c.APIKey := by
  rw [usersRequest_ok c net path req h]
  simp [Header.Get, List.lookup]

/-- C7 at the empty API key: the header is `Bearer ` with its trailing space. -/
theorem C7_authorization_header_witness :
    ∃ req, (NewGLClientFromAPIKey "https://gl.example" "t1" "").usersRequest
        (netAnswering (respWith "200 OK" 200 "[]")) "Users" = .ok req ∧
      req.Header.Get "Authorization" = "Bearer " :=
  ⟨_, rfl, C7_authorization_header (NewGLClientFromAPIKey "https://gl.example" "t1" "")
    (netAnswering (respWith "200 OK" 200 "[]")) "Users" _ rfl⟩

/-- C9: on status 200 with a body that reads to its end, `GetUsers` returns the
bytes of the body as they are and a nil error. -/
theorem C9_users_body_unparsed (c : Client) (net : Net) (path : String)
    (req : Request) (resp : Response)
    (hreq : c.usersRequest net path = .ok req) (hdo : net.Do req = .ok resp)
    (hs : resp.StatusCode = 200) (hread : resp.Body.failure = none) :
    (c.GetUsers net path).val = some resp.Body.data ∧ (c.GetUsers net path).err = none := by
  unfold Client.GetUsers
  simp only [hreq, doRequest_ok net req resp hdo hs hread, and_self]

/-- C9 at a body that is no JSON text. -/
theorem C9_users_body_unparsed_witness :
    ((NewGLClientFromAPIKey "https://gl.example" "t1" "k1").GetUsers
        (netAnswering (respWith "200 OK" 200 "no json \x7b")) "Users").val
      = some (encodeRunes "no json \x7b".data) ∧
    ((NewGLClientFromAPIKey "https://gl.example" "t1" "k1").GetUsers
        (netAnswering (respWith "200 OK" 200 "no json \x7b")) "Users").err = none :=
  C9_users_body_unparsed (NewGLClientFromAPIKey "https://gl.example" "t1" "k1")
    (netAnswering (respWith "200 OK" 200 "no json \x7b")) "Users" _
    (respWith "200 OK" 200 "no json \x7b") rfl rfl rfl rfl

/-- C2: when the server answers the request of `GetUsers` with a status other
than 200, `GetUsers` returns a nil slice and the error `error in response and
response status: ` followed by the status text; when it answers the request
of `GetToken` with a status other than 200, `GetToken` returns the zero token
and that error. Each of the two holds whatever the server answers to the
other operation. -/
theorem C2_status_error (c : Client) (net : Net) (path : String) :
    (∀ req resp, c.usersRequest net path = .ok req → net.Do req = .ok resp →
      resp.StatusCode ≠ 200 →
      (c.GetUsers net path).val = none ∧
      (c.GetUsers net path).err
        = some (.text ("error in response and response status: " ++ resp.Status))) ∧
    (∀ req resp, c.tokenRequest net = .ok req → net.Do req = .ok resp →
      resp.StatusCode ≠ 200 →
      (c.GetToken net).val = Token.zero ∧
      (c.GetToken net).err
        = some (.text ("error in response and response status: " ++ resp.Status))) := by
  constructor
  · intro req resp hu hd hs
    unfold Client.GetUsers
    simp only [hu, doRequest_status net req resp hd hs, and_self]
  · intro req resp ht hd hs
    unfold Client.GetToken
    simp only [ht, doRequest_status net req resp hd hs, and_self]

/-- C2 at a server that answers `GET` with 404 and `POST` with 200, and at a
server that answers `GET` with 200 and `POST` with 503. -/
theorem C2_status_error_witness :
    (((NewGLClientFromAPIKey "https://gl.example" "t1" "k1").GetUsers
        (netByMethod (respWith "404 Not Found" 404 "gone")
          (respWith "200 OK" 200 "\x7b\"access_token\":\"abc\"\x7d")) "Users").val = none ∧
     ((NewGLClientFromAPIKey "https://gl.example" "t1" "k1").GetUsers
        (netByMethod (respWith "404 Not Found" 404 "gone")
          (respWith "200 OK" 200 "\x7b\"access_token\":\"abc\"\x7d")) "Users").err
       = some (.text "error in response and response status: 404 Not Found")) ∧
    (((NewGreenLakeClient "client_credentials" "id1" "s1" "t1" "https://gl.example").GetToken
        (netByMethod (respWith "200 OK" 200 "[]")
          (respWith "503 Service Unavailable" 503 "busy"))).val = Token.zero ∧
     ((NewGreenLakeClient "client_credentials" "id1" "s1" "t1" "https://gl.example").GetToken
        (netByMethod (respWith "200 OK" 200 "[]")
          (respWith "503 Service Unavailable" 503 "busy"))).err
       = some (.text "error in response and response status: 503 Service Unavailable")) :=
  ⟨(C2_status_error (NewGLClientFromAPIKey "https://gl.example" "t1" "k1")
      (netByMethod (respWith "404 Not Found" 404 "gone")
        (respWith "200 OK" 200 "\x7b\"access_token\":\"abc\"\x7d")) "Users").1 _
      (respWith "404 Not Found" 404 "gone") rfl rfl (by decide),
   (C2_status_error
      (NewGreenLakeClient "client_credentials" "id1" "s1" "t1" "https://gl.example")
      (netByMethod (respWith "200 OK" 200 "[]")
        (respWith "503 Service Unavailable" 503 "busy")) "").2 _
      (respWith "503 Service Unavailable" 503 "busy") rfl rfl (by decide)⟩

/-- C5: after a 404 answer the response body is still open when `doRequest`,
`GetUsers` and `GetToken` return: the deferred `Close` is registered only
after the status check. -/
theorem C5_body_open_after_error_status :
    (doRequest (netAnswering (respWith "404 Not Found" 404 "gone"))
        { Method := "GET", URL := "https://gl.example/", Header := [], Body := none }).stream
      = some { data := encodeRunes "gone".data, failure := none, closed := false } ∧
    ((NewGLClientFromAPIKey "https://gl.example" "t1" "k1").GetUsers
        (netAnswering (respWith "404 Not Found" 404 "gone")) "Users").stream.map
          ReadCloser.closed = some false ∧
    ((NewGLClientFromAPIKey "https://gl.example" "t1" "k1").GetToken
        (netAnswering (respWith "404 Not Found" 404 "gone"))).stream.map
          ReadCloser.closed = some false := by
  refine ⟨rfl, rfl, rfl⟩

/-- C1: for the path `Users?filter=a%20b` the URL `GetUsers` asks for is not
the concatenation of host, tenant and path: `fmt.Sprintf` reads `%20b` as a
verb without operand. -/
theorem C1_users_url_percent :
    (NewGLClientFromAPIKey "https://gl.example" "t1" "k1").usersURL "Users?filter=a%20b"
      = "https://gl.example/scim/v1/tenant/t1/Users?filter=a%!b(MISSING)" ∧
    ¬ ∃ (net : Net) (req : Request),
      (NewGLClientFromAPIKey "https://gl.example" "t1" "k1").usersRequest net
          "Users?filter=a%20b" = .ok req ∧
      req.URL = "https://gl.example" ++ "/scim/v1/tenant/" ++ "t1" ++ "/"
          ++ "Users?filter=a%20b" := by
  refine ⟨by decide, ?_⟩
  rintro ⟨net, req, h, hurl⟩
  rw [usersRequest_ok _ net _ req h] at hurl
  revert hurl
  decide

/-- C6: for the host `http://[fe80::1%25eth0]:8443` the URL `GetToken` posts
to is not the host followed by `/identity/v1/token`: `fmt.Sprintf` reads
`%25e` as a verb without operand. -/
theorem C6_token_url_percent :
    (NewGreenLakeClient "client_credentials" "id1" "s1" "t1"
        "http://[fe80::1%25eth0]:8443").tokenURL
      = "http://[fe80::1%!e(MISSING)th0]:8443/identity/v1/token" ∧
    ¬ ∃ (net : Net) (req : Request),
      (NewGreenLakeClient "client_credentials" "id1" "s1" "t1"
          "http://[fe80::1%25eth0]:8443").tokenRequest net = .ok req ∧
      req.URL = "http://[fe80::1%25eth0]:8443" ++ "/identity/v1/token" := by
  refine ⟨by decide, ?_⟩
  rintro ⟨net, req, h, hurl⟩
  rw [tokenRequest_ok _ net req h] at hurl
  revert hurl
  decide

/-! ## `GetToken` on a 200 answer, and decoding into a `Token` -/

/-- On status 200 with a body that reads to its end, `GetToken` returns what
`json.Unmarshal` makes of the body. -/
theorem GetToken_ok (c : Client) (net : Net) (req : Request) (resp : Response)
    (hreq : c.tokenRequest net = .ok req) (hdo : net.Do req = .ok resp)
    (hs : resp.StatusCode = 200) (hread : resp.Body.failure = none) :
    c.GetToken net =
      { val := (Unmarshal resp.Body.data Token.zero).1,
        err := (Unmarshal resp.Body.data Token.zero).2,
        stream := some resp.Body.Close } := by
  unfold Client.GetToken
  simp only [hreq, doRequest_ok net req resp hdo hs hread, Option.getD_some]

theorem saveError_none (e : Option GoError) : saveError e none = e := by
  cases e <;> rfl

theorem digitChar_spec : ∀ d, d < 10 →
    (digitChar d).isDigit = true ∧ (digitChar d).toNat - 48 = d := by
  decide

theorem digitsValue_append (a : Nat) (l : List Char) (c : Char) (hc : c.isDigit = true) :
    digitsValue a (l ++ [c]) = (digitsValue a l).map (fun v => v * 10 + (c.toNat - 48)) := by
  induction l generalizing a with
  | nil => simp [digitsValue, hc]
  | cons x xs ih =>
    simp only [List.cons_append, digitsValue]
    split
    · exact ih _
    · rfl

theorem formatNatAux_acc (fuel n : Nat) (acc : List Char) :
    formatNatAux fuel n acc = formatNatAux fuel n [] ++ acc := by
  induction fuel generalizing n acc with
  | zero => simp [formatNatAux]
  | succ k ih =>
    unfold formatNatAux
    split
    · simp
    · rw [ih (n / 10) (digitChar (n % 10) :: acc), ih (n / 10) [digitChar (n % 10)]]
      simp

theorem digitsValue_formatNatAux (fuel n : Nat) (h : n < fuel) :
    digitsValue 0 (formatNatAux fuel n []) = some n := by
  induction fuel generalizing n with
  | zero => omega
  | succ k ih =>
    unfold formatNatAux
    split
    · rename_i hlt
      have hd := digitChar_spec n hlt
      simp [digitsValue, hd.1, hd.2]
    · rename_i hge
      have hd := digitChar_spec (n % 10) (Nat.mod_lt _ (by decide))
      rw [formatNatAux_acc, digitsValue_append _ _ _ hd.1, ih (n / 10) (by omega), hd.2]
      simp only [Option.map_some', Option.some.injEq]
      omega

theorem formatNatAux_digits (fuel n : Nat) (acc : List Char)
    (hacc : ∀ c ∈ acc, c.isDigit = true) :
    ∀ c ∈ formatNatAux fuel n acc, c.isDigit = true := by
  induction fuel generalizing n acc with
  | zero => simpa [formatNatAux] using hacc
  | succ k ih =>
    unfold formatNatAux
    split
    · rename_i hlt
      intro c hc
      rcases List.mem_cons.mp hc with h | h
      · rw [h]; exact (digitChar_spec n hlt).1
      · exact hacc c h
    · apply ih
      intro c hc
      rcases List.mem_cons.mp hc with h | h
      · rw [h]; exact (digitChar_spec (n % 10) (Nat.mod_lt _ (by decide))).1
      · exact hacc c h

theorem formatNatAux_cons (fuel n : Nat) :
    ∃ c cs, formatNatAux (fuel + 1) n [] = c :: cs ∧ c.isDigit = true := by
  have hd := formatNatAux_digits (fuel + 1) n [] (by simp)
  cases hl : formatNatAux (fuel + 1) n [] with
  | nil =>
    exfalso
    unfold formatNatAux at hl
    split at hl
    · simp at hl
    · rw [formatNatAux_acc] at hl
      simp at hl
  | cons c cs =>
    exact ⟨c, cs, rfl, hd c (by rw [hl]; simp)⟩

/-- The decimal literal of a 64-bit integer parses back to the integer. -/
theorem ParseInt_formatInt (n : Int) (hlo : -2 ^ 63 ≤ n) (hhi : n < 2 ^ 63) :
    ParseInt (formatInt n) = some n := by
  obtain ⟨c, cs, hcs, hc⟩ := formatNatAux_cons n.natAbs n.natAbs
  have hv := digitsValue_formatNatAux (n.natAbs + 1) n.natAbs (Nat.lt_succ_self _)
  rw [hcs] at hv
  have hminus : (c == '-') = false := by
    cases h : c == '-'
    · rfl
    · rw [beq_iff_eq] at h; rw [h] at hc; exact absurd hc (by decide)
  have hplus : (c == '+') = false := by
    cases h : c == '+'
    · rfl
    · rw [beq_iff_eq] at h; rw [h] at hc; exact absurd hc (by decide)
  unfold ParseInt formatInt
  by_cases hneg : n < 0
  · simp only [hneg, if_true, hcs, beq_self_eq_true, unsignedValue, hv]
    have h1 : n.natAbs ≤ 2 ^ 63 := by omega
    simp only [h1, if_true, Option.some.injEq]
    omega
  · simp only [hneg, if_false, hcs, hminus, hplus, unsignedValue, hv, Bool.false_eq_true]
    have h1 : n.natAbs < 2 ^ 63 := by omega
    simp only [h1, if_true, Option.some.injEq]
    omega

theorem findField_name (f : Field) : findField f.name = some f := by
  cases f <;> rfl

theorem storeField_valueOf (t tok : Token) (f : Field)
    (hlo : -2 ^ 63 ≤ t.ExpiresIn) (hhi : t.ExpiresIn < 2 ^ 63) :
    storeField f (f.valueOf t) tok = (setField t tok f, none) := by
  cases f <;> simp [storeField, Field.valueOf, setField, ParseInt_formatInt _ hlo hhi]

theorem setField_comm (t tok : Token) (f g : Field) :
    setField t (setField t tok f) g = setField t (setField t tok g) f := by
  cases f <;> cases g <;> rfl

theorem setField_idem (t tok : Token) (f : Field) :
    setField t (setField t tok f) f = setField t tok f := by
  cases f <;> rfl

theorem eq_of_setField (t tok : Token) (h : ∀ f, setField t tok f = tok) : tok = t := by
  have h1 := h .AccessToken
  have h2 := h .Scope
  have h3 := h .TokenType
  have h4 := h .Expiry
  have h5 := h .ExpiresIn
  have h6 := h .AccessTokenOnly
  cases tok; cases t
  simp only [setField, Token.mk.injEq] at *
  simp_all

/-! ## Characters -/

theorem char_le_iff (a b : Char) : a ≤ b ↔ a.toNat ≤ b.toNat := by
  rw [Char.le_def]
  exact Iff.rfl

theorem char_eq_iff (a b : Char) : a = b ↔ a.toNat = b.toNat := by
  constructor
  · intro h; rw [h]
  · intro h
    have := congrArg Char.ofNat h
    simpa using this

theorem isDigit_iff (c : Char) : c.isDigit = true ↔ 48 ≤ c.toNat ∧ c.toNat ≤ 57 := by
  simp only [Char.isDigit, Bool.and_eq_true, decide_eq_true_eq]
  exact Iff.rfl

/-- A statement about all characters follows from the ASCII characters and
from the characters beyond them. -/
theorem char_cases (P : Char → Prop) (small : ∀ n, n < 128 → P (Char.ofNat n))
    (big : ∀ c : Char, 128 ≤ c.toNat → P c) (c : Char) : P c := by
  by_cases h : c.toNat < 128
  · have := small c.toNat h
    simpa using this
  · exact big c (by omega)

theorem lookup_none_of_big {β : Type} (tbl : List (Char × β)) (c : Char) (h : 128 ≤ c.toNat)
    (hk : ∀ p ∈ tbl, p.1.toNat < 128) : tbl.lookup c = none := by
  induction tbl with
  | nil => rfl
  | cons p tbl ih =>
    obtain ⟨k, v⟩ := p
    have hk1 : k.toNat < 128 := hk (k, v) (by simp)
    have hne : (c == k) = false := by
      rw [beq_eq_false_iff_ne]
      intro e
      rw [e] at h
      omega
    simp only [List.lookup, hne]
    exact ih (fun q hq => hk q (List.mem_cons_of_mem _ hq))

/-- The scanner reads hexadecimal digits as the table gives them. -/
theorem hexValue_eq_lookup (c : Char) : hexValue c = hexTable.lookup c := by
  refine char_cases (fun c => hexValue c = hexTable.lookup c) (by decide) ?_ c
  intro c h
  rw [lookup_none_of_big hexTable c h (by decide)]
  unfold hexValue
  simp only [char_le_iff]
  have e1 : ('9' : Char).toNat = 57 := rfl
  have e2 : ('f' : Char).toNat = 102 := rfl
  have e3 : ('F' : Char).toNat = 70 := rfl
  rw [if_neg (by omega), if_neg (by omega), if_neg (by omega)]

/-! ## The units of a string literal -/

theorem unitsValue_inl (c : Char) (more : List (Char ⊕ Nat)) :
    unitsValue (.inl c :: more) = c :: unitsValue more := by
  simp [unitsValue]

theorem unitsValue_inr_single (v : Nat) (more : List (Char ⊕ Nat))
    (hv : ¬ (0xD800 ≤ v ∧ v < 0xDC00)) :
    unitsValue (.inr v :: more) = unitRune v :: unitsValue more := by
  match more with
  | [] => simp [unitsValue]
  | .inl c :: rest => simp [unitsValue]
  | .inr l :: rest =>
    rw [unitsValue]
    rw [if_neg (fun h => hv h.1)]

theorem unitsValue_pair (h l : Nat) (more : List (Char ⊕ Nat))
    (hh : 0xD800 ≤ h ∧ h < 0xDC00) (hl : 0xDC00 ≤ l ∧ l < 0xE000) :
    unitsValue (.inr h :: .inr l :: more)
      = Char.ofNat ((h - 0xD800) * 1024 + (l - 0xDC00) + 0x10000) :: unitsValue more := by
  rw [unitsValue, if_pos ⟨hh, hl⟩]

theorem unitsValue_lone_high (h : Nat) (u : Char ⊕ Nat) (more : List (Char ⊕ Nat))
    (hu : ∀ l, u = .inr l → ¬ (0xDC00 ≤ l ∧ l < 0xE000)) :
    unitsValue (.inr h :: u :: more) = unitRune h :: unitsValue (u :: more) := by
  match u, hu with
  | .inl c, _ => simp [unitsValue]
  | .inr l, hu =>
    rw [unitsValue, if_neg (fun hp => hu l rfl hp.2)]

theorem unitRune_surrogate (v : Nat) (h : 0xD800 ≤ v ∧ v < 0xE000) : unitRune v = RuneError := by
  simp [unitRune, h, RuneError]

theorem unitRune_plain (v : Nat) (h : ¬ (0xD800 ≤ v ∧ v < 0xE000)) : unitRune v = Char.ofNat v := by
  simp only [unitRune]
  rw [if_neg h]

/-- Reading an item that stands for a character. -/
theorem StrState_push_char (items : List StrItem) (acc : List Char) (hi : Option Nat)
    (it : StrItem) (c : Char) (h : StrState items acc hi) (hu : it.unit = .inl c) :
    StrState (items ++ [it]) (c :: flushHi acc hi) none := by
  refine ⟨by simp, ?_⟩
  intro more
  have := h.2 (.inl c :: more)
  simp only [List.map_append, List.map_cons, List.map_nil, hu, List.append_assoc,
    List.singleton_append]
  rw [this]
  cases hi with
  | none => simp [pendUnits, flushHi, unitsValue_inl]
  | some hv =>
    have hh := h.1 hv rfl
    simp only [pendUnits, List.singleton_append, flushHi, List.nil_append]
    rw [unitsValue_lone_high hv (.inl c) more (by simp), unitsValue_inl,
      unitRune_surrogate hv (by omega)]
    simp

/-- Reading an item that stands for a UTF-16 code unit. -/
theorem StrState_push_unit (items : List StrItem) (acc : List Char) (hi : Option Nat)
    (it : StrItem) (v : Nat) (h : StrState items acc hi) (hu : it.unit = .inr v) :
    ∃ acc2 hi2, endEscU acc hi v = .inString acc2 hi2 ∧ StrState (items ++ [it]) acc2 hi2 := by
  have key : ∀ acc2 hi2, (∀ x, hi2 = some x → 0xD800 ≤ x ∧ x < 0xDC00) →
      (∀ more, acc.reverse ++ unitsValue (pendUnits hi ++ .inr v :: more)
        = acc2.reverse ++ unitsValue (pendUnits hi2 ++ more)) →
      StrState (items ++ [it]) acc2 hi2 := by
    intro acc2 hi2 h1 h2
    refine ⟨h1, ?_⟩
    intro more
    have := h.2 (.inr v :: more)
    simp only [List.map_append, List.map_cons, List.map_nil, hu, List.append_assoc,
      List.singleton_append]
    rw [this, h2]
  unfold endEscU
  simp only [Bool.and_eq_true, decide_eq_true_eq]
  cases hi with
  | some hv =>
    have hh := h.1 hv rfl
    simp only
    split
    · rename_i hl
      refine ⟨_, _, rfl, key _ _ (by simp) ?_⟩
      intro more
      simp only [pendUnits, List.singleton_append, List.nil_append]
      rw [unitsValue_pair hv v more hh hl]
      simp
    · rename_i hl
      split
      · rename_i hhigh
        refine ⟨_, _, rfl, key _ _ (by intro x hx; cases hx; exact hhigh) ?_⟩
        intro more
        simp only [pendUnits, List.singleton_append]
        rw [unitsValue_lone_high hv (.inr v) more (by intro l hl2; cases hl2; exact hl),
          unitRune_surrogate hv (by omega)]
        simp
      · rename_i hhigh
        refine ⟨_, _, rfl, key _ _ (by simp) ?_⟩
        intro more
        simp only [pendUnits, List.singleton_append, List.nil_append]
        rw [unitsValue_lone_high hv (.inr v) more (by intro l hl2; cases hl2; exact hl),
          unitRune_surrogate hv (by omega), unitsValue_inr_single v more hhigh,
          unitRune_plain v (by omega)]
        simp
  | none =>
    simp only
    split
    · rename_i hhigh
      refine ⟨_, _, rfl, key _ _ (by intro x hx; cases hx; exact hhigh) ?_⟩
      intro more
      simp [pendUnits]
    · rename_i hhigh
      split
      · rename_i hl
        refine ⟨_, _, rfl, key _ _ (by simp) ?_⟩
        intro more
        simp only [pendUnits, List.nil_append]
        rw [unitsValue_inr_single v more hhigh, unitRune_surrogate v (by omega)]
        simp
      · rename_i hl
        refine ⟨_, _, rfl, key _ _ (by simp) ?_⟩
        intro more
        simp only [pendUnits, List.nil_append]
        rw [unitsValue_inr_single v more hhigh, unitRune_plain v (by omega)]
        simp

/-- At the closing quote the scanner holds what the items stand for. -/
theorem StrState_value (items : List StrItem) (acc : List Char) (hi : Option Nat)
    (h : StrState items acc hi) :
    (flushHi acc hi).reverse = unitsValue (items.map StrItem.unit) := by
  have := h.2 []
  simp only [List.append_nil] at this
  rw [this]
  cases hi with
  | none => simp [pendUnits, flushHi, unitsValue]
  | some hv =>
    have hh := h.1 hv rfl
    simp [pendUnits, flushHi, unitsValue, unitRune_surrogate hv (by omega)]

theorem StrState_init : StrState [] [] none := by
  refine ⟨by simp, ?_⟩
  intro more
  simp [pendUnits]

/-! ## The scanner reads only JSON tokens -/

theorem Spaced_append (ts1 ts2 : List Tok) (cs1 cs2 : List Char) (h1 : Spaced ts1 cs1)
    (h2 : Spaced ts2 cs2) : Spaced (ts1 ++ ts2) (cs1 ++ cs2) := by
  induction h1 with
  | nil => simpa using h2
  | space c cs ts hc _ ih => exact Spaced.space c _ _ hc ih
  | tok t text ts cs ht _ ih =>
    rw [List.append_assoc]
    exact Spaced.tok t text _ _ ht ih

theorem Spaced_single (t : Tok) (text : List Char) (h : TokText t text) : Spaced [t] text := by
  have := Spaced.tok t text [] [] h Spaced.nil
  simpa using this

theorem isSpace_iff (c : Char) : isSpace c = true ↔ JsonSpace c := by
  simp only [isSpace, JsonSpace, Bool.or_eq_true, beq_iff_eq]
  tauto

theorem digit19 (c : Char) (h : '1' ≤ c ∧ c ≤ '9') : c.isDigit = true ∧ c ≠ '0' := by
  rw [isDigit_iff]
  simp only [char_le_iff] at h
  have e1 : ('1' : Char).toNat = 49 := rfl
  have e2 : ('9' : Char).toNat = 57 := rfl
  refine ⟨by omega, ?_⟩
  intro e
  rw [e] at h
  have e3 : ('0' : Char).toNat = 48 := rfl
  omega

/-- What the scanner does at the beginning of a token agrees with the texts of
the tokens. -/
theorem lexStart_sound (c : Char) (st2 : Lex) (out : List Tok)
    (h : lexStart c = some (st2, out)) :
    ∃ text pre2, [c] = text ++ pre2 ∧ Spaced out text ∧ Pending st2 pre2 := by
  unfold lexStart at h
  by_cases h1 : isSpace c = true
  · rw [if_pos h1] at h; cases h
    exact ⟨[c], [], rfl, Spaced.space c [] [] ((isSpace_iff c).1 h1) Spaced.nil, rfl⟩
  rw [if_neg h1] at h
  by_cases h2 : c = '\x7b'
  · subst h2; cases h
    exact ⟨['\x7b'], [], rfl, Spaced_single _ _ (by simp [TokText]), rfl⟩
  rw [if_neg (by simpa using h2)] at h
  by_cases h3 : c = '\x7d'
  · subst h3; cases h
    exact ⟨['\x7d'], [], rfl, Spaced_single _ _ (by simp [TokText]), rfl⟩
  rw [if_neg (by simpa using h3)] at h
  by_cases h4 : c = '['
  · subst h4; cases h
    exact ⟨['['], [], rfl, Spaced_single _ _ (by simp [TokText]), rfl⟩
  rw [if_neg (by simpa using h4)] at h
  by_cases h5 : c = ']'
  · subst h5; cases h
    exact ⟨[']'], [], rfl, Spaced_single _ _ (by simp [TokText]), rfl⟩
  rw [if_neg (by simpa using h5)] at h
  by_cases h6 : c = ':'
  · subst h6; cases h
    exact ⟨[':'], [], rfl, Spaced_single _ _ (by simp [TokText]), rfl⟩
  rw [if_neg (by simpa using h6)] at h
  by_cases h7 : c = ','
  · subst h7; cases h
    exact ⟨[','], [], rfl, Spaced_single _ _ (by simp [TokText]), rfl⟩
  rw [if_neg (by simpa using h7)] at h
  by_cases h8 : c = '"'
  · subst h8; cases h
    exact ⟨[], ['"'], rfl, Spaced.nil, [], by simp, by simp, StrState_init⟩
  rw [if_neg (by simpa using h8)] at h
  by_cases h9 : c = '-'
  · subst h9; cases h
    exact ⟨[], ['-'], rfl, Spaced.nil, rfl, rfl⟩
  rw [if_neg (by simpa using h9)] at h
  by_cases h10 : c = '0'
  · subst h10; cases h
    exact ⟨[], ['0'], rfl, Spaced.nil, rfl, [], Or.inl rfl, rfl⟩
  rw [if_neg (by simpa using h10)] at h
  by_cases h11 : '1' ≤ c ∧ c ≤ '9'
  · rw [if_pos h11] at h; cases h
    have hd := digit19 c h11
    exact ⟨[], [c], rfl, Spaced.nil, rfl, [], c, [], Or.inl rfl, rfl, hd.1, hd.2, by simp⟩
  rw [if_neg h11] at h
  by_cases h12 : c = 't'
  · subst h12; cases h
    exact ⟨[], ['t'], rfl, Spaced.nil, Or.inl rfl, rfl, by simp, by simp⟩
  rw [if_neg (by simpa using h12)] at h
  by_cases h13 : c = 'f'
  · subst h13; cases h
    exact ⟨[], ['f'], rfl, Spaced.nil, Or.inr (Or.inl rfl), rfl, by simp, by simp⟩
  rw [if_neg (by simpa using h13)] at h
  by_cases h14 : c = 'n'
  · subst h14; cases h
    exact ⟨[], ['n'], rfl, Spaced.nil, Or.inr (Or.inr rfl), rfl, by simp, by simp⟩
  rw [if_neg (by simpa using h14)] at h
  cases h

theorem IsDigits_snoc (ds : List Char) (c : Char) (h : ∀ x ∈ ds, x.isDigit = true)
    (hc : c.isDigit = true) : IsDigits (ds ++ [c]) := by
  refine ⟨by simp, ?_⟩
  intro x hx
  rw [List.mem_append] at hx
  rcases hx with hx | hx
  · exact h x hx
  · simp only [List.mem_singleton] at hx
    rw [hx]; exact hc

/-- Inside a number the scanner has read the beginning of a number literal. -/
theorem numNext_prefix (ns ns2 : NumState) (pre : List Char) (c : Char)
    (hp : NumPrefix ns pre) (h : numNext ns c = some ns2) : NumPrefix ns2 (pre ++ [c]) := by
  cases ns with
  | neg =>
    simp only [NumPrefix] at hp
    subst hp
    simp only [numNext] at h
    split_ifs at h with h1 h2
    · rw [beq_iff_eq] at h1; subst h1
      cases h
      exact ⟨['-'], Or.inr rfl, rfl⟩
    · cases h
      have hd := digit19 c h2
      exact ⟨['-'], c, [], Or.inr rfl, rfl, hd.1, hd.2, by simp⟩
  | int =>
    obtain ⟨s, d, ds, hs, rfl, hd, hd0, hds⟩ := hp
    simp only [numNext] at h
    split_ifs at h with h1 h2 h3
    · cases h
      refine ⟨s, d, ds ++ [c], hs, by simp, hd, hd0, (IsDigits_snoc ds c hds h1).2⟩
    · rw [beq_iff_eq] at h2; subst h2
      cases h
      exact ⟨s, d :: ds, hs, Or.inr ⟨d, ds, rfl, hd, hd0, hds⟩, by simp⟩
    · simp only [Bool.or_eq_true, beq_iff_eq] at h3
      cases h
      exact ⟨s, d :: ds, [], c, hs, Or.inr ⟨d, ds, rfl, hd, hd0, hds⟩, Or.inl rfl, h3, by simp⟩
  | zero =>
    obtain ⟨s, hs, rfl⟩ := hp
    simp only [numNext] at h
    split_ifs at h with h2 h3
    · rw [beq_iff_eq] at h2; subst h2
      cases h
      exact ⟨s, ['0'], hs, Or.inl rfl, by simp⟩
    · simp only [Bool.or_eq_true, beq_iff_eq] at h3
      cases h
      exact ⟨s, ['0'], [], c, hs, Or.inl rfl, Or.inl rfl, h3, by simp⟩
  | dot =>
    obtain ⟨s, i, hs, hi, rfl⟩ := hp
    simp only [numNext] at h
    split_ifs at h with h1
    cases h
    exact ⟨s, i, [c], hs, hi, IsDigits_snoc [] c (by simp) h1, by simp⟩
  | dot0 =>
    obtain ⟨s, i, ds, hs, hi, hds, rfl⟩ := hp
    simp only [numNext] at h
    split_ifs at h with h1 h3
    · cases h
      exact ⟨s, i, ds ++ [c], hs, hi, IsDigits_snoc ds c hds.2 h1, by simp⟩
    · simp only [Bool.or_eq_true, beq_iff_eq] at h3
      cases h
      exact ⟨s, i, '.' :: ds, c, hs, hi, Or.inr ⟨ds, rfl, hds⟩, h3, by simp⟩
  | e =>
    obtain ⟨s, i, f, e, hs, hi, hf, he, rfl⟩ := hp
    simp only [numNext] at h
    split_ifs at h with h1 h2
    · simp only [Bool.or_eq_true, beq_iff_eq] at h1
      cases h
      exact ⟨s, i, f, e, c, hs, hi, hf, he, h1, by simp⟩
    · cases h
      exact ⟨s, i, f, [e, c], hs, hi, hf,
        ⟨e, [], [c], rfl, he, Or.inl rfl, IsDigits_snoc [] c (by simp) h2⟩, by simp⟩
  | esign =>
    obtain ⟨s, i, f, e, sg, hs, hi, hf, he, hsg, rfl⟩ := hp
    simp only [numNext] at h
    split_ifs at h with h2
    cases h
    refine ⟨s, i, f, [e, sg, c], hs, hi, hf,
        ⟨e, [sg], [c], rfl, he, ?_, IsDigits_snoc [] c (by simp) h2⟩, by simp⟩
    rcases hsg with rfl | rfl
    · exact Or.inr (Or.inl rfl)
    · exact Or.inr (Or.inr rfl)
  | e0 =>
    obtain ⟨s, i, f, x, hs, hi, hf, hx, rfl⟩ := hp
    simp only [numNext] at h
    split_ifs at h with h2
    cases h
    obtain ⟨e, sg, ds, rfl, he, hsg, hds⟩ := hx
    exact ⟨s, i, f, e :: sg ++ (ds ++ [c]), hs, hi, hf,
        ⟨e, sg, ds ++ [c], rfl, he, hsg, IsDigits_snoc ds c hds.2 h2⟩, by simp⟩

/-- Where a number may end the scanner has read a number literal. -/
theorem NumPrefix_number (ns : NumState) (pre : List Char) (hp : NumPrefix ns pre)
    (hf : ns.final = true) : IsNumber pre := by
  cases ns with
  | neg => simp [NumState.final] at hf
  | dot => simp [NumState.final] at hf
  | e => simp [NumState.final] at hf
  | esign => simp [NumState.final] at hf
  | zero =>
    obtain ⟨s, hs, rfl⟩ := hp
    exact ⟨s, ['0'], [], [], by simp, hs, Or.inl rfl, Or.inl rfl, Or.inl rfl⟩
  | int =>
    obtain ⟨s, d, ds, hs, rfl, hd, hd0, hds⟩ := hp
    exact ⟨s, d :: ds, [], [], by simp, hs, Or.inr ⟨d, ds, rfl, hd, hd0, hds⟩, Or.inl rfl,
      Or.inl rfl⟩
  | dot0 =>
    obtain ⟨s, i, ds, hs, hi, hds, rfl⟩ := hp
    exact ⟨s, i, '.' :: ds, [], by simp, hs, hi, Or.inr ⟨ds, rfl, hds⟩, Or.inl rfl⟩
  | e0 =>
    obtain ⟨s, i, f, x, hs, hi, hf2, hx, rfl⟩ := hp
    exact ⟨s, i, f, x, rfl, hs, hi, hf2, Or.inr hx⟩

theorem hexRunFrom_snoc (hs : List Char) (a v d : Nat) (c : Char)
    (h : hexRunFrom a hs = some v) (hc : hexTable.lookup c = some d) :
    hexRunFrom a (hs ++ [c]) = some (v * 16 + d) := by
  induction hs generalizing a with
  | nil =>
    simp only [hexRunFrom, Option.some.injEq] at h
    subst h
    simp [hexRunFrom, hc]
  | cons x xs ih =>
    simp only [hexRunFrom, List.cons_append] at h ⊢
    cases hx : hexTable.lookup x with
    | none => rw [hx] at h; cases h
    | some dx =>
      rw [hx] at h
      simp only
      exact ih _ h

theorem hexRunFrom_three (a b c : Char) (v : Nat) (h : hexRunFrom 0 [a, b, c] = some v) :
    (hexTable.lookup a).isSome = true ∧ (hexTable.lookup b).isSome = true ∧
    (hexTable.lookup c).isSome = true ∧
    v = ((hexTable.lookup a).getD 0 * 16 + (hexTable.lookup b).getD 0) * 16
      + (hexTable.lookup c).getD 0 := by
  simp only [hexRunFrom] at h
  cases ha : hexTable.lookup a with
  | none => rw [ha] at h; cases h
  | some da =>
    rw [ha] at h
    simp only at h
    cases hb : hexTable.lookup b with
    | none => rw [hb] at h; cases h
    | some db =>
      rw [hb] at h
      simp only at h
      cases hc : hexTable.lookup c with
      | none => rw [hc] at h; cases h
      | some dc =>
        rw [hc] at h
        simp only [Option.some.injEq] at h
        simp [← h]

theorem flatMap_snoc (items : List StrItem) (it : StrItem) :
    (items ++ [it]).flatMap StrItem.text = items.flatMap StrItem.text ++ it.text := by
  simp [List.flatMap_append]

theorem valid_snoc (items : List StrItem) (it : StrItem) (h : ∀ i ∈ items, i.Valid)
    (hi : it.Valid) : ∀ i ∈ items ++ [it], i.Valid := by
  intro i hm
  rw [List.mem_append] at hm
  rcases hm with hm | hm
  · exact h i hm
  · simp only [List.mem_singleton] at hm
    rw [hm]; exact hi

theorem wordText_tok (tok : Tok) (h : tok = .tru ∨ tok = .fls ∨ tok = .nul) :
    TokText tok (wordText tok) := by
  rcases h with rfl | rfl | rfl <;> simp [TokText, wordText]

/-- One character through the scanner: the tokens that ended are written in
the text read, and the rest is the beginning of a token. -/
theorem lexStep_pending (st st2 : Lex) (c : Char) (out : List Tok) (pre : List Char)
    (hp : Pending st pre) (h : lexStep st c = some (st2, out)) :
    ∃ text pre2, pre ++ [c] = text ++ pre2 ∧ Spaced out text ∧ Pending st2 pre2 := by
  cases st with
  | start =>
    simp only [Pending] at hp
    subst hp
    exact lexStart_sound c st2 out h
  | inString acc hi =>
    obtain ⟨items, hv, rfl, hs⟩ := hp
    simp only [lexStep] at h
    by_cases h1 : c = '"'
    · subst h1
      rw [if_pos (by rfl)] at h
      cases h
      refine ⟨'"' :: items.flatMap StrItem.text ++ ['"'], [], by simp, ?_, rfl⟩
      refine Spaced_single _ _ ⟨items, hv, rfl, ?_⟩
      rw [StrState_value _ _ _ hs]
    rw [if_neg (by simpa using h1)] at h
    by_cases h2 : c = '\\'
    · subst h2
      rw [if_pos (by rfl)] at h
      cases h
      exact ⟨[], '"' :: items.flatMap StrItem.text ++ ['\\'], by simp, Spaced.nil,
        items, hv, rfl, hs⟩
    rw [if_neg (by simpa using h2)] at h
    by_cases h3 : c.toNat < 0x20
    · rw [if_pos h3] at h; cases h
    rw [if_neg h3] at h
    cases h
    refine ⟨[], '"' :: (items ++ [StrItem.plain c]).flatMap StrItem.text, ?_, Spaced.nil,
      items ++ [StrItem.plain c], ?_, rfl, StrState_push_char items acc hi (.plain c) c hs rfl⟩
    · simp [flatMap_snoc, StrItem.text]
    · exact valid_snoc items _ hv ⟨by omega, h1, h2⟩
  | inStringEsc acc hi =>
    obtain ⟨items, hv, rfl, hs⟩ := hp
    simp only [lexStep] at h
    by_cases h1 : c = 'u'
    · subst h1
      rw [if_pos (by rfl)] at h
      cases h
      exact ⟨[], '"' :: items.flatMap StrItem.text ++ '\\' :: 'u' :: [], by simp, Spaced.nil,
        items, [], hv, rfl, rfl, by omega, rfl, hs⟩
    rw [if_neg (by simpa using h1)] at h
    have key : ∀ r : Char, escapeTable.lookup c = some r →
        st2 = .inString (r :: flushHi acc hi) none → out = [] →
        ∃ text pre2, ('"' :: items.flatMap StrItem.text ++ ['\\']) ++ [c] = text ++ pre2 ∧
          Spaced out text ∧ Pending st2 pre2 := by
      intro r hr e1 e2
      subst e1 e2
      refine ⟨[], '"' :: (items ++ [StrItem.escape c]).flatMap StrItem.text, ?_, Spaced.nil,
        items ++ [StrItem.escape c], ?_, rfl, StrState_push_char items acc hi (.escape c) r hs ?_⟩
      · simp [flatMap_snoc, StrItem.text]
      · refine valid_snoc items _ hv ?_
        simp [StrItem.Valid, hr]
      · simp [StrItem.unit, hr]
    by_cases h2 : c = '"' ∨ c = '\\' ∨ c = '/'
    · rw [if_pos (by simpa [or_assoc] using h2)] at h
      simp only [Option.some.injEq, Prod.mk.injEq] at h
      rcases h2 with rfl | rfl | rfl
      · exact key _ rfl h.1.symm h.2.symm
      · exact key _ rfl h.1.symm h.2.symm
      · exact key _ rfl h.1.symm h.2.symm
    rw [if_neg (by simpa [or_assoc] using h2)] at h
    by_cases h3 : c = 'b'
    · subst h3
      rw [if_pos (by rfl)] at h
      simp only [Option.some.injEq, Prod.mk.injEq] at h
      exact key _ rfl h.1.symm h.2.symm
    rw [if_neg (by simpa using h3)] at h
    by_cases h4 : c = 'f'
    · subst h4
      rw [if_pos (by rfl)] at h
      simp only [Option.some.injEq, Prod.mk.injEq] at h
      exact key _ rfl h.1.symm h.2.symm
    rw [if_neg (by simpa using h4)] at h
    by_cases h5 : c = 'n'
    · subst h5
      rw [if_pos (by rfl)] at h
      simp only [Option.some.injEq, Prod.mk.injEq] at h
      exact key _ rfl h.1.symm h.2.symm
    rw [if_neg (by simpa using h5)] at h
    by_cases h6 : c = 'r'
    · subst h6
      rw [if_pos (by rfl)] at h
      simp only [Option.some.injEq, Prod.mk.injEq] at h
      exact key _ rfl h.1.symm h.2.symm
    rw [if_neg (by simpa using h6)] at h
    by_cases h7 : c = 't'
    · subst h7
      rw [if_pos (by rfl)] at h
      simp only [Option.some.injEq, Prod.mk.injEq] at h
      exact key _ rfl h.1.symm h.2.symm
    rw [if_neg (by simpa using h7)] at h
    cases h
  | inStringEscU acc hi n v =>
    obtain ⟨items, hs, hv, rfl, hlen, hn, hrun, hst⟩ := hp
    simp only [lexStep] at h
    rw [hexValue_eq_lookup] at h
    cases hd : hexTable.lookup c with
    | none => rw [hd] at h; cases h
    | some d =>
      rw [hd] at h
      simp only at h
      by_cases h3 : n < 3
      · rw [if_pos h3] at h
        cases h
        exact ⟨[], '"' :: items.flatMap StrItem.text ++ '\\' :: 'u' :: (hs ++ [c]), by simp,
          Spaced.nil, items, hs ++ [c], hv, rfl, by simp [hlen], by omega,
          hexRunFrom_snoc hs 0 v d c hrun hd, hst⟩
      · rw [if_neg h3] at h
        have hn3 : hs.length = 3 := by omega
        match hs, hn3 with
        | [x, y, z], _ =>
          obtain ⟨hx, hy, hz, hval⟩ := hexRunFrom_three x y z v hrun
          obtain ⟨acc2, hi2, he, hst2⟩ := StrState_push_unit items acc hi (.unicode x y z c)
            (v * 16 + d) hst (by simp [StrItem.unit, hval, hd])
          rw [he] at h
          cases h
          refine ⟨[], '"' :: (items ++ [StrItem.unicode x y z c]).flatMap StrItem.text, ?_, Spaced.nil,
            items ++ [StrItem.unicode x y z c], ?_, rfl, hst2⟩
          · simp [flatMap_snoc, StrItem.text]
          · refine valid_snoc items _ hv ⟨hx, hy, hz, ?_⟩
            simp [hd]
  | number ns acc =>
    obtain ⟨rfl, hnp⟩ := hp
    simp only [lexStep] at h
    cases hnn : numNext ns c with
    | some ns2 =>
      rw [hnn] at h
      cases h
      exact ⟨[], acc.reverse ++ [c], by simp, Spaced.nil, by simp,
        numNext_prefix ns ns2 _ c hnp hnn⟩
    | none =>
      rw [hnn] at h
      simp only at h
      by_cases hf : ns.final = true
      · rw [if_pos hf] at h
        cases hl : lexStart c with
        | none => rw [hl] at h; cases h
        | some p =>
          obtain ⟨st3, toks⟩ := p
          obtain ⟨text, pre2, e, hsp, hpd⟩ := lexStart_sound c st3 toks hl
          rw [hl] at h
          cases h
          refine ⟨acc.reverse ++ text, pre2, by rw [e, List.append_assoc], ?_, hpd⟩
          exact Spaced.tok _ _ _ _ ⟨rfl, NumPrefix_number ns _ hnp hf⟩ hsp
      · rw [if_neg hf] at h; cases h
  | word rest tok =>
    obtain ⟨htok, htext, hrest, hpre⟩ := hp
    simp only [lexStep] at h
    match rest, hrest with
    | [r], _ =>
      simp only at h
      by_cases hc : c = r
      · subst hc
        rw [if_pos (by simp)] at h
        cases h
        refine ⟨pre ++ [c], [], by simp, ?_, rfl⟩
        rw [htext]
        exact Spaced_single _ _ (wordText_tok tok htok)
      · rw [if_neg (by simpa using hc)] at h; cases h
    | r :: r2 :: rs, _ =>
      simp only at h
      by_cases hc : c = r
      · subst hc
        rw [if_pos (by simp)] at h
        cases h
        exact ⟨[], pre ++ [c], by simp, Spaced.nil, htok, by simpa using htext, by simp, by simp⟩
      · rw [if_neg (by simpa using hc)] at h; cases h

/-- The invariant of the scanner is kept by every character. -/
theorem lexStep_inv (st st2 : Lex) (toks out : List Tok) (consumed : List Char) (c : Char)
    (hi : LexInv st toks consumed) (h : lexStep st c = some (st2, out)) :
    LexInv st2 (out.reverse ++ toks) (consumed ++ [c]) := by
  obtain ⟨spaced, pre, rfl, hsp, hp⟩ := hi
  obtain ⟨text, pre2, e, hout, hp2⟩ := lexStep_pending st st2 c out pre hp h
  refine ⟨spaced ++ text, pre2, by rw [List.append_assoc, e, List.append_assoc], ?_, hp2⟩
  rw [List.reverse_append, List.reverse_reverse]
  exact Spaced_append _ _ _ _ hsp hout

theorem lexLoop_inv (cs : List Char) (st st2 : Lex) (toks toks2 : List Tok)
    (consumed : List Char) (hi : LexInv st toks consumed)
    (h : lexLoop st toks cs = some (st2, toks2)) : LexInv st2 toks2 (consumed ++ cs) := by
  induction cs generalizing st toks consumed with
  | nil =>
    simp only [lexLoop, Option.some.injEq, Prod.mk.injEq] at h
    obtain ⟨rfl, rfl⟩ := h
    simpa using hi
  | cons c cs ih =>
    simp only [lexLoop] at h
    cases hs : lexStep st c with
    | none => rw [hs] at h; cases h
    | some p =>
      obtain ⟨st3, out⟩ := p
      rw [hs] at h
      simp only at h
      have := ih st3 (out.reverse ++ toks) (consumed ++ [c]) (lexStep_inv st st3 toks out consumed c hi hs) h
      simpa using this

/-- The scanner is sound: the tokens it reads are written in the text, in
order, with only white space around them. -/
theorem lex_sound (cs : List Char) (ts : List Tok) (h : lex cs = some ts) : Spaced ts cs := by
  unfold lex at h
  cases hl : lexLoop .start [] cs with
  | none => rw [hl] at h; cases h
  | some p =>
    obtain ⟨st, toks⟩ := p
    rw [hl] at h
    have hinv := lexLoop_inv cs .start st [] toks [] ⟨[], [], rfl, Spaced.nil, rfl⟩ hl
    obtain ⟨spaced, pre, e, hsp, hp⟩ := hinv
    simp only [List.nil_append] at e
    subst e
    cases st with
    | start =>
      simp only [Option.some.injEq] at h
      subst h
      simp only [Pending] at hp
      subst hp
      simpa using hsp
    | number ns acc =>
      simp only at h
      by_cases hf : ns.final = true
      · rw [if_pos hf] at h
        simp only [Option.some.injEq] at h
        subst h
        obtain ⟨rfl, hnp⟩ := hp
        rw [List.reverse_cons]
        exact Spaced_append _ _ _ _ hsp (Spaced_single _ _ ⟨rfl, NumPrefix_number ns _ hnp hf⟩)
      · rw [if_neg hf] at h; cases h
    | inString acc hi => cases h
    | inStringEsc acc hi => cases h
    | inStringEscU acc hi n v => cases h
    | word rest tok => cases h

/-! ## The scanner reads every JSON text -/

theorem lex_eq_lexEnd (cs : List Char) : lex cs = lexEnd (lexLoop .start [] cs) := by
  unfold lex
  cases lexLoop .start [] cs with
  | none => rfl
  | some p =>
    obtain ⟨st, toks⟩ := p
    cases st <;> rfl

theorem lexLoop_cons (st st2 : Lex) (toks out : List Tok) (c : Char) (cs : List Char)
    (h : lexStep st c = some (st2, out)) :
    lexLoop st toks (c :: cs) = lexLoop st2 (out.reverse ++ toks) cs := by
  simp only [lexLoop, h]

theorem lexLoop_skip (st st2 : Lex) (toks : List Tok) (c : Char) (cs : List Char)
    (h : lexStep st c = some (st2, [])) : lexLoop st toks (c :: cs) = lexLoop st2 toks cs := by
  simp only [lexLoop, h, List.reverse_nil, List.nil_append]

theorem escape_cases (e : Char) (h : (escapeTable.lookup e).isSome = true) :
    e = '"' ∨ e = '\\' ∨ e = '/' ∨ e = 'b' ∨ e = 'f' ∨ e = 'n' ∨ e = 'r' ∨ e = 't' := by
  revert h
  refine char_cases (fun e => (escapeTable.lookup e).isSome = true →
    e = '"' ∨ e = '\\' ∨ e = '/' ∨ e = 'b' ∨ e = 'f' ∨ e = 'n' ∨ e = 'r' ∨ e = 't')
    (by decide) ?_ e
  intro c hc h
  rw [lookup_none_of_big escapeTable c hc (by decide)] at h
  cases h

theorem lexStep_escape (e : Char) (acc : List Char) (hi : Option Nat)
    (h : (escapeTable.lookup e).isSome = true) :
    lexStep (.inStringEsc acc hi) e
      = some (.inString ((escapeTable.lookup e).getD e :: flushHi acc hi) none, []) := by
  rcases escape_cases e h with rfl | rfl | rfl | rfl | rfl | rfl | rfl | rfl <;> rfl

theorem lexStep_plain (c : Char) (acc : List Char) (hi : Option Nat)
    (h : 0x20 ≤ c.toNat ∧ c ≠ '"' ∧ c ≠ '\\') :
    lexStep (.inString acc hi) c = some (.inString (c :: flushHi acc hi) none, []) := by
  simp only [lexStep]
  rw [if_neg (by simpa using h.2.1), if_neg (by simpa using h.2.2), if_neg (by omega)]

theorem lexStep_hex (c : Char) (acc : List Char) (hi : Option Nat) (n v d : Nat)
    (h : hexTable.lookup c = some d) :
    lexStep (.inStringEscU acc hi n v) c
      = if n < 3 then some (.inStringEscU acc hi (n + 1) (v * 16 + d), [])
        else some (endEscU acc hi (v * 16 + d), []) := by
  simp only [lexStep, hexValue_eq_lookup, h]

/-- The scanner over the items of a string literal and the closing quote. -/
theorem lexLoop_items (items : List StrItem) (done : List StrItem) (acc : List Char)
    (hi : Option Nat) (toks : List Tok) (rest : List Char)
    (hv : ∀ i ∈ items, i.Valid) (hs : StrState done acc hi) :
    lexLoop (.inString acc hi) toks (items.flatMap StrItem.text ++ '"' :: rest)
      = lexLoop .start
          (.str (String.mk (unitsValue ((done ++ items).map StrItem.unit))) :: toks) rest := by
  induction items generalizing done acc hi with
  | nil =>
    simp only [List.flatMap_nil, List.nil_append, List.append_nil]
    rw [lexLoop_cons (.inString acc hi) .start toks [.str (String.mk (flushHi acc hi).reverse)]
      '"' rest rfl]
    rw [StrState_value _ _ _ hs]
    rfl
  | cons it items ih =>
    have hit : it.Valid := hv it (by simp)
    have hv2 : ∀ i ∈ items, i.Valid := fun i hm => hv i (List.mem_cons_of_mem _ hm)
    have e : done ++ it :: items = (done ++ [it]) ++ items := by simp
    rw [e]
    rw [List.flatMap_cons, List.append_assoc]
    cases it with
    | plain c =>
      rw [StrItem.text, List.singleton_append]
      rw [lexLoop_skip _ _ toks c _ (lexStep_plain c acc hi hit)]
      exact ih (done ++ [.plain c]) _ _ hv2 (StrState_push_char done acc hi (.plain c) c hs rfl)
    | escape x =>
      rw [StrItem.text, List.cons_append, List.singleton_append]
      rw [lexLoop_skip (.inString acc hi) (.inStringEsc acc hi) toks '\\' _ rfl]
      rw [lexLoop_skip _ _ _ x _ (lexStep_escape x acc hi hit)]
      exact ih (done ++ [.escape x]) _ _ hv2 (StrState_push_char done acc hi (.escape x) _ hs rfl)
    | unicode a b c d =>
      obtain ⟨ha, hb, hc, hd⟩ := hit
      obtain ⟨da, ha⟩ := Option.isSome_iff_exists.1 ha
      obtain ⟨db, hb⟩ := Option.isSome_iff_exists.1 hb
      obtain ⟨dc, hc⟩ := Option.isSome_iff_exists.1 hc
      obtain ⟨dd, hd⟩ := Option.isSome_iff_exists.1 hd
      obtain ⟨acc2, hi2, he, hs2⟩ := StrState_push_unit done acc hi (.unicode a b c d)
        ((((0 * 16 + da) * 16 + db) * 16 + dc) * 16 + dd) hs
        (by simp [StrItem.unit, ha, hb, hc, hd])
      have e2 : (StrItem.unicode a b c d).text ++ (items.flatMap StrItem.text ++ '"' :: rest)
          = '\\' :: 'u' :: a :: b :: c :: d :: (items.flatMap StrItem.text ++ '"' :: rest) := rfl
      rw [e2]
      rw [lexLoop_skip (.inString acc hi) (.inStringEsc acc hi) toks '\\' _ rfl]
      rw [lexLoop_skip (.inStringEsc acc hi) (.inStringEscU acc hi 0 0) _ 'u' _ rfl]
      rw [lexLoop_skip _ (.inStringEscU acc hi 1 (0 * 16 + da)) _ a _
        (by rw [lexStep_hex a acc hi 0 0 da ha]; rfl)]
      rw [lexLoop_skip _ (.inStringEscU acc hi 2 ((0 * 16 + da) * 16 + db)) _ b _
        (by rw [lexStep_hex b acc hi 1 _ db hb]; rfl)]
      rw [lexLoop_skip _ (.inStringEscU acc hi 3 (((0 * 16 + da) * 16 + db) * 16 + dc)) _ c _
        (by rw [lexStep_hex c acc hi 2 _ dc hc]; rfl)]
      rw [lexLoop_skip _ (.inString acc2 hi2) _ d _
        (by rw [lexStep_hex d acc hi 3 _ dd hd, ← he]; rfl)]
      exact ih (done ++ [.unicode a b c d]) _ _ hv2 hs2

/-! ## The scanner over a number literal -/

theorem numRun_append (a b : List Char) (ns : NumState) :
    numRun ns (a ++ b) = (numRun ns a).bind (fun m => numRun m b) := by
  induction a generalizing ns with
  | nil => rfl
  | cons c a ih =>
    simp only [List.cons_append, numRun]
    cases numNext ns c with
    | none => rfl
    | some m => exact ih m

theorem numRun_digits (ns : NumState) (ds : List Char) (h : ∀ c ∈ ds, c.isDigit = true)
    (hstep : ∀ c : Char, c.isDigit = true → numNext ns c = some ns) : numRun ns ds = some ns := by
  induction ds with
  | nil => rfl
  | cons d ds ih =>
    simp only [numRun, hstep d (h d (by simp))]
    exact ih (fun c hc => h c (List.mem_cons_of_mem _ hc))

theorem numNext_int_digit (c : Char) (h : c.isDigit = true) : numNext .int c = some .int := by
  simp only [numNext, h, if_true]

theorem numNext_dot_digit (c : Char) (h : c.isDigit = true) : numNext .dot c = some .dot0 := by
  simp only [numNext, h, if_true]

theorem numNext_dot0_digit (c : Char) (h : c.isDigit = true) : numNext .dot0 c = some .dot0 := by
  simp only [numNext, h, if_true]

theorem numNext_esign_digit (c : Char) (h : c.isDigit = true) : numNext .esign c = some .e0 := by
  simp only [numNext, h, if_true]

theorem numNext_e0_digit (c : Char) (h : c.isDigit = true) : numNext .e0 c = some .e0 := by
  simp only [numNext, h, if_true]

theorem numNext_e_digit (c : Char) (h : c.isDigit = true) : numNext .e c = some .e0 := by
  have h1 : c ≠ '+' := by intro e; rw [e] at h; exact absurd h (by decide)
  have h2 : c ≠ '-' := by intro e; rw [e] at h; exact absurd h (by decide)
  simp only [numNext]
  rw [if_neg (by simp [h1, h2]), if_pos h]

theorem digit_range (c : Char) (h : c.isDigit = true) (h0 : c ≠ '0') : '1' ≤ c ∧ c ≤ '9' := by
  rw [isDigit_iff] at h
  simp only [char_le_iff]
  have e1 : ('1' : Char).toNat = 49 := rfl
  have e2 : ('9' : Char).toNat = 57 := rfl
  have : c.toNat ≠ 48 := by
    intro e
    exact h0 ((char_eq_iff c '0').2 e)
  omega

theorem numNext_neg_digit (c : Char) (h : c.isDigit = true) (h0 : c ≠ '0') :
    numNext .neg c = some .int := by
  simp only [numNext]
  rw [if_neg (by simpa using h0), if_pos (digit_range c h h0)]

theorem lexStart_digit (c : Char) (h : c.isDigit = true) (h0 : c ≠ '0') :
    lexStart c = some (.number .int [c], []) := by
  have hr := digit_range c h h0
  have ne : ∀ x : Char, x.isDigit = false → c ≠ x := by
    intro x hx e
    rw [e, hx] at h
    cases h
  unfold lexStart
  rw [if_neg, if_neg (by simpa using ne '\x7b' rfl), if_neg (by simpa using ne '\x7d' rfl),
    if_neg (by simpa using ne '[' rfl), if_neg (by simpa using ne ']' rfl),
    if_neg (by simpa using ne ':' rfl), if_neg (by simpa using ne ',' rfl),
    if_neg (by simpa using ne '"' rfl), if_neg (by simpa using ne '-' rfl),
    if_neg (by simpa using h0), if_pos hr]
  simp only [isSpace, Bool.or_eq_true, beq_iff_eq, not_or]
  exact ⟨⟨⟨ne ' ' rfl, ne '\t' rfl⟩, ne '\r' rfl⟩, ne '\n' rfl⟩

theorem int_run_neg (i : List Char) (hi : IntPart i) :
    ∃ m, numRun .neg i = some m ∧ (m = .zero ∨ m = .int) := by
  rcases hi with rfl | ⟨d, ds, rfl, hd, hd0, hds⟩
  · exact ⟨.zero, rfl, Or.inl rfl⟩
  · refine ⟨.int, ?_, Or.inr rfl⟩
    simp only [numRun, numNext_neg_digit d hd hd0]
    exact numRun_digits .int ds hds numNext_int_digit

theorem int_start (i : List Char) (hi : IntPart i) :
    ∃ c t m0 m, i = c :: t ∧ lexStart c = some (.number m0 [c], []) ∧ numRun m0 t = some m ∧
      (m = .zero ∨ m = .int) := by
  rcases hi with rfl | ⟨d, ds, rfl, hd, hd0, hds⟩
  · exact ⟨'0', [], .zero, .zero, rfl, rfl, rfl, Or.inl rfl⟩
  · exact ⟨d, ds, .int, .int, rfl, lexStart_digit d hd hd0,
      numRun_digits .int ds hds numNext_int_digit, Or.inr rfl⟩

theorem frac_run (m : NumState) (hm : m = .zero ∨ m = .int) (f : List Char) (hf : FracPart f) :
    ∃ m2, numRun m f = some m2 ∧ (m2 = .zero ∨ m2 = .int ∨ m2 = .dot0) := by
  rcases hf with rfl | ⟨ds, rfl, hne, hds⟩
  · rcases hm with rfl | rfl
    · exact ⟨_, rfl, Or.inl rfl⟩
    · exact ⟨_, rfl, Or.inr (Or.inl rfl)⟩
  · refine ⟨.dot0, ?_, Or.inr (Or.inr rfl)⟩
    match ds, hne, hds with
    | d :: ds, _, hds =>
      have h1 : numNext m '.' = some .dot := by rcases hm with rfl | rfl <;> rfl
      simp only [numRun, h1, numNext_dot_digit d (hds d (by simp))]
      exact numRun_digits .dot0 ds (fun c hc => hds c (List.mem_cons_of_mem _ hc))
        numNext_dot0_digit

theorem exp_run (m : NumState) (hm : m = .zero ∨ m = .int ∨ m = .dot0) (x : List Char)
    (hx : ExpPart x) : ∃ m2, numRun m x = some m2 ∧ m2.final = true := by
  rcases hx with rfl | ⟨e, sg, ds, rfl, he, hsg, hne, hds⟩
  · rcases hm with rfl | rfl | rfl <;> exact ⟨_, rfl, rfl⟩
  · refine ⟨.e0, ?_, rfl⟩
    have h1 : numNext m e = some .e := by
      rcases hm with rfl | rfl | rfl <;> rcases he with rfl | rfl <;> rfl
    match ds, hne, hds with
    | d :: ds, _, hds =>
      have hd := hds d (by simp)
      have hrest := numRun_digits .e0 ds (fun c hc => hds c (List.mem_cons_of_mem _ hc))
        numNext_e0_digit
      rcases hsg with rfl | rfl | rfl
      · simp only [List.nil_append, numRun, h1, numNext_e_digit d hd]
        exact hrest
      · have h2 : numNext .e '+' = some .esign := rfl
        simp only [List.singleton_append, numRun, h1, h2, numNext_esign_digit d hd]
        exact hrest
      · have h2 : numNext .e '-' = some .esign := rfl
        simp only [List.singleton_append, numRun, h1, h2, numNext_esign_digit d hd]
        exact hrest

/-- A number literal takes the scanner from the beginning of a token to a
number state in which the number may end. -/
theorem number_run (text : List Char) (h : IsNumber text) :
    ∃ c t m0 m, text = c :: t ∧ lexStart c = some (.number m0 [c], []) ∧
      numRun m0 t = some m ∧ m.final = true := by
  obtain ⟨s, i, f, x, rfl, hs, hi, hf, hx⟩ := h
  rcases hs with rfl | rfl
  · obtain ⟨c, t, m0, m, rfl, hc, hrun, hm⟩ := int_start i hi
    obtain ⟨m2, hrun2, hm2⟩ := frac_run m hm f hf
    obtain ⟨m3, hrun3, hm3⟩ := exp_run m2 hm2 x hx
    refine ⟨c, t ++ f ++ x, m0, m3, by simp, hc, ?_, hm3⟩
    rw [numRun_append, numRun_append, hrun]
    simp only [Option.some_bind, hrun2, hrun3]
  · obtain ⟨m, hrun, hm⟩ := int_run_neg i hi
    obtain ⟨m2, hrun2, hm2⟩ := frac_run m hm f hf
    obtain ⟨m3, hrun3, hm3⟩ := exp_run m2 hm2 x hx
    refine ⟨'-', i ++ f ++ x, .neg, m3, by simp, rfl, ?_, hm3⟩
    rw [numRun_append, numRun_append, hrun]
    simp only [Option.some_bind, hrun2, hrun3]

theorem lexLoop_numRun (text : List Char) (ns ns2 : NumState) (acc : List Char)
    (toks : List Tok) (rest : List Char) (h : numRun ns text = some ns2) :
    lexLoop (.number ns acc) toks (text ++ rest)
      = lexLoop (.number ns2 (text.reverse ++ acc)) toks rest := by
  induction text generalizing ns acc with
  | nil =>
    simp only [numRun, Option.some.injEq] at h
    subst h
    rfl
  | cons c text ih =>
    simp only [numRun] at h
    cases hn : numNext ns c with
    | none => rw [hn] at h; cases h
    | some m =>
      rw [hn] at h
      simp only at h
      rw [List.cons_append, lexLoop_skip (.number ns acc) (.number m (c :: acc)) toks c _
        (by simp only [lexStep, hn])]
      rw [ih m (c :: acc) h]
      simp

/-- The scanner over a number literal: it stands in a number state in which
the number may end, holding the literal. -/
theorem lexLoop_number (text : List Char) (toks : List Tok) (rest : List Char)
    (h : IsNumber text) :
    ∃ ns, ns.final = true ∧
      lexLoop .start toks (text ++ rest) = lexLoop (.number ns text.reverse) toks rest := by
  obtain ⟨c, t, m0, m, rfl, hc, hrun, hm⟩ := number_run text h
  refine ⟨m, hm, ?_⟩
  rw [List.cons_append, lexLoop_skip .start (.number m0 [c]) toks c _ hc,
    lexLoop_numRun t m0 m [c] toks rest hrun]
  simp

/-- A number ends where the next character cannot continue it. -/
theorem lexLoop_number_end (ns : NumState) (acc : List Char) (toks : List Tok) (c : Char)
    (cs : List Char) (hn : numNext ns c = none) (hf : ns.final = true) :
    lexLoop (.number ns acc) toks (c :: cs)
      = lexLoop .start (.num (String.mk acc.reverse) :: toks) (c :: cs) := by
  simp only [lexLoop, lexStep, hn, hf, if_true]
  cases lexStart c with
  | none => rfl
  | some p =>
    obtain ⟨st2, out⟩ := p
    simp

/-! ## The scanner is complete -/

theorem numNext_delim (c : Char)
    (h : c = ' ' ∨ c = '\t' ∨ c = '\n' ∨ c = '\r' ∨ c = '\x7b' ∨ c = '\x7d' ∨ c = '[' ∨
      c = ']' ∨ c = ':' ∨ c = ',' ∨ c = '"' ∨ c = 't' ∨ c = 'f' ∨ c = 'n')
    (ns : NumState) : numNext ns c = none := by
  rcases h with rfl | rfl | rfl | rfl | rfl | rfl | rfl | rfl | rfl | rfl | rfl | rfl | rfl | rfl <;>
    cases ns <;> rfl

theorem numNext_space (c : Char) (h : JsonSpace c) (ns : NumState) : numNext ns c = none := by
  refine numNext_delim c ?_ ns
  rcases h with h | h | h | h <;> simp [h]

theorem lexStart_space (c : Char) (h : JsonSpace c) : lexStart c = some (.start, []) := by
  unfold lexStart
  rw [if_pos ((isSpace_iff c).2 h)]

/-- A token that is no number begins with a character that ends a number. -/
theorem tok_head (t : Tok) (text : List Char) (h : TokText t text) (hn : t.isNum = false) :
    ∃ c rest, text = c :: rest ∧ ∀ ns, numNext ns c = none := by
  cases t with
  | num lit => cases hn
  | str s =>
    obtain ⟨items, _, rfl, _⟩ := h
    exact ⟨'"', _, rfl, numNext_delim _ (by simp)⟩
  | lbrace => exact ⟨_, [], h, numNext_delim _ (by simp)⟩
  | rbrace => exact ⟨_, [], h, numNext_delim _ (by simp)⟩
  | lbrack => exact ⟨_, [], h, numNext_delim _ (by simp)⟩
  | rbrack => exact ⟨_, [], h, numNext_delim _ (by simp)⟩
  | colon => exact ⟨_, [], h, numNext_delim _ (by simp)⟩
  | comma => exact ⟨_, [], h, numNext_delim _ (by simp)⟩
  | tru => exact ⟨_, _, h, numNext_delim _ (by simp)⟩
  | fls => exact ⟨_, _, h, numNext_delim _ (by simp)⟩
  | nul => exact ⟨_, _, h, numNext_delim _ (by simp)⟩

/-- The scanner over the text of a token that is no number. -/
theorem lexLoop_tok (t : Tok) (text : List Char) (toks : List Tok) (rest : List Char)
    (h : TokText t text) (hn : t.isNum = false) :
    lexLoop .start toks (text ++ rest) = lexLoop .start (t :: toks) rest := by
  cases t with
  | num lit => cases hn
  | str s =>
    obtain ⟨items, hv, rfl, rfl⟩ := h
    have e : ('"' :: items.flatMap StrItem.text ++ ['"']) ++ rest
        = '"' :: (items.flatMap StrItem.text ++ '"' :: rest) := by simp
    rw [e, lexLoop_skip .start (.inString [] none) toks '"' _ rfl]
    exact lexLoop_items items [] [] none toks rest hv StrState_init
  | lbrace => simp only [TokText] at h; subst h; rfl
  | rbrace => simp only [TokText] at h; subst h; rfl
  | lbrack => simp only [TokText] at h; subst h; rfl
  | rbrack => simp only [TokText] at h; subst h; rfl
  | colon => simp only [TokText] at h; subst h; rfl
  | comma => simp only [TokText] at h; subst h; rfl
  | tru => simp only [TokText] at h; subst h; rfl
  | fls => simp only [TokText] at h; subst h; rfl
  | nul => simp only [TokText] at h; subst h; rfl

theorem lex_complete_aux (ts : List Tok) (cs : List Char) (h : Spaced ts cs)
    (hn : NumsApart ts) :
    (∀ toks, lexEnd (lexLoop .start toks cs) = some (toks.reverse ++ ts)) ∧
    (startsNum ts = false → ∀ ns acc toks, ns.final = true →
      lexEnd (lexLoop (.number ns acc) toks cs)
        = some ((Tok.num (String.mk acc.reverse) :: toks).reverse ++ ts)) := by
  induction h with
  | nil =>
    refine ⟨fun toks => by simp [lexLoop, lexEnd], ?_⟩
    intro _ ns acc toks hf
    simp [lexLoop, lexEnd, hf]
  | space c cs ts hc _ ih =>
    obtain ⟨ihA, _⟩ := ih hn
    have hA : ∀ toks, lexEnd (lexLoop .start toks (c :: cs)) = some (toks.reverse ++ ts) := by
      intro toks
      rw [lexLoop_skip .start .start toks c cs (lexStart_space c hc)]
      exact ihA toks
    refine ⟨hA, ?_⟩
    intro _ ns acc toks hf
    rw [lexLoop_number_end ns acc toks c cs (numNext_space c hc ns) hf]
    exact hA _
  | tok t text ts cs ht _ ih =>
    obtain ⟨hn1, hn2⟩ := hn
    obtain ⟨ihA, ihB⟩ := ih hn2
    have hA : ∀ toks, lexEnd (lexLoop .start toks (text ++ cs))
        = some (toks.reverse ++ t :: ts) := by
      intro toks
      cases hnum : t.isNum with
      | false =>
        rw [lexLoop_tok t text toks cs ht hnum, ihA]
        simp
      | true =>
        cases t with
        | num lit =>
          obtain ⟨rfl, hnumber⟩ := ht
          obtain ⟨ns, hf, e⟩ := lexLoop_number lit.data toks cs hnumber
          rw [e, ihB (hn1 hnum) ns _ toks hf]
          simp
        | _ => cases hnum
    refine ⟨hA, ?_⟩
    intro hs ns acc toks hf
    have hnum : t.isNum = false := hs
    obtain ⟨c, rest, rfl, hc⟩ := tok_head t text ht hnum
    rw [List.cons_append, lexLoop_number_end ns acc toks c _ (hc ns) hf, ← List.cons_append]
    exact hA _

/-- The scanner is complete: it reads every text of a token sequence in which
no number directly follows a number. -/
theorem lex_complete (ts : List Tok) (cs : List Char) (h : Spaced ts cs) (hn : NumsApart ts) :
    lex cs = some ts := by
  rw [lex_eq_lexEnd, (lex_complete_aux ts cs h hn).1 []]
  rfl

theorem NumsApart_cons_other (t : Tok) (ts : List Tok) (ht : t.isNum = false)
    (h : NumsApart ts) : NumsApart (t :: ts) := by
  simp only [NumsApart]
  exact ⟨fun e => (by rw [ht] at e; cases e), h⟩

mutual

theorem toks_apart (v : Json) (rest : List Tok) (hr : NumsApart rest)
    (hs : startsNum rest = false) : NumsApart (v.toks ++ rest) := by
  match v with
  | .null => exact NumsApart_cons_other _ _ rfl hr
  | .bool true => exact NumsApart_cons_other _ _ rfl hr
  | .bool false => exact NumsApart_cons_other _ _ rfl hr
  | .str s => exact NumsApart_cons_other _ _ rfl hr
  | .num lit =>
    simp only [Json.toks, List.singleton_append, NumsApart]
    exact ⟨fun _ => hs, hr⟩
  | .arr [] =>
    exact NumsApart_cons_other _ _ rfl (NumsApart_cons_other _ _ rfl hr)
  | .arr (x :: xs) =>
    have h1 := elems_apart xs (.rbrack :: rest) (NumsApart_cons_other _ _ rfl hr) rfl
    have h2 := toks_apart x _ h1.1 h1.2
    simp only [Json.toks, List.cons_append, List.append_assoc, List.singleton_append]
    exact NumsApart_cons_other _ _ rfl h2
  | .obj [] =>
    exact NumsApart_cons_other _ _ rfl (NumsApart_cons_other _ _ rfl hr)
  | .obj ((k, x) :: ms) =>
    have h1 := members_apart ms (.rbrace :: rest) (NumsApart_cons_other _ _ rfl hr) rfl
    have h2 := toks_apart x _ h1.1 h1.2
    simp only [Json.toks, List.cons_append, List.append_assoc, List.singleton_append]
    exact NumsApart_cons_other _ _ rfl
      (NumsApart_cons_other _ _ rfl (NumsApart_cons_other _ _ rfl h2))

theorem elems_apart (xs : List Json) (rest : List Tok) (hr : NumsApart rest)
    (hs : startsNum rest = false) :
    NumsApart (moreElems xs ++ rest) ∧ startsNum (moreElems xs ++ rest) = false := by
  match xs with
  | [] => exact ⟨hr, hs⟩
  | x :: xs =>
    have h1 := elems_apart xs rest hr hs
    have h2 := toks_apart x _ h1.1 h1.2
    simp only [moreElems, List.cons_append, List.append_assoc]
    exact ⟨NumsApart_cons_other _ _ rfl h2, rfl⟩

theorem members_apart (ms : List (String × Json)) (rest : List Tok) (hr : NumsApart rest)
    (hs : startsNum rest = false) :
    NumsApart (moreMembers ms ++ rest) ∧ startsNum (moreMembers ms ++ rest) = false := by
  match ms with
  | [] => exact ⟨hr, hs⟩
  | (k, x) :: ms =>
    have h1 := members_apart ms rest hr hs
    have h2 := toks_apart x _ h1.1 h1.2
    simp only [moreMembers, List.cons_append, List.append_assoc]
    exact ⟨NumsApart_cons_other _ _ rfl
      (NumsApart_cons_other _ _ rfl (NumsApart_cons_other _ _ rfl h2)), rfl⟩

end

theorem toks_numsApart (v : Json) : NumsApart v.toks := by
  have := toks_apart v [] trivial rfl
  simpa using this

/-! ## The parser reads the tokens of a value as the value -/

theorem parseLoop_step (stack : List Frame) (mode : Mode) (t : Tok) (ts : List Tok) :
    parseLoop stack mode (t :: ts)
      = match parseStep stack mode t with
        | none => none
        | some (stack2, mode2) => parseLoop stack2 mode2 ts := by
  cases mode <;> rfl

mutual
theorem parseLoop_value (v : Json) (s : List Frame) (b : Bool) (rest : List Tok)
    (hd : s.length + v.depth ≤ maxNestingDepth) :
    parseLoop s (.value b) (v.toks ++ rest) = afterValue (complete v s) rest := by
  match v with
  | .null => cases b <;> rfl
  | .bool true => cases b <;> rfl
  | .bool false => cases b <;> rfl
  | .num lit => cases b <;> rfl
  | .str str => cases b <;> rfl
  | .arr [] =>
    have h1 : s.length + 1 ≤ maxNestingDepth := by simpa [Json.depth, elemsDepth] using hd
    simp only [Json.toks, List.cons_append, List.nil_append]
    rw [parseLoop_step, show parseStep s (.value b) .lbrack = some (.arr [] :: s, .value true) by
      cases b <;> simp [parseStep, h1]]
    simp only
    rw [parseLoop_step]
    rfl
  | .arr (x :: xs) =>
    have hd' : s.length + (max x.depth (elemsDepth xs) + 1) ≤ maxNestingDepth := by
      simpa [Json.depth, elemsDepth] using hd
    have h1 : s.length + 1 ≤ maxNestingDepth := by omega
    simp only [Json.toks, List.cons_append, List.append_assoc]
    rw [parseLoop_step, show parseStep s (.value b) .lbrack = some (.arr [] :: s, .value true) by
      cases b <;> simp [parseStep, h1]]
    simp only
    rw [parseLoop_value x (.arr [] :: s) true _ (by simp only [List.length_cons]; omega)]
    simp only [complete, afterValue]
    rw [parseLoop_moreElems xs [x] s _ (by omega)]
    rw [parseLoop_step]
    simp [parseStep, afterValue]
    rfl
  | .obj [] =>
    have h1 : s.length + 1 ≤ maxNestingDepth := by simpa [Json.depth, membersDepth] using hd
    simp only [Json.toks, List.cons_append, List.nil_append]
    rw [parseLoop_step, show parseStep s (.value b) .lbrace = some (.obj [] none :: s, .key true) by
      cases b <;> simp [parseStep, h1]]
    simp only
    rw [parseLoop_step]
    rfl
  | .obj ((k, x) :: ms) =>
    have hd' : s.length + (max x.depth (membersDepth ms) + 1) ≤ maxNestingDepth := by
      simpa [Json.depth, membersDepth] using hd
    have h1 : s.length + 1 ≤ maxNestingDepth := by omega
    simp only [Json.toks, List.cons_append, List.append_assoc]
    rw [parseLoop_step, show parseStep s (.value b) .lbrace = some (.obj [] none :: s, .key true) by
      cases b <;> simp [parseStep, h1]]
    simp only
    rw [parseLoop_step, show parseStep (.obj [] none :: s) (.key true) (.str k)
      = some (.obj [] (some k) :: s, .colon) from rfl]
    simp only
    rw [parseLoop_step, show parseStep (.obj [] (some k) :: s) .colon .colon
      = some (.obj [] (some k) :: s, .value false) from rfl]
    simp only
    rw [parseLoop_value x (.obj [] (some k) :: s) false _ (by simp only [List.length_cons]; omega)]
    simp only [complete, afterValue]
    rw [parseLoop_moreMembers ms [(k, x)] s _ (by omega)]
    rw [parseLoop_step]
    simp [parseStep, afterValue]
    rfl
theorem parseLoop_moreElems (xs : List Json) (acc : List Json) (s : List Frame) (rest : List Tok)
    (hd : s.length + 1 + elemsDepth xs ≤ maxNestingDepth) :
    parseLoop (.arr acc :: s) .after (moreElems xs ++ rest)
      = parseLoop (.arr (xs.reverse ++ acc) :: s) .after rest := by
  match xs with
  | [] => rfl
  | x :: xs =>
    have hd' : s.length + 1 + max x.depth (elemsDepth xs) ≤ maxNestingDepth := by
      simpa [elemsDepth] using hd
    simp only [moreElems, List.cons_append, List.append_assoc]
    rw [parseLoop_step, show parseStep (.arr acc :: s) .after .comma
      = some (.arr acc :: s, .value false) from rfl]
    simp only
    rw [parseLoop_value x (.arr acc :: s) false _ (by simp only [List.length_cons]; omega)]
    simp only [complete, afterValue]
    rw [parseLoop_moreElems xs (x :: acc) s rest (by omega)]
    simp
theorem parseLoop_moreMembers (ms : List (String × Json)) (acc : List (String × Json))
    (s : List Frame) (rest : List Tok)
    (hd : s.length + 1 + membersDepth ms ≤ maxNestingDepth) :
    parseLoop (.obj acc none :: s) .after (moreMembers ms ++ rest)
      = parseLoop (.obj (ms.reverse ++ acc) none :: s) .after rest := by
  match ms with
  | [] => rfl
  | (k, x) :: ms =>
    have hd' : s.length + 1 + max x.depth (membersDepth ms) ≤ maxNestingDepth := by
      simpa [membersDepth] using hd
    simp only [moreMembers, List.cons_append, List.append_assoc]
    rw [parseLoop_step, show parseStep (.obj acc none :: s) .after .comma
      = some (.obj acc none :: s, .key false) from rfl]
    simp only
    rw [parseLoop_step, show parseStep (.obj acc none :: s) (.key false) (.str k)
      = some (.obj acc (some k) :: s, .colon) from rfl]
    simp only
    rw [parseLoop_step, show parseStep (.obj acc (some k) :: s) .colon .colon
      = some (.obj acc (some k) :: s, .value false) from rfl]
    simp only
    rw [parseLoop_value x (.obj acc (some k) :: s) false _ (by simp only [List.length_cons]; omega)]
    simp only [complete, afterValue]
    rw [parseLoop_moreMembers ms ((k, x) :: acc) s rest (by omega)]
    simp
end

/-- The parser reads the tokens of a value that nests no deeper than the
limit as the value. -/
theorem parseLoop_toks (v : Json) (hd : v.depth ≤ maxNestingDepth) :
    parseLoop [] (.value false) v.toks = some v := by
  have h := parseLoop_value v [] false [] (by simpa using hd)
  simpa [afterValue, complete, parseLoop] using h

/-! ## What the parser accepts is the token sequence of the value it returns -/

theorem moreElems_snoc (ys : List Json) (v : Json) :
    moreElems (ys ++ [v]) = .comma :: (sepElems ys ++ v.toks) := by
  induction ys with
  | nil => simp [moreElems, sepElems]
  | cons y ys ih => simp [moreElems, sepElems, ih]

theorem toks_arr_snoc (xs : List Json) (v : Json) :
    (Json.arr (xs ++ [v])).toks = .lbrack :: sepElems xs ++ v.toks ++ [.rbrack] := by
  cases xs with
  | nil => simp [Json.toks, moreElems, sepElems]
  | cons x xs => simp [Json.toks, sepElems, moreElems_snoc]

theorem sepElems_snoc (xs : List Json) (v : Json) :
    sepElems (xs ++ [v]) = sepElems xs ++ v.toks ++ [.comma] := by
  induction xs with
  | nil => simp [sepElems]
  | cons x xs ih => simp [sepElems, ih]

theorem moreMembers_snoc (ys : List (String × Json)) (k : String) (v : Json) :
    moreMembers (ys ++ [(k, v)]) = .comma :: (sepMembers ys ++ .str k :: .colon :: v.toks) := by
  induction ys with
  | nil => simp [moreMembers, sepMembers]
  | cons y ys ih =>
    obtain ⟨k2, v2⟩ := y
    simp [moreMembers, sepMembers, ih]

theorem toks_obj_snoc (ms : List (String × Json)) (k : String) (v : Json) :
    (Json.obj (ms ++ [(k, v)])).toks
      = .lbrace :: sepMembers ms ++ .str k :: .colon :: v.toks ++ [.rbrace] := by
  cases ms with
  | nil => simp [Json.toks, moreMembers, sepMembers]
  | cons m ms =>
    obtain ⟨k2, v2⟩ := m
    simp [Json.toks, sepMembers, moreMembers_snoc]

theorem sepMembers_snoc (ms : List (String × Json)) (k : String) (v : Json) :
    sepMembers (ms ++ [(k, v)]) = sepMembers ms ++ .str k :: .colon :: v.toks ++ [.comma] := by
  induction ms with
  | nil => simp [sepMembers]
  | cons m ms ih =>
    obtain ⟨k2, v2⟩ := m
    simp [sepMembers, ih]

theorem complete_consumed (v : Json) (s s2 : List Frame) (m2 : Mode) (hs : FramesOK s)
    (h : complete v s = some (s2, m2)) : Consumed s2 m2 (awaiting s ++ v.toks) := by
  match s, hs with
  | [], _ =>
    simp only [complete, Option.some.injEq, Prod.mk.injEq] at h
    obtain ⟨h1, h2⟩ := h
    subst h1 h2
    simp [Consumed, awaiting]
  | .arr acc :: s0, hs =>
    simp only [complete, Option.some.injEq, Prod.mk.injEq] at h
    obtain ⟨h1, h2⟩ := h
    subst h1 h2
    simp only [FramesOK] at hs
    simp [Consumed, awaiting, frameOpen, hs]
  | .obj acc (some k) :: s0, hs =>
    simp only [complete, Option.some.injEq, Prod.mk.injEq] at h
    obtain ⟨h1, h2⟩ := h
    subst h1 h2
    simp only [FramesOK] at hs
    simp [Consumed, awaiting, frameOpen, hs]
  | .obj acc none :: s0, hs => simp [FramesOK] at hs

/-- One token keeps the reading of the state. -/
theorem parseStep_consumed (s : List Frame) (m : Mode) (t : Tok) (pre : List Tok)
    (s2 : List Frame) (m2 : Mode) (hc : Consumed s m pre)
    (h : parseStep s m t = some (s2, m2)) : Consumed s2 m2 (pre ++ [t]) := by
  cases m with
  | value b =>
    obtain ⟨hs, hpre⟩ : FramesOK s ∧ pre = awaiting s := by simpa [Consumed] using hc
    subst hpre
    cases t with
    | str x => exact complete_consumed (.str x) s s2 m2 hs (by simpa [parseStep] using h)
    | num x => exact complete_consumed (.num x) s s2 m2 hs (by simpa [parseStep] using h)
    | tru => exact complete_consumed (.bool true) s s2 m2 hs (by simpa [parseStep] using h)
    | fls => exact complete_consumed (.bool false) s s2 m2 hs (by simpa [parseStep] using h)
    | nul => exact complete_consumed .null s s2 m2 hs (by simpa [parseStep] using h)
    | lbrack =>
      simp only [parseStep] at h
      split at h
      · simp only [Option.some.injEq, Prod.mk.injEq] at h
        obtain ⟨h1, h2⟩ := h
        subst h1 h2
        simp [Consumed, FramesOK, awaiting, frameOpen, sepElems, hs]
      · simp at h
    | lbrace =>
      simp only [parseStep] at h
      split at h
      · simp only [Option.some.injEq, Prod.mk.injEq] at h
        obtain ⟨h1, h2⟩ := h
        subst h1 h2
        simp [Consumed, awaiting, frameOpen, sepMembers, hs]
      · simp at h
    | rbrack =>
      cases b with
      | false => simp [parseStep] at h
      | true =>
        match s, hs with
        | .arr [] :: s0, hs =>
          simp only [FramesOK] at hs
          have := complete_consumed (.arr []) s0 s2 m2 hs (by simpa [parseStep] using h)
          simpa [awaiting, frameOpen, sepElems, Json.toks] using this
        | [], _ => simp [parseStep] at h
        | .arr (_ :: _) :: _, _ => simp [parseStep] at h
        | .obj _ _ :: _, _ => simp [parseStep] at h
    | rbrace => cases b <;> simp [parseStep] at h
    | colon => cases b <;> simp [parseStep] at h
    | comma => cases b <;> simp [parseStep] at h
  | key b =>
    match s, hc with
    | .obj acc none :: s0, hc =>
      obtain ⟨hs, hpre⟩ : FramesOK s0 ∧ pre = awaiting s0 ++ frameOpen (.obj acc none) := by
        simpa [Consumed] using hc
      subst hpre
      cases t with
      | str k =>
        simp only [parseStep, Option.some.injEq, Prod.mk.injEq] at h
        obtain ⟨h1, h2⟩ := h
        subst h1 h2
        simp [Consumed, frameOpen, hs]
      | rbrace =>
        cases b with
        | false => simp [parseStep] at h
        | true =>
          cases acc with
          | nil =>
            have := complete_consumed (.obj []) s0 s2 m2 hs (by simpa [parseStep] using h)
            simpa [frameOpen, sepMembers, Json.toks] using this
          | cons a as => simp [parseStep] at h
      | lbrace => cases b <;> simp [parseStep] at h
      | lbrack => cases b <;> simp [parseStep] at h
      | rbrack => cases b <;> simp [parseStep] at h
      | colon => cases b <;> simp [parseStep] at h
      | comma => cases b <;> simp [parseStep] at h
      | num x => cases b <;> simp [parseStep] at h
      | tru => cases b <;> simp [parseStep] at h
      | fls => cases b <;> simp [parseStep] at h
      | nul => cases b <;> simp [parseStep] at h
    | [], hc => simp [Consumed] at hc
    | .arr _ :: _, hc => simp [Consumed] at hc
    | .obj _ (some _) :: _, hc => simp [Consumed] at hc
  | colon =>
    match s, hc with
    | .obj acc (some k) :: s0, hc =>
      obtain ⟨hs, hpre⟩ : FramesOK s0 ∧
          pre = awaiting s0 ++ (.lbrace :: sepMembers acc.reverse ++ [.str k]) := by
        simpa [Consumed] using hc
      subst hpre
      cases t <;> simp [parseStep] at h
      obtain ⟨h1, h2⟩ := h
      subst h1 h2
      simp [Consumed, FramesOK, awaiting, frameOpen, hs]
    | [], hc => simp [Consumed] at hc
    | .arr _ :: _, hc => simp [Consumed] at hc
    | .obj _ none :: _, hc => simp [Consumed] at hc
  | after =>
    match s, hc with
    | .arr (v :: acc) :: s0, hc =>
      obtain ⟨hs, hpre⟩ : FramesOK s0 ∧
          pre = awaiting s0 ++ (.lbrack :: sepElems acc.reverse ++ v.toks) := by
        simpa [Consumed] using hc
      subst hpre
      cases t <;> simp [parseStep] at h
      · have := complete_consumed (.arr (acc.reverse ++ [v])) s0 s2 m2 hs (by simpa using h)
        simpa [toks_arr_snoc] using this
      · obtain ⟨h1, h2⟩ := h
        subst h1 h2
        simp [Consumed, FramesOK, awaiting, frameOpen, sepElems_snoc, hs]
    | .obj ((k, v) :: acc) none :: s0, hc =>
      obtain ⟨hs, hpre⟩ : FramesOK s0 ∧
          pre = awaiting s0 ++ (.lbrace :: sepMembers acc.reverse ++ .str k :: .colon :: v.toks) := by
        simpa [Consumed] using hc
      subst hpre
      cases t <;> simp [parseStep] at h
      · have := complete_consumed (.obj (acc.reverse ++ [(k, v)])) s0 s2 m2 hs (by simpa using h)
        simpa [toks_obj_snoc] using this
      · obtain ⟨h1, h2⟩ := h
        subst h1 h2
        simp [Consumed, frameOpen, sepMembers_snoc, hs]
    | [], hc => simp [Consumed] at hc
    | .arr [] :: _, hc => simp [Consumed] at hc
    | .obj [] none :: _, hc => simp [Consumed] at hc
    | .obj _ (some _) :: _, hc => simp [Consumed] at hc
  | done v => cases t <;> simp [parseStep] at h

theorem parseLoop_consumed (ts : List Tok) (s : List Frame) (m : Mode) (pre : List Tok)
    (v : Json) (hc : Consumed s m pre) (h : parseLoop s m ts = some v) :
    pre ++ ts = v.toks := by
  induction ts generalizing s m pre with
  | nil =>
    cases m with
    | done w =>
      match s, hc with
      | [], hc =>
        simp only [Consumed] at hc
        simp only [parseLoop, Option.some.injEq] at h
        subst h
        simpa using hc
      | _ :: _, hc => simp [Consumed] at hc
    | value b => simp [parseLoop] at h
    | key b => simp [parseLoop] at h
    | colon => simp [parseLoop] at h
    | after => simp [parseLoop] at h
  | cons t ts ih =>
    rw [parseLoop_step] at h
    cases hp : parseStep s m t with
    | none => simp [hp] at h
    | some r =>
      obtain ⟨s2, m2⟩ := r
      simp only [hp] at h
      have := ih s2 m2 (pre ++ [t]) (parseStep_consumed s m t pre s2 m2 hc hp) h
      simpa using this

/-- The tokens the parser accepts are the tokens of the value it returns. -/
theorem parseLoop_sound (ts : List Tok) (v : Json)
    (h : parseLoop [] (.value false) ts = some v) : ts = v.toks := by
  have := parseLoop_consumed ts [] (.value false) [] v (by simp [Consumed, FramesOK, awaiting]) h
  simpa using this

/-! ## `parseJSON` and the JSON texts -/

/-- The parser is sound: what it reads as a value is a JSON text of that
value. -/
theorem parseJSON_sound (data : Bytes) (v : Json) (h : parseJSON data = some v) :
    JsonText (decodeRunes data) v := by
  unfold parseJSON at h
  cases hl : lex (decodeRunes data) with
  | none => rw [hl] at h; cases h
  | some ts =>
    rw [hl] at h
    simp only at h
    have e := parseLoop_sound ts v h
    subst e
    exact lex_sound _ _ hl

/-- The parser is complete: it reads every JSON text of a value that nests no
deeper than the limit, as that value. -/
theorem parseJSON_complete (data : Bytes) (v : Json) (h : JsonText (decodeRunes data) v)
    (hd : v.depth ≤ maxNestingDepth) : parseJSON data = some v := by
  unfold parseJSON
  rw [lex_complete v.toks _ h (toks_numsApart v)]
  exact parseLoop_toks v hd

theorem TokText_length (t : Tok) (text : List Char) (h : TokText t text) : 1 ≤ text.length := by
  cases t with
  | num lit =>
    obtain ⟨c, r, _, _, e, _⟩ := number_run text h.2
    rw [e]; simp
  | str s =>
    obtain ⟨items, _, e, _⟩ := h
    rw [e]; simp
  | lbrace => simp only [TokText] at h; rw [h]; simp
  | rbrace => simp only [TokText] at h; rw [h]; simp
  | lbrack => simp only [TokText] at h; rw [h]; simp
  | rbrack => simp only [TokText] at h; rw [h]; simp
  | colon => simp only [TokText] at h; rw [h]; simp
  | comma => simp only [TokText] at h; rw [h]; simp
  | tru => simp only [TokText] at h; rw [h]; simp
  | fls => simp only [TokText] at h; rw [h]; simp
  | nul => simp only [TokText] at h; rw [h]; simp

theorem Spaced_length (ts : List Tok) (cs : List Char) (h : Spaced ts cs) :
    ts.length ≤ cs.length := by
  induction h with
  | nil => simp
  | space c cs ts _ _ ih => simp only [List.length_cons]; omega
  | tok t text ts cs ht _ ih =>
    have := TokText_length _ _ ht
    simp only [List.length_cons, List.length_append]
    omega

mutual

theorem depth_lt_toks (v : Json) : v.depth < v.toks.length := by
  match v with
  | .null => simp [Json.depth, Json.toks]
  | .bool true => simp [Json.depth, Json.toks]
  | .bool false => simp [Json.depth, Json.toks]
  | .str s => simp [Json.depth, Json.toks]
  | .num lit => simp [Json.depth, Json.toks]
  | .arr [] => simp [Json.depth, Json.toks, elemsDepth]
  | .arr (x :: xs) =>
    have h1 := depth_lt_toks x
    have h2 := elemsDepth_le xs
    simp only [Json.depth, Json.toks, elemsDepth, List.length_cons, List.length_append,
      List.length_nil]
    omega
  | .obj [] => simp [Json.depth, Json.toks, membersDepth]
  | .obj ((k, x) :: ms) =>
    have h1 := depth_lt_toks x
    have h2 := membersDepth_le ms
    simp only [Json.depth, Json.toks, membersDepth, List.length_cons, List.length_append,
      List.length_nil]
    omega

theorem elemsDepth_le (xs : List Json) : elemsDepth xs ≤ (moreElems xs).length := by
  match xs with
  | [] => simp [elemsDepth]
  | x :: xs =>
    have h1 := depth_lt_toks x
    have h2 := elemsDepth_le xs
    simp only [elemsDepth, moreElems, List.length_cons, List.length_append]
    omega

theorem membersDepth_le (ms : List (String × Json)) :
    membersDepth ms ≤ (moreMembers ms).length := by
  match ms with
  | [] => simp [membersDepth]
  | (k, x) :: ms =>
    have h1 := depth_lt_toks x
    have h2 := membersDepth_le ms
    simp only [membersDepth, moreMembers, List.length_cons, List.length_append]
    omega

end

/-- A text of at most 10000 characters is a JSON text only if the parser
reads it. -/
theorem parseJSON_none (data : Bytes) (hlen : (decodeRunes data).length ≤ maxNestingDepth)
    (h : parseJSON data = none) : ¬ ∃ v, JsonText (decodeRunes data) v := by
  rintro ⟨v, hv⟩
  have h1 := depth_lt_toks v
  have h2 := Spaced_length _ _ hv
  rw [parseJSON_complete data v hv (by omega)] at h
  cases h

/-! ## UTF-8: the runes of the bytes of a text are the text -/

theorem toNat_ofNat_small (n : Nat) (h : n < 256) : (UInt8.ofNat n).toNat = n := by
  simp [UInt8.toNat, UInt8.ofNat, Fin.ofNat, Nat.mod_eq_of_lt h]

theorem char_valid (c : Char) :
    c.toNat < 0xD800 ∨ (0xDFFF < c.toNat ∧ c.toNat < 0x110000) := by
  have := c.valid
  simp only [UInt32.isValidChar, Nat.isValidChar] at this
  simpa [Char.toNat] using this

theorem DecodeRune_two (p0 q1 : UInt8) (rest : Bytes)
    (h0 : 0xC2 ≤ p0.toNat) (h1 : p0.toNat < 0xE0)
    (h2 : 0x80 ≤ q1.toNat) (h3 : q1.toNat ≤ 0xBF) :
    DecodeRune (p0 :: q1 :: rest) = (Char.ofNat (p0.toNat % 32 * 64 + q1.toNat % 64), 2) := by
  have hf : firstInfo p0.toNat = some (2, 0x80, 0xBF) := by
    unfold firstInfo
    rw [if_neg (by omega), if_pos h1]
  unfold DecodeRune
  simp only [hf]
  rw [if_neg (by omega), if_neg (by simp), if_neg (by omega), if_pos (Nat.le_refl _)]

theorem DecodeRune_three (p0 q1 q2 : UInt8) (rest : Bytes) (lo hi : Nat)
    (hf : firstInfo p0.toNat = some (3, lo, hi)) (h0 : 0x80 ≤ p0.toNat)
    (h2 : lo ≤ q1.toNat) (h3 : q1.toNat ≤ hi)
    (h4 : 0x80 ≤ q2.toNat) (h5 : q2.toNat ≤ 0xBF) :
    DecodeRune (p0 :: q1 :: q2 :: rest)
      = (Char.ofNat (p0.toNat % 16 * 4096 + q1.toNat % 64 * 64 + q2.toNat % 64), 3) := by
  unfold DecodeRune
  simp only [hf]
  rw [if_neg (by omega), if_neg (by simp), if_neg (by omega), if_neg (by omega),
    if_neg (by omega), if_pos (Nat.le_refl _)]

theorem DecodeRune_four (p0 q1 q2 q3 : UInt8) (rest : Bytes) (lo hi : Nat)
    (hf : firstInfo p0.toNat = some (4, lo, hi)) (h0 : 0x80 ≤ p0.toNat)
    (h2 : lo ≤ q1.toNat) (h3 : q1.toNat ≤ hi)
    (h4 : 0x80 ≤ q2.toNat) (h5 : q2.toNat ≤ 0xBF)
    (h6 : 0x80 ≤ q3.toNat) (h7 : q3.toNat ≤ 0xBF) :
    DecodeRune (p0 :: q1 :: q2 :: q3 :: rest)
      = (Char.ofNat (p0.toNat % 8 * 262144 + q1.toNat % 64 * 4096
          + q2.toNat % 64 * 64 + q3.toNat % 64), 4) := by
  unfold DecodeRune
  simp only [hf]
  rw [if_neg (by omega), if_neg (by simp), if_neg (by omega), if_neg (by omega),
    if_neg (by omega), if_neg (by omega), if_neg (by omega)]

theorem split64 (v : Nat) : ∃ q m, v = q * 64 + m ∧ m < 64 ∧ v / 64 = q ∧ v % 64 = m :=
  ⟨v / 64, v % 64, (Nat.div_add_mod' v 64).symm, Nat.mod_lt _ (by decide), rfl, rfl⟩

set_option maxHeartbeats 1000000 in
/-- Decoding the encoding of a rune gives the rune and the width of its
encoding. -/
theorem DecodeRune_EncodeRune (c : Char) (rest : Bytes) :
    DecodeRune (EncodeRune c ++ rest) = (c, (EncodeRune c).length) := by
  have hv := char_valid c
  have hc : Char.ofNat c.toNat = c := Char.ofNat_toNat c
  unfold EncodeRune
  generalize hveq : c.toNat = v at *
  simp only
  split
  · rename_i h1
    simp [DecodeRune, toNat_ofNat_small v (by omega), h1, hc]
  · split
    · rename_i h1 h2
      have e0 := toNat_ofNat_small (0xC0 + v / 64) (by omega)
      have e1 := toNat_ofNat_small (0x80 + v % 64) (by omega)
      rw [List.cons_append, List.cons_append, List.nil_append,
        DecodeRune_two _ _ _ (by omega) (by omega) (by omega) (by omega), e0, e1]
      have r : (192 + v / 64) % 32 * 64 + (128 + v % 64) % 64 = v := by omega
      rw [r, hc]; rfl
    · split
      · rename_i h1 h2 h3
        have d1 : v / 4096 = v / 64 / 64 := by rw [Nat.div_div_eq_div_mul]
        obtain ⟨q, m, hq, hm, hq', hm'⟩ := split64 v
        obtain ⟨q2, m2, hq2, hm2, hq2', hm2'⟩ := split64 q
        rw [d1, hq', hm', hq2', hm2']
        have e0 := toNat_ofNat_small (0xE0 + q2) (by omega)
        have e1 := toNat_ofNat_small (0x80 + m2) (by omega)
        have e2 := toNat_ofNat_small (0x80 + m) (by omega)
        have hf : ∃ lo hi, firstInfo (0xE0 + q2) = some (3, lo, hi) ∧ lo ≤ 0x80 + m2
            ∧ 0x80 + m2 ≤ hi := by
          unfold firstInfo
          by_cases c1 : q2 = 0
          · subst c1; exact ⟨0xA0, 0xBF, by simp, by omega, by omega⟩
          · by_cases c2 : q2 = 13
            · subst c2; exact ⟨0x80, 0x9F, by simp, by omega, by omega⟩
            · refine ⟨0x80, 0xBF, ?_, by omega, by omega⟩
              rw [if_neg (by omega), if_neg (by omega), if_neg (by omega), if_neg (by omega),
                if_pos (by omega)]
        obtain ⟨lo, hi, hf, hlo, hhi⟩ := hf
        rw [List.cons_append, List.cons_append, List.cons_append, List.nil_append,
          DecodeRune_three _ _ _ _ lo hi (by rw [e0]; exact hf) (by omega) (by omega) (by omega)
            (by omega) (by omega), e0, e1, e2]
        have r : (224 + q2) % 16 * 4096 + (128 + m2) % 64 * 64 + (128 + m) % 64 = v := by omega
        rw [r, hc]; rfl
      · rename_i h1 h2 h3
        have d1 : v / 4096 = v / 64 / 64 := by rw [Nat.div_div_eq_div_mul]
        have d2 : v / 262144 = v / 64 / 64 / 64 := by
          rw [Nat.div_div_eq_div_mul, Nat.div_div_eq_div_mul]
        obtain ⟨q, m, hq, hm, hq', hm'⟩ := split64 v
        obtain ⟨q2, m2, hq2, hm2, hq2', hm2'⟩ := split64 q
        obtain ⟨q3, m3, hq3, hm3, hq3', hm3'⟩ := split64 q2
        rw [d1, d2, hq', hm', hq2', hm2', hq3', hm3']
        have e0 := toNat_ofNat_small (0xF0 + q3) (by omega)
        have e1 := toNat_ofNat_small (0x80 + m3) (by omega)
        have e2 := toNat_ofNat_small (0x80 + m2) (by omega)
        have e3 := toNat_ofNat_small (0x80 + m) (by omega)
        have hf : ∃ lo hi, firstInfo (0xF0 + q3) = some (4, lo, hi) ∧ lo ≤ 0x80 + m3
            ∧ 0x80 + m3 ≤ hi := by
          unfold firstInfo
          by_cases c1 : q3 = 0
          · subst c1; exact ⟨0x90, 0xBF, by simp, by omega, by omega⟩
          · by_cases c2 : q3 = 4
            · subst c2; exact ⟨0x80, 0x8F, by simp, by omega, by omega⟩
            · refine ⟨0x80, 0xBF, ?_, by omega, by omega⟩
              rw [if_neg (by omega), if_neg (by omega), if_neg (by omega), if_neg (by omega),
                if_neg (by omega), if_neg (by omega), if_pos (by omega)]
        obtain ⟨lo, hi, hf, hlo, hhi⟩ := hf
        rw [List.cons_append, List.cons_append, List.cons_append, List.cons_append,
          List.nil_append,
          DecodeRune_four _ _ _ _ _ lo hi (by rw [e0]; exact hf) (by omega) (by omega)
            (by omega) (by omega) (by omega) (by omega) (by omega), e0, e1, e2, e3]
        have r : (240 + q3) % 8 * 262144 + (128 + m3) % 64 * 4096 + (128 + m2) % 64 * 64
            + (128 + m) % 64 = v := by omega
        rw [r, hc]; rfl

theorem EncodeRune_cons (c : Char) : ∃ b bs, EncodeRune c = b :: bs := by
  unfold EncodeRune
  simp only
  split
  · exact ⟨_, _, rfl⟩
  · split
    · exact ⟨_, _, rfl⟩
    · split <;> exact ⟨_, _, rfl⟩

theorem decodeRunesFrom_skip (l rest : Bytes) :
    decodeRunesFrom l.length (l ++ rest) = decodeRunesFrom 0 rest := by
  induction l with
  | nil => rfl
  | cons b bs ih =>
    cases hr : bs ++ rest with
    | nil =>
      have h1 : bs = [] := (List.append_eq_nil.mp hr).1
      have h2 : rest = [] := (List.append_eq_nil.mp hr).2
      subst h1 h2
      simp [decodeRunesFrom]
    | cons x xs =>
      simp only [List.length_cons, List.cons_append, decodeRunesFrom]
      exact ih

/-- The runes of the bytes of a text are the text. -/
theorem decodeRunes_encodeRunes (cs : List Char) : decodeRunes (encodeRunes cs) = cs := by
  unfold decodeRunes
  induction cs with
  | nil => rfl
  | cons c cs ih =>
    obtain ⟨b, bs, hb⟩ := EncodeRune_cons c
    have hd := DecodeRune_EncodeRune c (encodeRunes cs)
    rw [hb] at hd
    have he : encodeRunes (c :: cs) = b :: (bs ++ encodeRunes cs) := by
      simp only [encodeRunes, List.flatMap_cons, hb, List.cons_append]
    rw [he]
    simp only [decodeRunesFrom]
    rw [show b :: bs ++ encodeRunes cs = b :: (bs ++ encodeRunes cs) from rfl] at hd
    rw [hd]
    simp only [List.length_cons, Nat.add_sub_cancel, List.cons.injEq, true_and]
    rw [decodeRunesFrom_skip]
    exact ih

/-! ## Bodies that are UTF-8 texts -/

/-- What the parser reads from the bytes of a text as a value is a JSON text
of that value. -/
theorem JsonText_of_parseJSON (text : List Char) (v : Json)
    (h : parseJSON (encodeRunes text) = some v) : JsonText text v := by
  have := parseJSON_sound _ v h
  rwa [decodeRunes_encodeRunes] at this

/-- The parser reads the bytes of every JSON text of a value that nests no
deeper than the limit, as that value. -/
theorem parseJSON_of_JsonText (text : List Char) (v : Json) (h : JsonText text v)
    (hd : v.depth ≤ maxNestingDepth) : parseJSON (encodeRunes text) = some v :=
  parseJSON_complete _ v (by rw [decodeRunes_encodeRunes]; exact h) hd

/-- A text of at most 10000 characters that the parser rejects is no JSON
text. -/
theorem not_JsonText (text : List Char) (hlen : text.length ≤ maxNestingDepth)
    (h : parseJSON (encodeRunes text) = none) : ¬ ∃ v, JsonText text v := by
  have := parseJSON_none (encodeRunes text) (by rw [decodeRunes_encodeRunes]; exact hlen) h
  rwa [decodeRunes_encodeRunes] at this

/-! ## The field a key names -/

theorem case_big (c : Char) (hc : 128 ≤ c.toNat) (h3 : c ≠ Char.ofNat 0x17F)
    (h4 : c ≠ Char.ofNat 0x212A) :
    foldRune c = c ∧ caseKey c = c ∧ ¬ ('A' ≤ c ∧ c ≤ 'Z') ∧ ¬ ('a' ≤ c ∧ c ≤ 'z') := by
  have e1 : ('Z' : Char).toNat = 90 := rfl
  have e2 : ('z' : Char).toNat = 122 := rfl
  have h1 : ¬ ('A' ≤ c ∧ c ≤ 'Z') := by simp only [char_le_iff]; omega
  have h2 : ¬ ('a' ≤ c ∧ c ≤ 'z') := by simp only [char_le_iff]; omega
  refine ⟨?_, ?_, h1, h2⟩
  · unfold foldRune
    rw [if_neg h2, if_neg (by simpa using h3), if_neg (by simpa using h4)]
  · unfold caseKey
    rw [if_neg h1, if_neg h3, if_neg h4]

theorem caseKey_foldRune (c : Char) :
    caseKey c = if 'A' ≤ foldRune c ∧ foldRune c ≤ 'Z'
      then Char.ofNat ((foldRune c).toNat + 32) else foldRune c := by
  refine char_cases (fun c => caseKey c = if 'A' ≤ foldRune c ∧ foldRune c ≤ 'Z'
      then Char.ofNat ((foldRune c).toNat + 32) else foldRune c) (by decide) ?_ c
  intro c hc
  by_cases h3 : c = Char.ofNat 0x17F
  · subst h3; decide
  by_cases h4 : c = Char.ofNat 0x212A
  · subst h4; decide
  obtain ⟨hf, hk, h1, h2⟩ := case_big c hc h3 h4
  rw [hf, hk, if_neg h1]

theorem foldRune_caseKey (c : Char) :
    foldRune c = if 'a' ≤ caseKey c ∧ caseKey c ≤ 'z'
      then Char.ofNat ((caseKey c).toNat - 32) else caseKey c := by
  refine char_cases (fun c => foldRune c = if 'a' ≤ caseKey c ∧ caseKey c ≤ 'z'
      then Char.ofNat ((caseKey c).toNat - 32) else caseKey c) (by decide) ?_ c
  intro c hc
  by_cases h3 : c = Char.ofNat 0x17F
  · subst h3; decide
  by_cases h4 : c = Char.ofNat 0x212A
  · subst h4; decide
  obtain ⟨hf, hk, h1, h2⟩ := case_big c hc h3 h4
  rw [hf, hk, if_neg h2]

/-- Two names are the same under the case folding of the decoder exactly when
their lower-case forms are the same. -/
theorem fold_eq_iff (a b : List Char) :
    a.map foldRune = b.map foldRune ↔ a.map caseKey = b.map caseKey := by
  have e1 : caseKey = (fun c => if 'A' ≤ c ∧ c ≤ 'Z'
      then Char.ofNat (c.toNat + 32) else c) ∘ foldRune := by
    funext c; exact caseKey_foldRune c
  have e2 : foldRune = (fun c => if 'a' ≤ c ∧ c ≤ 'z'
      then Char.ofNat (c.toNat - 32) else c) ∘ caseKey := by
    funext c; exact foldRune_caseKey c
  constructor
  · intro h
    rw [e1, ← List.map_map, ← List.map_map, h]
  · intro h
    rw [e2, ← List.map_map, ← List.map_map, h]

theorem fold_beq (a b : String) :
    (foldName a == foldName b) = (a.data.map caseKey == b.data.map caseKey) := by
  rw [Bool.eq_iff_iff, beq_iff_eq, beq_iff_eq]
  exact fold_eq_iff a.data b.data

/-- The decoder finds the field a key names. -/
theorem findField_eq_keyField (k : String) : findField k = keyField k := by
  unfold findField keyField
  simp only [fold_beq]
  by_cases h1 : k = "access_token"
  · subst h1; rfl
  by_cases h2 : k = "scope"
  · subst h2; rfl
  by_cases h3 : k = "token_type"
  · subst h3; rfl
  by_cases h4 : k = "expiry"
  · subst h4; rfl
  by_cases h5 : k = "expires_in"
  · subst h5; rfl
  by_cases h6 : k = "accessTokenOnly"
  · subst h6; rfl
  have g1 : ("access_token" == k) = false := by simpa using Ne.symm h1
  have g2 : ("scope" == k) = false := by simpa using Ne.symm h2
  have g3 : ("token_type" == k) = false := by simpa using Ne.symm h3
  have g4 : ("expiry" == k) = false := by simpa using Ne.symm h4
  have g5 : ("expires_in" == k) = false := by simpa using Ne.symm h5
  have g6 : ("accessTokenOnly" == k) = false := by simpa using Ne.symm h6
  have k1 : (k == "access_token") = false := by simpa using h1
  have k2 : (k == "scope") = false := by simpa using h2
  have k3 : (k == "token_type") = false := by simpa using h3
  have k4 : (k == "expiry") = false := by simpa using h4
  have k5 : (k == "expires_in") = false := by simpa using h5
  have k6 : (k == "accessTokenOnly") = false := by simpa using h6
  simp only [Field.all, fieldNames, List.find?, List.lookup, Field.name, g1, g2, g3, g4, g5, g6,
    k1, k2, k3, k4, k5, k6]
  cases ("access_token".data.map caseKey == k.data.map caseKey) <;>
  cases ("scope".data.map caseKey == k.data.map caseKey) <;>
  cases ("token_type".data.map caseKey == k.data.map caseKey) <;>
  cases ("expiry".data.map caseKey == k.data.map caseKey) <;>
  cases ("expires_in".data.map caseKey == k.data.map caseKey) <;>
  cases ("accessTokenOnly".data.map caseKey == k.data.map caseKey) <;> rfl

/-! ## Storing the value of a member -/

theorem digitsValue_bad (l : List Char) (n : Nat) (h : ∃ c ∈ l, c.isDigit = false) :
    digitsValue n l = none := by
  induction l generalizing n with
  | nil => obtain ⟨c, hc, _⟩ := h; cases hc
  | cons x xs ih =>
    simp only [digitsValue]
    by_cases hx : x.isDigit = true
    · rw [if_pos hx]
      obtain ⟨c, hc, hd⟩ := h
      rcases List.mem_cons.mp hc with e | e
      · rw [e, hx] at hd; cases hd
      · exact ih _ ⟨c, e, hd⟩
    · rw [if_neg hx]

theorem unsignedValue_bad (l : List Char) (h : ∃ c ∈ l, c.isDigit = false) :
    unsignedValue l = none := by
  cases l with
  | nil => rfl
  | cons x xs => exact digitsValue_bad _ 0 h

/-- A literal with a fraction or an exponent is no integer for
`strconv.ParseInt`. -/
theorem ParseInt_fraction (lit : String) (h : ∃ c ∈ lit.data, c = '.' ∨ c = 'e' ∨ c = 'E') :
    ParseInt lit = none := by
  obtain ⟨x, hx, hx3⟩ := h
  have hd : x.isDigit = false := by rcases hx3 with e | e | e <;> rw [e] <;> rfl
  have hm : x ≠ '-' := by rcases hx3 with e | e | e <;> rw [e] <;> decide
  have hp : x ≠ '+' := by rcases hx3 with e | e | e <;> rw [e] <;> decide
  unfold ParseInt
  cases hl : lit.data with
  | nil => rfl
  | cons c ds =>
    rw [hl] at hx
    simp only
    by_cases hc : c = '-'
    · subst hc
      have : x ∈ ds := by
        rcases List.mem_cons.mp hx with e | e
        · exact absurd e hm
        · exact e
      rw [if_pos (by rfl), unsignedValue_bad ds ⟨x, this, hd⟩]
    · rw [if_neg (by simpa using hc)]
      have : x ∈ (if (c == '+') = true then ds else c :: ds) := by
        by_cases hc2 : c = '+'
        · subst hc2
          rw [if_pos (by rfl)]
          rcases List.mem_cons.mp hx with e | e
          · exact absurd e hp
          · exact e
        · rw [if_neg (by simpa using hc2)]
          exact hx
      rw [unsignedValue_bad _ ⟨x, this, hd⟩]

/-- The decimal literal of an integer outside 64 bits is out of range for
`strconv.ParseInt`. -/
theorem ParseInt_range (n : Int) (h : n < -2 ^ 63 ∨ 2 ^ 63 ≤ n) :
    ParseInt (formatInt n) = none := by
  obtain ⟨c, cs, hcs, hc⟩ := formatNatAux_cons n.natAbs n.natAbs
  have hv := digitsValue_formatNatAux (n.natAbs + 1) n.natAbs (Nat.lt_succ_self _)
  rw [hcs] at hv
  have hminus : (c == '-') = false := by
    cases h : c == '-'
    · rfl
    · rw [beq_iff_eq] at h; rw [h] at hc; exact absurd hc (by decide)
  have hplus : (c == '+') = false := by
    cases h : c == '+'
    · rfl
    · rw [beq_iff_eq] at h; rw [h] at hc; exact absurd hc (by decide)
  unfold ParseInt formatInt
  by_cases hneg : n < 0
  · simp only [hneg, if_true, hcs, beq_self_eq_true, unsignedValue, hv]
    have h1 : ¬ n.natAbs ≤ 2 ^ 63 := by omega
    simp only [h1, if_false]
  · simp only [hneg, if_false, hcs, hminus, hplus, unsignedValue, hv, Bool.false_eq_true]
    have h1 : ¬ n.natAbs < 2 ^ 63 := by omega
    simp only [h1, if_false]

theorem storeField_null (f : Field) (tok : Token) : storeField f .null tok = (tok, none) := by
  cases f <;> rfl

/-- A value of the wrong type leaves the token as it is and raises an
`UnmarshalTypeError` that names the field. -/
theorem storeField_wrongFor (f : Field) (v : Json) (tok : Token) (h : WrongFor f v) :
    storeField f v tok = (tok, some (.unmarshalType (wrongValue f v) f.name)) := by
  cases f <;> cases v <;>
    first
    | rfl
    | (exfalso; simp [WrongFor] at h; done)
    | skip
  rename_i lit
  have hp : ParseInt lit = none := by
    simp only [WrongFor] at h
    rcases h with h | ⟨n, rfl, hn⟩
    · exact ParseInt_fraction lit h
    · exact ParseInt_range n hn
  simp only [storeField, hp, wrongValue]

/-! ## The member loop -/

theorem decodeMembers_reading (r : Reading) (hr : r.Valid) (rest : List (String × Json))
    (tok : Token) (saved : Option GoError) :
    decodeMembers (r.member :: rest) tok saved
      = decodeMembers rest (r.apply tok) (saveError saved r.error) := by
  cases r with
  | skip k v =>
    simp only [Reading.Valid] at hr
    simp only [Reading.member, decodeMembers, findField_eq_keyField, hr, Reading.apply,
      Reading.error, saveError_none]
  | null k f =>
    simp only [Reading.Valid] at hr
    simp only [Reading.member, decodeMembers, findField_eq_keyField, hr, storeField_null,
      Reading.apply, Reading.error, saveError_none]
  | set k f t =>
    obtain ⟨hk, hlo, hhi⟩ := hr
    simp only [Reading.member, decodeMembers, findField_eq_keyField, hk,
      storeField_valueOf t tok f hlo hhi, Reading.apply, Reading.error, saveError_none]
  | wrong k f v =>
    obtain ⟨hk, hw⟩ := hr
    simp only [Reading.member, decodeMembers, findField_eq_keyField, hk,
      storeField_wrongFor f v tok hw, Reading.apply, Reading.error]

/-- The member loop over members that are read as `reads`: every member does
to the token what its reading says, and the earliest error is kept. -/
theorem decodeMembers_reads (reads : List Reading) (hr : ∀ r ∈ reads, r.Valid) (tok : Token)
    (saved : Option GoError) :
    decodeMembers (reads.map Reading.member) tok saved
      = (reads.foldl Reading.apply tok, reads.foldl (fun s r => saveError s r.error) saved) := by
  induction reads generalizing tok saved with
  | nil => rfl
  | cons r rest ih =>
    rw [List.map_cons, decodeMembers_reading r (hr r (by simp)), List.foldl_cons, List.foldl_cons]
    exact ih (fun q hq => hr q (List.mem_cons_of_mem _ hq)) _ _

theorem foldl_error_some (reads : List Reading) (e : GoError) :
    reads.foldl (fun s r => saveError s r.error) (some e) = some e := by
  induction reads with
  | nil => rfl
  | cons r rest ih => exact ih

theorem foldl_error_none (reads : List Reading) (h : ∀ r ∈ reads, r.isWrong = false)
    (saved : Option GoError) :
    reads.foldl (fun s r => saveError s r.error) saved = saved := by
  induction reads generalizing saved with
  | nil => rfl
  | cons r rest ih =>
    have h1 : r.error = none := by
      have := h r (by simp)
      cases r <;> first | rfl | cases this
    rw [List.foldl_cons, h1, saveError_none]
    exact ih (fun q hq => h q (List.mem_cons_of_mem _ hq)) _

theorem foldl_apply_wrong (before after : List Reading) (k : String) (f : Field) (v : Json)
    (tok : Token) :
    (before ++ Reading.wrong k f v :: after).foldl Reading.apply tok
      = (before ++ after).foldl Reading.apply tok := by
  simp only [List.foldl_append, List.foldl_cons, Reading.apply]

/-- The member loop over an object whose first member of the wrong type is
`(k, v)`: the error is the one of that member, and the token is what the
other members make of it. -/
theorem decodeMembers_first_wrong (before after : List Reading) (k : String) (f : Field)
    (v : Json) (hr : ∀ r ∈ before ++ Reading.wrong k f v :: after, r.Valid)
    (hb : ∀ r ∈ before, r.isWrong = false) (tok : Token) :
    decodeMembers ((before ++ Reading.wrong k f v :: after).map Reading.member) tok none
      = ((before ++ after).foldl Reading.apply tok,
         some (.unmarshalType (wrongValue f v) f.name)) := by
  rw [decodeMembers_reads _ hr, foldl_apply_wrong]
  rw [List.foldl_append (fun s r => saveError s (Reading.error r)), List.foldl_cons,
    foldl_error_none before hb]
  have e : saveError none (Reading.wrong k f v).error
      = some (.unmarshalType (wrongValue f v) f.name) := rfl
  rw [e, foldl_error_some]

/-! ## An object that carries a token -/

theorem mem_tokenObject (t : Token) (p : String × Json) (h : p ∈ tokenObject t) :
    ∃ f : Field, p = (f.name, f.valueOf t) := by
  simp only [tokenObject, List.mem_cons, List.mem_singleton, List.not_mem_nil, or_false] at h
  rcases h with h | h | h | h | h | h
  · exact ⟨.AccessToken, h⟩
  · exact ⟨.Scope, h⟩
  · exact ⟨.TokenType, h⟩
  · exact ⟨.Expiry, h⟩
  · exact ⟨.ExpiresIn, h⟩
  · exact ⟨.AccessTokenOnly, h⟩

theorem tokenObject_mem (t : Token) (f : Field) : (f.name, f.valueOf t) ∈ tokenObject t := by
  cases f <;> simp [tokenObject, Field.name, Field.valueOf]

theorem decodeMembers_field (t tok : Token) (f : Field) (rest : List (String × Json))
    (saved : Option GoError) (hlo : -2 ^ 63 ≤ t.ExpiresIn) (hhi : t.ExpiresIn < 2 ^ 63) :
    decodeMembers ((f.name, f.valueOf t) :: rest) tok saved
      = decodeMembers rest (setField t tok f) saved := by
  simp only [decodeMembers, findField_name, storeField_valueOf t tok f hlo hhi, saveError_none]

theorem decodeMembers_other (p : String × Json) (hp : keyField p.1 = none)
    (rest : List (String × Json)) (tok : Token) (saved : Option GoError) :
    decodeMembers (p :: rest) tok saved = decodeMembers rest tok saved := by
  obtain ⟨k, v⟩ := p
  simp only [decodeMembers, findField_eq_keyField, hp]

theorem decodeMembers_token_err (t : Token) (members : List (String × Json))
    (hlo : -2 ^ 63 ≤ t.ExpiresIn) (hhi : t.ExpiresIn < 2 ^ 63)
    (hmem : ∀ p ∈ members, p ∈ tokenObject t ∨ keyField p.1 = none) (tok : Token)
    (saved : Option GoError) : (decodeMembers members tok saved).2 = saved := by
  induction members generalizing tok with
  | nil => rfl
  | cons p rest ih =>
    have hrest : ∀ q ∈ rest, q ∈ tokenObject t ∨ keyField q.1 = none :=
      fun q hq => hmem q (List.mem_cons_of_mem _ hq)
    rcases hmem p (by simp) with h | h
    · obtain ⟨f, hf⟩ := mem_tokenObject t p h
      rw [hf, decodeMembers_field t tok f rest saved hlo hhi]
      exact ih hrest _
    · rw [decodeMembers_other p h]
      exact ih hrest _

theorem decodeMembers_token_keep (t : Token) (members : List (String × Json))
    (hlo : -2 ^ 63 ≤ t.ExpiresIn) (hhi : t.ExpiresIn < 2 ^ 63)
    (hmem : ∀ p ∈ members, p ∈ tokenObject t ∨ keyField p.1 = none) (tok : Token)
    (saved : Option GoError) (g : Field) (hg : setField t tok g = tok) :
    setField t (decodeMembers members tok saved).1 g = (decodeMembers members tok saved).1 := by
  induction members generalizing tok with
  | nil => exact hg
  | cons p rest ih =>
    have hrest : ∀ q ∈ rest, q ∈ tokenObject t ∨ keyField q.1 = none :=
      fun q hq => hmem q (List.mem_cons_of_mem _ hq)
    rcases hmem p (by simp) with h | h
    · obtain ⟨f, hf⟩ := mem_tokenObject t p h
      rw [hf, decodeMembers_field t tok f rest saved hlo hhi]
      apply ih hrest
      rw [setField_comm, hg]
    · rw [decodeMembers_other p h]
      exact ih hrest _ hg

theorem decodeMembers_token_set (t : Token) (members : List (String × Json))
    (hlo : -2 ^ 63 ≤ t.ExpiresIn) (hhi : t.ExpiresIn < 2 ^ 63)
    (hmem : ∀ p ∈ members, p ∈ tokenObject t ∨ keyField p.1 = none) (tok : Token)
    (saved : Option GoError) (g : Field) (hg : (g.name, g.valueOf t) ∈ members) :
    setField t (decodeMembers members tok saved).1 g = (decodeMembers members tok saved).1 := by
  induction members generalizing tok with
  | nil => simp at hg
  | cons p rest ih =>
    have hrest : ∀ q ∈ rest, q ∈ tokenObject t ∨ keyField q.1 = none :=
      fun q hq => hmem q (List.mem_cons_of_mem _ hq)
    rcases List.mem_cons.mp hg with h | h
    · rw [← h, decodeMembers_field t tok g rest saved hlo hhi]
      exact decodeMembers_token_keep t rest hlo hhi hrest _ saved g (setField_idem t tok g)
    · rcases hmem p (by simp) with h2 | h2
      · obtain ⟨f, hf⟩ := mem_tokenObject t p h2
        rw [hf, decodeMembers_field t tok f rest saved hlo hhi]
        exact ih hrest _ h
      · rw [decodeMembers_other p h2]
        exact ih hrest _ h

/-- The member loop over an object that carries the token `t` and has no
other member that names a field: the token is `t`, and there is no error. -/
theorem decodeMembers_token (t : Token) (members : List (String × Json))
    (hlo : -2 ^ 63 ≤ t.ExpiresIn) (hhi : t.ExpiresIn < 2 ^ 63)
    (hmem : ∀ p ∈ members, p ∈ tokenObject t ∨ keyField p.1 = none)
    (hall : ∀ p ∈ tokenObject t, p ∈ members) (tok : Token) :
    decodeMembers members tok none = (t, none) := by
  have h1 := decodeMembers_token_err t members hlo hhi hmem tok none
  have h2 : (decodeMembers members tok none).1 = t := by
    apply eq_of_setField
    intro g
    exact decodeMembers_token_set t members hlo hhi hmem tok none g
      (hall _ (tokenObject_mem t g))
  exact Prod.ext h2 h1

/-! ## The claims about the token answer -/

/-- On status 200 with a body that is the UTF-8 text of a JSON value nested
no deeper than the limit, `GetToken` returns what the decoder makes of the
value. -/
theorem GetToken_text (c : Client) (net : Net) (req : Request) (resp : Response)
    (text : List Char) (v : Json)
    (hreq : c.tokenRequest net = .ok req) (hdo : net.Do req = .ok resp)
    (hs : resp.StatusCode = 200) (hread : resp.Body.failure = none)
    (hutf : resp.Body.data = encodeRunes text) (hbody : JsonText text v)
    (hdepth : v.depth ≤ maxNestingDepth) :
    c.GetToken net =
      { val := (decodeValue v Token.zero).1, err := (decodeValue v Token.zero).2,
        stream := some resp.Body.Close } := by
  rw [GetToken_ok c net req resp hreq hdo hs hread]
  simp only [Unmarshal, hutf, parseJSON_of_JsonText text v hbody hdepth]

/-- C4 as stated fails. The body carries the six fields of the token with
access token `abc` and has one more member, `ACCESS_TOKEN`: `GetToken`
returns a nil error and a token with the access token `zzz`. The body carries
`expires_in` as `36e2`, the number 3600: `GetToken` returns an
`UnmarshalTypeError` and a token with `ExpiresIn` 0. -/
theorem C4_other_members_count :
    (((NewGreenLakeClient "client_credentials" "id1" "s1" "t1" "https://gl.example").GetToken
        (netAnswering (respWith "200 OK" 200
          "\x7b\"access_token\":\"abc\",\"scope\":\"read\",\"token_type\":\"Bearer\",\"expiry\":\"2030-01-01\",\"expires_in\":3600,\"accessTokenOnly\":true,\"ACCESS_TOKEN\":\"zzz\"\x7d"))).val
      = { AccessToken := "zzz", Scope := "read", TokenType := "Bearer",
          Expiry := "2030-01-01", ExpiresIn := 3600, AccessTokenOnly := true } ∧
     ((NewGreenLakeClient "client_credentials" "id1" "s1" "t1" "https://gl.example").GetToken
        (netAnswering (respWith "200 OK" 200
          "\x7b\"access_token\":\"abc\",\"scope\":\"read\",\"token_type\":\"Bearer\",\"expiry\":\"2030-01-01\",\"expires_in\":3600,\"accessTokenOnly\":true,\"ACCESS_TOKEN\":\"zzz\"\x7d"))).err
      = none ∧
     ((NewGreenLakeClient "client_credentials" "id1" "s1" "t1" "https://gl.example").GetToken
        (netAnswering (respWith "200 OK" 200
          "\x7b\"access_token\":\"abc\",\"scope\":\"read\",\"token_type\":\"Bearer\",\"expiry\":\"2030-01-01\",\"expires_in\":3600,\"accessTokenOnly\":true,\"ACCESS_TOKEN\":\"zzz\"\x7d"))).val
      ≠ { AccessToken := "abc", Scope := "read", TokenType := "Bearer",
          Expiry := "2030-01-01", ExpiresIn := 3600, AccessTokenOnly := true }) ∧
    (((NewGreenLakeClient "client_credentials" "id1" "s1" "t1" "https://gl.example").GetToken
        (netAnswering (respWith "200 OK" 200
          "\x7b\"access_token\":\"abc\",\"scope\":\"read\",\"token_type\":\"Bearer\",\"expiry\":\"2030-01-01\",\"expires_in\":36e2,\"accessTokenOnly\":true\x7d"))).val
      = { AccessToken := "abc", Scope := "read", TokenType := "Bearer",
          Expiry := "2030-01-01", ExpiresIn := 0, AccessTokenOnly := true } ∧
     ((NewGreenLakeClient "client_credentials" "id1" "s1" "t1" "https://gl.example").GetToken
        (netAnswering (respWith "200 OK" 200
          "\x7b\"access_token\":\"abc\",\"scope\":\"read\",\"token_type\":\"Bearer\",\"expiry\":\"2030-01-01\",\"expires_in\":36e2,\"accessTokenOnly\":true\x7d"))).err
      = some (.unmarshalType "number 36e2" "expires_in")) := by
  refine ⟨⟨rfl, rfl, ?_⟩, ⟨rfl, rfl⟩⟩
  decide

/-- C4, amended: on status 200 with a body that is the UTF-8 text of a JSON
object (nested at most 10000 deep) which has the six members
`access_token`, `scope`, `token_type`, `expiry`, `expires_in` and
`accessTokenOnly` with the values of a token `t` (`expires_in` as the decimal
literal of the integer), in any order, and in which every other member has a
key that names no field of `Token`, not even without regard to case,
`GetToken` returns exactly `t` and a nil error. `ExpiresIn` is a Go `int`
(64 bits). -/
theorem C4_token_decoded (c : Client) (net : Net) (req : Request) (resp : Response)
    (t : Token) (text : List Char) (members : List (String × Json))
    (hlo : -2 ^ 63 ≤ t.ExpiresIn) (hhi : t.ExpiresIn < 2 ^ 63)
    (hreq : c.tokenRequest net = .ok req) (hdo : net.Do req = .ok resp)
    (hs : resp.StatusCode = 200) (hread : resp.Body.failure = none)
    (hutf : resp.Body.data = encodeRunes text)
    (hbody : JsonText text (.obj members))
    (hdepth : (Json.obj members).depth ≤ 10000)
    (hall : ∀ p ∈ tokenObject t, p ∈ members)
    (hmem : ∀ p ∈ members, p ∈ tokenObject t ∨ keyField p.1 = none) :
    (c.GetToken net).val = t ∧ (c.GetToken net).err = none := by
  rw [GetToken_text c net req resp text _ hreq hdo hs hread hutf hbody hdepth]
  simp only [decodeValue, decodeMembers_token t members hlo hhi hmem hall, and_self]

set_option maxRecDepth 100000 in
/-- C4, amended, at a body written over several lines, with the members in
another order, escapes in the access token, and a member `refresh_token`. -/
theorem C4_token_decoded_witness :
    ((NewGreenLakeClient "client_credentials" "id1" "s1" "t1" "https://gl.example").GetToken
        (netAnswering (respWith "200 OK" 200
          "\x7b\n  \"token_type\": \"Bearer\",\n  \"access_token\": \"a\\u0062c\\ud83d\\ude00\\u00E9ÿ\\n\",\n  \"refresh_token\": [\"x\", \x7b\"y\": null\x7d, -1.5E+3],\r\n\t\"scope\": \"read write\",\n  \"expiry\": \"2030-01-01\",\n  \"expires_in\": 3600 ,\n  \"accessTokenOnly\": true\n\x7d\n"))).val
      = { AccessToken := "abc😀éÿ\n", Scope := "read write", TokenType := "Bearer",
          Expiry := "2030-01-01", ExpiresIn := 3600, AccessTokenOnly := true } ∧
    ((NewGreenLakeClient "client_credentials" "id1" "s1" "t1" "https://gl.example").GetToken
        (netAnswering (respWith "200 OK" 200
          "\x7b\n  \"token_type\": \"Bearer\",\n  \"access_token\": \"a\\u0062c\\ud83d\\ude00\\u00E9ÿ\\n\",\n  \"refresh_token\": [\"x\", \x7b\"y\": null\x7d, -1.5E+3],\r\n\t\"scope\": \"read write\",\n  \"expiry\": \"2030-01-01\",\n  \"expires_in\": 3600 ,\n  \"accessTokenOnly\": true\n\x7d\n"))).err
      = none :=
  C4_token_decoded
    (NewGreenLakeClient "client_credentials" "id1" "s1" "t1" "https://gl.example")
    (netAnswering (respWith "200 OK" 200
      "\x7b\n  \"token_type\": \"Bearer\",\n  \"access_token\": \"a\\u0062c\\ud83d\\ude00\\u00E9ÿ\\n\",\n  \"refresh_token\": [\"x\", \x7b\"y\": null\x7d, -1.5E+3],\r\n\t\"scope\": \"read write\",\n  \"expiry\": \"2030-01-01\",\n  \"expires_in\": 3600 ,\n  \"accessTokenOnly\": true\n\x7d\n"))
    _
    (respWith "200 OK" 200
      "\x7b\n  \"token_type\": \"Bearer\",\n  \"access_token\": \"a\\u0062c\\ud83d\\ude00\\u00E9ÿ\\n\",\n  \"refresh_token\": [\"x\", \x7b\"y\": null\x7d, -1.5E+3],\r\n\t\"scope\": \"read write\",\n  \"expiry\": \"2030-01-01\",\n  \"expires_in\": 3600 ,\n  \"accessTokenOnly\": true\n\x7d\n")
    { AccessToken := "abc😀éÿ\n", Scope := "read write", TokenType := "Bearer",
      Expiry := "2030-01-01", ExpiresIn := 3600, AccessTokenOnly := true }
    "\x7b\n  \"token_type\": \"Bearer\",\n  \"access_token\": \"a\\u0062c\\ud83d\\ude00\\u00E9ÿ\\n\",\n  \"refresh_token\": [\"x\", \x7b\"y\": null\x7d, -1.5E+3],\r\n\t\"scope\": \"read write\",\n  \"expiry\": \"2030-01-01\",\n  \"expires_in\": 3600 ,\n  \"accessTokenOnly\": true\n\x7d\n".data
    [("token_type", .str "Bearer"), ("access_token", .str "abc😀éÿ\n"),
     ("refresh_token", .arr [.str "x", .obj [("y", .null)], .num "-1.5E+3"]),
     ("scope", .str "read write"), ("expiry", .str "2030-01-01"),
     ("expires_in", .num "3600"), ("accessTokenOnly", .bool true)]
    (by decide) (by decide) rfl rfl rfl rfl rfl
    (JsonText_of_parseJSON _ _ rfl)
    (by decide)
    (by
      intro p hp
      simp only [tokenObject, List.mem_cons, List.mem_singleton, List.not_mem_nil,
        or_false] at hp ⊢
      rcases hp with rfl | rfl | rfl | rfl | rfl | rfl
      · exact Or.inr (Or.inl rfl)
      · exact Or.inr (Or.inr (Or.inr (Or.inl rfl)))
      · exact Or.inl rfl
      · exact Or.inr (Or.inr (Or.inr (Or.inr (Or.inl rfl))))
      · exact Or.inr (Or.inr (Or.inr (Or.inr (Or.inr (Or.inl rfl)))))
      · exact Or.inr (Or.inr (Or.inr (Or.inr (Or.inr (Or.inr rfl))))))
    (by
      intro p hp
      simp only [tokenObject, List.mem_cons, List.mem_singleton, List.not_mem_nil,
        or_false] at hp ⊢
      rcases hp with rfl | rfl | rfl | rfl | rfl | rfl | rfl
      · exact Or.inl (Or.inr (Or.inr (Or.inl rfl)))
      · exact Or.inl (Or.inl rfl)
      · exact Or.inr rfl
      · exact Or.inl (Or.inr (Or.inl rfl))
      · exact Or.inl (Or.inr (Or.inr (Or.inr (Or.inl rfl))))
      · exact Or.inl (Or.inr (Or.inr (Or.inr (Or.inr (Or.inl rfl)))))
      · exact Or.inl (Or.inr (Or.inr (Or.inr (Or.inr (Or.inr rfl))))))

/-! ## Bodies that do not decode -/

/-- C3 as stated fails: for the body
`{"access_token":"abc","expires_in":"soon"}` the error is an
`UnmarshalTypeError`, and the token returned carries the access token. -/
theorem C3_wrong_type_keeps_fields :
    ((NewGreenLakeClient "client_credentials" "id1" "s1" "t1" "https://gl.example").GetToken
        (netAnswering (respWith "200 OK" 200
          "\x7b\"access_token\":\"abc\",\"expires_in\":\"soon\"\x7d"))).err
      = some (.unmarshalType "string" "expires_in") ∧
    ((NewGreenLakeClient "client_credentials" "id1" "s1" "t1" "https://gl.example").GetToken
        (netAnswering (respWith "200 OK" 200
          "\x7b\"access_token\":\"abc\",\"expires_in\":\"soon\"\x7d"))).val
      = { Token.zero with AccessToken := "abc" } ∧
    ((NewGreenLakeClient "client_credentials" "id1" "s1" "t1" "https://gl.example").GetToken
        (netAnswering (respWith "200 OK" 200
          "\x7b\"access_token\":\"abc\",\"expires_in\":\"soon\"\x7d"))).val
      ≠ Token.zero := by
  refine ⟨rfl, rfl, ?_⟩
  decide


/-- C3, amended: on status 200 with a body that is a UTF-8 text, `GetToken`
returns a decode error and the zero token when the text is no JSON text, and
when it is a JSON text of a value that is neither an object nor null. When
the text is a JSON text of an object in which a member that names a field of
`Token` has a value of the wrong type, `GetToken` returns the
`UnmarshalTypeError` of the first such member, and the token is what the
other members make of the zero token: only the members of the wrong type are
left out. -/
theorem C3_decode_error (c : Client) (net : Net) (req : Request) (resp : Response)
    (text : List Char)
    (hreq : c.tokenRequest net = .ok req) (hdo : net.Do req = .ok resp)
    (hs : resp.StatusCode = 200) (hread : resp.Body.failure = none)
    (hutf : resp.Body.data = encodeRunes text) :
    ((¬ ∃ v, JsonText text v) →
      (c.GetToken net).val = Token.zero ∧ (c.GetToken net).err = some .invalidJSON) ∧
    (∀ v, JsonText text v → v.depth ≤ 10000 → (∀ members, v ≠ .obj members) →
      v ≠ .null →
      (c.GetToken net).val = Token.zero ∧
      (c.GetToken net).err = some (.unmarshalType v.kindName "")) ∧
    (∀ (before after : List Reading) (k : String) (f : Field) (v : Json),
      JsonText text (.obj ((before ++ Reading.wrong k f v :: after).map Reading.member)) →
      (Json.obj ((before ++ Reading.wrong k f v :: after).map Reading.member)).depth ≤ 10000 →
      (∀ r ∈ before ++ Reading.wrong k f v :: after, r.Valid) →
      (∀ r ∈ before, r.isWrong = false) →
      (c.GetToken net).val = (before ++ after).foldl Reading.apply Token.zero ∧
      (c.GetToken net).err = some (.unmarshalType (wrongValue f v) f.name)) := by
  refine ⟨?_, ?_, ?_⟩
  · intro hno
    rw [GetToken_ok c net req resp hreq hdo hs hread]
    have hp : parseJSON (encodeRunes text) = none := by
      cases h : parseJSON (encodeRunes text) with
      | none => rfl
      | some v => exact absurd ⟨v, JsonText_of_parseJSON text v h⟩ hno
    simp only [Unmarshal, hutf, hp, and_self]
  · intro v hv hd hobj hnull
    rw [GetToken_text c net req resp text v hreq hdo hs hread hutf hv hd]
    cases v with
    | null => exact absurd rfl hnull
    | obj members => exact absurd rfl (hobj members)
    | bool b => exact ⟨rfl, rfl⟩
    | num lit => exact ⟨rfl, rfl⟩
    | str s => exact ⟨rfl, rfl⟩
    | arr elems => exact ⟨rfl, rfl⟩
  · intro before after k f v hv hd hr hb
    rw [GetToken_text c net req resp text _ hreq hdo hs hread hutf hv hd]
    simp only [decodeValue, decodeMembers_first_wrong before after k f v hr hb, and_self]

set_option maxRecDepth 100000 in
/-- C3, amended, at three bodies: a text that is no JSON text, an array, and
an object written over several lines in which `expires_in` is a number with a
fraction and `accessTokenOnly` a string, one key differs from the name of its
field in case and one is written with the Kelvin sign. -/
theorem C3_decode_error_witness :
    (((NewGreenLakeClient "client_credentials" "id1" "s1" "t1" "https://gl.example").GetToken
        (netAnswering (respWith "200 OK" 200
          "@@\x7b\"access_token\" ~ : \"abc\"\x7d!!"))).val = Token.zero ∧
     ((NewGreenLakeClient "client_credentials" "id1" "s1" "t1" "https://gl.example").GetToken
        (netAnswering (respWith "200 OK" 200
          "@@\x7b\"access_token\" ~ : \"abc\"\x7d!!"))).err = some .invalidJSON) ∧
    (((NewGreenLakeClient "client_credentials" "id1" "s1" "t1" "https://gl.example").GetToken
        (netAnswering (respWith "200 OK" 200 " [1, \"two\"]\n"))).val = Token.zero ∧
     ((NewGreenLakeClient "client_credentials" "id1" "s1" "t1" "https://gl.example").GetToken
        (netAnswering (respWith "200 OK" 200 " [1, \"two\"]\n"))).err
       = some (.unmarshalType "array" "")) ∧
    (((NewGreenLakeClient "client_credentials" "id1" "s1" "t1" "https://gl.example").GetToken
        (netAnswering (respWith "200 OK" 200
          "\x7b\n  \"Access_Token\": \"a\\u0062c\",\n  \"scope\": null,\n  \"expires_in\": 1.5,\n  \"extra\": 1,\n  \"accessTokenOnly\": \"yes\",\n  \"to\\u212Aen_type\": \"Bearer\"\n\x7d"))).val
       = { AccessToken := "abc", Scope := "", TokenType := "Bearer", Expiry := "",
           ExpiresIn := 0, AccessTokenOnly := false } ∧
     ((NewGreenLakeClient "client_credentials" "id1" "s1" "t1" "https://gl.example").GetToken
        (netAnswering (respWith "200 OK" 200
          "\x7b\n  \"Access_Token\": \"a\\u0062c\",\n  \"scope\": null,\n  \"expires_in\": 1.5,\n  \"extra\": 1,\n  \"accessTokenOnly\": \"yes\",\n  \"to\\u212Aen_type\": \"Bearer\"\n\x7d"))).err
       = some (.unmarshalType "number 1.5" "expires_in")) :=
  ⟨(C3_decode_error
      (NewGreenLakeClient "client_credentials" "id1" "s1" "t1" "https://gl.example")
      (netAnswering (respWith "200 OK" 200 "@@\x7b\"access_token\" ~ : \"abc\"\x7d!!")) _
      (respWith "200 OK" 200 "@@\x7b\"access_token\" ~ : \"abc\"\x7d!!")
      "@@\x7b\"access_token\" ~ : \"abc\"\x7d!!".data rfl rfl rfl rfl rfl).1
      (not_JsonText _ (by decide) rfl),
   (C3_decode_error
      (NewGreenLakeClient "client_credentials" "id1" "s1" "t1" "https://gl.example")
      (netAnswering (respWith "200 OK" 200 " [1, \"two\"]\n")) _
      (respWith "200 OK" 200 " [1, \"two\"]\n")
      " [1, \"two\"]\n".data rfl rfl rfl rfl rfl).2.1
      (.arr [.num "1", .str "two"]) (JsonText_of_parseJSON _ _ rfl) (by decide)
      (fun _ h => Json.noConfusion h) (fun h => Json.noConfusion h),
   (C3_decode_error
      (NewGreenLakeClient "client_credentials" "id1" "s1" "t1" "https://gl.example")
      (netAnswering (respWith "200 OK" 200
        "\x7b\n  \"Access_Token\": \"a\\u0062c\",\n  \"scope\": null,\n  \"expires_in\": 1.5,\n  \"extra\": 1,\n  \"accessTokenOnly\": \"yes\",\n  \"to\\u212Aen_type\": \"Bearer\"\n\x7d")) _
      (respWith "200 OK" 200
        "\x7b\n  \"Access_Token\": \"a\\u0062c\",\n  \"scope\": null,\n  \"expires_in\": 1.5,\n  \"extra\": 1,\n  \"accessTokenOnly\": \"yes\",\n  \"to\\u212Aen_type\": \"Bearer\"\n\x7d")
      "\x7b\n  \"Access_Token\": \"a\\u0062c\",\n  \"scope\": null,\n  \"expires_in\": 1.5,\n  \"extra\": 1,\n  \"accessTokenOnly\": \"yes\",\n  \"to\\u212Aen_type\": \"Bearer\"\n\x7d".data
      rfl rfl rfl rfl rfl).2.2
      [.set "Access_Token" .AccessToken (Token.mk "abc" "" "" "" 0 false),
       .null "scope" .Scope]
      [.skip "extra" (.num "1"), .wrong "accessTokenOnly" .AccessTokenOnly (.str "yes"),
       .set "toKen_type" .TokenType (Token.mk "" "" "Bearer" "" 0 false)]
      "expires_in" .ExpiresIn (.num "1.5")
      (JsonText_of_parseJSON _ _ rfl) (by decide)
      (by
        intro r hr
        simp only [List.mem_append, List.mem_cons, List.mem_singleton, List.not_mem_nil,
          or_false] at hr
        rcases hr with (rfl | rfl) | rfl | rfl | rfl | rfl
        · exact ⟨rfl, by decide, by decide⟩
        · exact rfl
        · exact ⟨rfl, Or.inl ⟨'.', by decide, Or.inl rfl⟩⟩
        · exact rfl
        · exact ⟨rfl, trivial⟩
        · exact ⟨rfl, by decide, by decide⟩)
      (by decide)⟩

/-! ## The body of the token request is the JSON object of the four fields -/

theorem hexValue_hexDigit : ∀ k, k < 16 → hexValue (hexDigit k) = some k := by
  decide

theorem lexLoop_nil_out (st : Lex) (toks : List Tok) (c : Char) (cs : List Char) (st2 : Lex)
    (h : lexStep st c = some (st2, [])) :
    lexLoop st toks (c :: cs) = lexLoop st2 toks cs := by
  simp [lexLoop, h]

theorem lexLoop_one_out (st : Lex) (toks : List Tok) (c : Char) (cs : List Char) (st2 : Lex)
    (t : Tok) (h : lexStep st c = some (st2, [t])) :
    lexLoop st toks (c :: cs) = lexLoop st2 (t :: toks) cs := by
  simp [lexLoop, h]

/-- Inside a string, the escape of a rune reads back as the rune. -/
theorem lexLoop_escapeRune (c : Char) (acc : List Char) (toks : List Tok) (rest : List Char) :
    lexLoop (.inString acc none) toks (escapeRune c ++ rest)
      = lexLoop (.inString (c :: acc) none) toks rest := by
  unfold escapeRune
  split
  · rename_i h
    simp only [Bool.or_eq_true, beq_iff_eq] at h
    rcases h with h | h <;> subst h <;> rfl
  · split
    · rename_i h; simp only [beq_iff_eq] at h; subst h; rfl
    · split
      · rename_i h; simp only [beq_iff_eq] at h; subst h; rfl
      · split
        · rename_i h; simp only [beq_iff_eq] at h; subst h; rfl
        · split
          · rename_i h; simp only [beq_iff_eq] at h; subst h; rfl
          · split
            · rename_i h; simp only [beq_iff_eq] at h; subst h; rfl
            · split
              · rename_i hq hb hf hn hr ht h
                have hlt : c.toNat < 128 := by
                  simp only [Bool.or_eq_true, decide_eq_true_eq, beq_iff_eq] at h
                  rcases h with ((h | h) | h) | h
                  · omega
                  · subst h; decide
                  · subst h; decide
                  · subst h; decide
                have h1 := hexValue_hexDigit (c.toNat / 16) (by omega)
                have h2 := hexValue_hexDigit (c.toNat % 16) (by omega)
                have hv : c.toNat / 16 * 16 + c.toNat % 16 = c.toNat := by omega
                simp only [List.cons_append, List.nil_append]
                rw [lexLoop_nil_out (.inString acc none) toks '\\' _ (.inStringEsc acc none) rfl,
                  lexLoop_nil_out (.inStringEsc acc none) toks 'u' _
                    (.inStringEscU acc none 0 0) rfl,
                  lexLoop_nil_out (.inStringEscU acc none 0 0) toks '0' _
                    (.inStringEscU acc none 1 0) rfl,
                  lexLoop_nil_out (.inStringEscU acc none 1 0) toks '0' _
                    (.inStringEscU acc none 2 0) rfl,
                  lexLoop_nil_out (.inStringEscU acc none 2 0) toks _ _
                    (.inStringEscU acc none 3 (c.toNat / 16)) (by simp [lexStep, h1]),
                  lexLoop_nil_out (.inStringEscU acc none 3 (c.toNat / 16)) toks _ _
                    (.inString (c :: acc) none)
                    (by
                      simp only [lexStep, h2, hv, endEscU]
                      have a1 : ¬ (0xD800 ≤ c.toNat) := by omega
                      have a2 : ¬ (0xDC00 ≤ c.toNat) := by omega
                      simp [a1, a2, Char.ofNat_toNat])]
              · split
                · rename_i h; simp only [beq_iff_eq] at h; subst h; rfl
                · split
                  · rename_i h; simp only [beq_iff_eq] at h; subst h; rfl
                  · rename_i hq hb hf hn hr ht h h8 h9
                    simp only [Bool.or_eq_true, beq_iff_eq, decide_eq_true_eq, not_or] at hq h
                    simp only [List.cons_append, List.nil_append]
                    apply lexLoop_nil_out
                    simp only [lexStep, flushHi]
                    have b1 : (c == '"') = false := by simpa using hq.1
                    have b2 : (c == '\\') = false := by simpa using hq.2
                    have b3 : ¬ (c.toNat < 0x20) := h.1.1.1
                    simp [b1, b2, b3]

/-- A string literal written by `appendString` reads back as the string. -/
theorem lexLoop_string_body (l : List Char) (acc : List Char) (toks : List Tok)
    (rest : List Char) :
    lexLoop (.inString acc none) toks (l.flatMap escapeRune ++ '"' :: rest)
      = lexLoop .start (Tok.str (String.mk (acc.reverse ++ l)) :: toks) rest := by
  induction l generalizing acc with
  | nil =>
    simp only [List.flatMap_nil, List.nil_append, List.append_nil]
    exact lexLoop_one_out _ _ _ _ _ _ rfl
  | cons c cs ih =>
    rw [List.flatMap_cons, List.append_assoc, lexLoop_escapeRune, ih]
    simp

theorem lexLoop_quoteJSON (s : String) (toks : List Tok) (rest : List Char) :
    lexLoop .start toks (quoteJSON s ++ rest) = lexLoop .start (Tok.str s :: toks) rest := by
  unfold quoteJSON
  simp only [List.cons_append, List.append_assoc, List.singleton_append]
  rw [lexLoop_nil_out .start toks '"' _ (.inString [] none) rfl]
  exact lexLoop_string_body s.data [] toks rest

theorem lexLoop_members (es : List (String × String)) (toks : List Tok) (rest : List Char) :
    lexLoop .start toks (renderMembers es ++ rest)
      = lexLoop .start ((memberToks es).reverse ++ toks) rest := by
  induction es generalizing toks with
  | nil => rfl
  | cons e es ih =>
    cases es with
    | nil =>
      simp only [renderMembers, memberToks, List.append_assoc, List.cons_append]
      rw [lexLoop_quoteJSON, lexLoop_one_out .start _ ':' _ .start .colon rfl,
        lexLoop_quoteJSON]
      simp
    | cons e2 es2 =>
      simp only [renderMembers, memberToks, List.append_assoc, List.cons_append]
      rw [lexLoop_quoteJSON, lexLoop_one_out .start _ ':' _ .start .colon rfl,
        lexLoop_quoteJSON, lexLoop_one_out .start _ ',' _ .start .comma rfl]
      have h := ih (Tok.comma :: Tok.str e.2 :: Tok.colon :: Tok.str e.1 :: toks)
      simp only [renderMembers, List.append_assoc, List.cons_append] at h
      rw [h]
      simp

/-- The scanner reads the text `Marshal` writes as the tokens of an object. -/
theorem lex_object (es : List (String × String)) :
    lex ('\x7b' :: renderMembers es ++ ['\x7d'])
      = some (Tok.lbrace :: memberToks es ++ [Tok.rbrace]) := by
  unfold lex
  rw [List.cons_append, lexLoop_one_out .start [] '\x7b' _ .start .lbrace rfl, lexLoop_members,
    lexLoop_one_out .start _ '\x7d' [] .start .rbrace rfl]
  simp [lexLoop]

theorem parseLoop_cons (stack : List Frame) (mode : Mode) (t : Tok) (ts : List Tok)
    (stack2 : List Frame) (mode2 : Mode) (h : parseStep stack mode t = some (stack2, mode2)) :
    parseLoop stack mode (t :: ts) = parseLoop stack2 mode2 ts := by
  cases mode <;> simp [parseLoop, h]

theorem parseLoop_member (k v : String) (acc : List (String × Json)) (s : List Frame)
    (b : Bool) (ts : List Tok) :
    parseLoop (.obj acc none :: s) (.key b) (.str k :: .colon :: .str v :: ts)
      = parseLoop (.obj ((k, .str v) :: acc) none :: s) .after ts := by
  rw [parseLoop_cons (.obj acc none :: s) (.key b) (.str k) _ (.obj acc (some k) :: s) .colon
      (by cases b <;> rfl),
    parseLoop_cons (.obj acc (some k) :: s) .colon .colon _ (.obj acc (some k) :: s)
      (.value false) rfl,
    parseLoop_cons (.obj acc (some k) :: s) (.value false) (.str v) _
      (.obj ((k, .str v) :: acc) none :: s) .after rfl]

theorem parseLoop_members (es : List (String × String)) (hne : es ≠ [])
    (acc : List (String × Json)) (s : List Frame) (b : Bool) (ts : List Tok) :
    parseLoop (.obj acc none :: s) (.key b) (memberToks es ++ ts)
      = parseLoop
          (.obj ((es.map (fun e => (e.1, Json.str e.2))).reverse ++ acc) none :: s) .after ts := by
  induction es generalizing acc b with
  | nil => exact absurd rfl hne
  | cons e es ih =>
    cases es with
    | nil =>
      simp only [memberToks, List.cons_append, List.nil_append]
      rw [parseLoop_member]
      simp
    | cons e2 es2 =>
      simp only [memberToks, List.cons_append]
      rw [parseLoop_member,
        parseLoop_cons (.obj ((e.1, .str e.2) :: acc) none :: s) .after .comma _
          (.obj ((e.1, .str e.2) :: acc) none :: s) (.key false) rfl]
      have h := ih (by simp) ((e.1, .str e.2) :: acc) false
      simp only [memberToks, List.cons_append] at h
      rw [h]
      simp

/-- The parser reads the tokens of an object of strings as that object. -/
theorem parseLoop_object (es : List (String × String)) :
    parseLoop [] (.value false) (Tok.lbrace :: memberToks es ++ [Tok.rbrace])
      = some (stringObject es) := by
  rw [List.cons_append,
    parseLoop_cons [] (.value false) .lbrace _ [.obj [] none] (.key true) rfl]
  cases es with
  | nil => rfl
  | cons e es =>
    rw [parseLoop_members (e :: es) (by simp) [] [] true [Tok.rbrace],
      parseLoop_cons
        [.obj (((e :: es).map (fun e => (e.1, Json.str e.2))).reverse ++ []) none]
        .after .rbrace [] [] (.done (.obj ((e :: es).map (fun e => (e.1, Json.str e.2)))))
        (by simp [parseStep, complete])]
    rfl

/-- What `json.Marshal` writes for a `map[string]string` parses as the JSON
object with the keys of the map in sorted order, each mapped to its string. -/
theorem parseJSON_Marshal (m : List (String × String)) :
    parseJSON (Marshal m) = some (stringObject (sortEntries m)) := by
  unfold parseJSON Marshal
  rw [decodeRunes_encodeRunes, lex_object]
  exact parseLoop_object _

/-- The body of the request `GetToken` builds is a JSON object with exactly
the keys `client_id`, `client_secret`, `grant_type` and `tenant_id`, mapped to
the fields of the client. -/
theorem tokenRequest_body_object (c : Client) (net : Net) (req : Request)
    (h : c.tokenRequest net = .ok req) :
    ∃ body, req.Body = some body ∧
      parseJSON body = some (.obj [("client_id", .str c.ClientID),
        ("client_secret", .str c.ClientSecret), ("grant_type", .str c.GrantType),
        ("tenant_id", .str c.TenantID)]) := by
  rw [tokenRequest_ok c net req h]
  exact ⟨_, rfl, parseJSON_Marshal _⟩

end greenlake
